import Mathlib

/-!
# intmap: an open-addressing hash table with linear probing

A shallow embedding of `intmap.go` (package `intmap`) and a verification of
its contract.

Modelling conventions.

* `uint32` fields are natural numbers kept below `u32 = 2^32`; every
  increment, decrement and doubling of the source is taken modulo `u32`.
* `interface{}` values are `Option V`: `none` is Go's `nil`.
* A Go panic (slice bounds out of range, index out of range, the explicit
  `panic("Hashmap should never be full")`) is the result `none` of the
  operation; a normal return is `some _`.
* `error` results are `Option error`: `none` is a `nil` error.
* The mixing function `bithacks.Fmix32` lives in another repository; every
  operation takes it as the parameter `mix`.
-/

namespace IntMap

/-- Number of values of a `uint32`. -/
def u32 : Nat := 4294967296

/-- Subtraction on `uint32` values (both operands below `2^32`): the result
wraps around when `b` exceeds `a`. -/
def sub32 (a b : Nat) : Nat := if b ≤ a then a - b else a + u32 - b

/-- The package's only error value, `ErrNotFound`. -/
inductive error where
  | ErrNotFound
  deriving DecidableEq, Repr

/-- Source: `type intnode struct { key uint32; value interface{} }`. -/
structure intnode (V : Type) where
  key : Nat
  value : Option V
  deriving DecidableEq, Repr

/-- Source: `type stats struct`. -/
structure stats where
  numElements : Nat
  numSlots : Nat
  numFinds : Nat
  numSteps : Nat
  numResizes : Nat
  deriving DecidableEq, Repr

/-- Source: `type IntegerMap struct { nodes []intnode; stats stats }`. -/
structure IntegerMap (V : Type) where
  nodes : List (intnode V)
  stats : stats
  deriving DecidableEq, Repr

/-- Source: `DefaultIntegerMapSize = 10`. -/
def DefaultIntegerMapSize : Nat := 10

/-- Modelled from the spec: `bithacks.RoundUpPowerOfTwo32` is defined in another
repository; the spec says construction "rounds capacity up to the next power of
two" (10 becomes 16).  The usual bit-smearing computation on a `uint32`. -/
def RoundUpPowerOfTwo32 (n : Nat) : Nat :=
  let n0 := sub32 (n % u32) 1
  let n1 := n0 ||| (n0 >>> 1)
  let n2 := n1 ||| (n1 >>> 2)
  let n3 := n2 ||| (n2 >>> 4)
  let n4 := n3 ||| (n3 >>> 8)
  let n5 := n4 ||| (n4 >>> 16)
  (n5 + 1) % u32

/-- Modelled from the spec: `bithacks.Fmix32` is defined in another repository;
the spec calls it "a fixed, deterministic avalanche/mixing function over 32-bit
integers (finalizer-style bit mixing)".  This is the MurmurHash3 32-bit
finaliser; it is used only to instantiate the parameter `mix` at concrete
inputs. -/
def Fmix32 (h : Nat) : Nat :=
  let h0 := h % u32
  let h1 := h0 ^^^ (h0 >>> 16)
  let h2 := (h1 * 2246822507) % u32
  let h3 := h2 ^^^ (h2 >>> 13)
  let h4 := (h3 * 3266489909) % u32
  h4 ^^^ (h4 >>> 16)

/-- The zero value of `intnode`, as produced by `make([]intnode, n)`. -/
def emptyNode {V : Type} : intnode V := { key := 0, value := none }

/-- Source: `NewIntegerMap`. -/
def NewIntegerMap {V : Type} : IntegerMap V :=
  { nodes := List.replicate (RoundUpPowerOfTwo32 DefaultIntegerMapSize) emptyNode
    stats :=
      { numElements := 0
        numSlots := RoundUpPowerOfTwo32 DefaultIntegerMapSize % u32
        numFinds := 0
        numSteps := 0
        numResizes := 0 } }

/-- Source: `IntegerMap.Size` (`int` is taken to be 64 bits wide). -/
def Size {V : Type} (m : IntegerMap V) : Int := (m.stats.numSlots : Int)

/-- Source: `IntegerMap.Len` (`int` is taken to be 64 bits wide). -/
def Len {V : Type} (m : IntegerMap V) : Int := (m.stats.numElements : Int)

/-- Source: `IntegerMap.index`, `Fmix32(k) & (numSlots - 1)` on `uint32`. -/
def index {V : Type} (mix : Nat → Nat) (m : IntegerMap V) (k : Nat) : Nat :=
  (mix k % u32) &&& sub32 m.stats.numSlots 1

/-- One probe loop of `find`: the slots `js` are visited in order, each visit
adds one to `numSteps`; the loop returns from `find` at the first slot that
holds `k` with a non-nil value (`(j, nil)`) or has a nil value
(`(j, ErrNotFound)`).  The inner `none` means the loop ran to its end. -/
def findLoop {V : Type} (nodes : List (intnode V)) (k : Nat) :
    List Nat → Nat → Option (Nat × Option (Int × Option error))
  | [], steps => some (steps, none)
  | j :: js, steps =>
    match nodes[j]? with
    | none => none
    | some n =>
      if n.key = k ∧ n.value.isSome = true then
        some ((steps + 1) % u32, some ((j : Int), none))
      else if n.value.isSome = false then
        some ((steps + 1) % u32, some ((j : Int), some error.ErrNotFound))
      else findLoop nodes k js ((steps + 1) % u32)

/-- Writes the step counter back into the table. -/
def withSteps {V : Type} (m : IntegerMap V) (steps : Nat) : IntegerMap V :=
  { m with stats := { m.stats with numSteps := steps } }

/-- Source: `IntegerMap.find`.  The first loop ranges over `nodes[idx:]`
(slots `idx, idx+1, ...`), the second over `nodes[:idx]`; both slice
expressions panic when `idx` exceeds the length of `nodes`. -/
def find {V : Type} (mix : Nat → Nat) (m : IntegerMap V) (k : Nat) :
    Option (IntegerMap V × Int × Option error) :=
  let m1 : IntegerMap V :=
    { m with stats := { m.stats with numFinds := (m.stats.numFinds + 1) % u32 } }
  let idx := index mix m1 k
  if m1.nodes.length < idx then none
  else
    match findLoop m1.nodes k
        ((List.range (m1.nodes.length - idx)).map (fun i => idx + i)) m1.stats.numSteps with
    | none => none
    | some (s1, some r) => some (withSteps m1 s1, r)
    | some (s1, none) =>
      match findLoop m1.nodes k (List.range idx) s1 with
      | none => none
      | some (s2, some r) => some (withSteps m1 s2, r)
      | some (s2, none) => some (withSteps m1 s2, ((-1 : Int), some error.ErrNotFound))

/-- Source: `IntegerMap.Search`. -/
def Search {V : Type} (mix : Nat → Nat) (m : IntegerMap V) (k : Nat) :
    Option (IntegerMap V × Option V × Option error) :=
  match find mix m k with
  | none => none
  | some (m1, i, err) =>
    if err = some error.ErrNotFound then some (m1, none, some error.ErrNotFound)
    else if i < 0 then none
    else
      match m1.nodes[i.toNat]? with
      | none => none
      | some n => some (m1, n.value, none)

/-- Source: `IntegerMap.Delete`. -/
def Delete {V : Type} (mix : Nat → Nat) (m : IntegerMap V) (k : Nat) :
    Option (IntegerMap V × Option V × Option error) :=
  match find mix m k with
  | none => none
  | some (m1, i, err) =>
    if err = some error.ErrNotFound then some (m1, none, some error.ErrNotFound)
    else if i < 0 then none
    else
      match m1.nodes[i.toNat]? with
      | none => none
      | some n =>
        some ({ nodes := m1.nodes.set i.toNat { n with value := none }
                stats := { m1.stats with numElements := sub32 m1.stats.numElements 1 } },
              n.value, none)

/-- Source: `IntegerMap.insert`. -/
def insert {V : Type} (mix : Nat → Nat) (m : IntegerMap V) (k : Nat) (v : Option V) :
    Option (IntegerMap V × Option error) :=
  match find mix m k with
  | none => none
  | some (m1, i, err) =>
    if err = some error.ErrNotFound then
      if i ≠ -1 then
        if i < 0 then none
        else
          match m1.nodes[i.toNat]? with
          | none => none
          | some _ =>
            some ({ nodes := m1.nodes.set i.toNat { key := k, value := v }
                    stats := { m1.stats with
                      numElements := (m1.stats.numElements + 1) % u32 } },
                  none)
      else none
    else if i < 0 then none
    else
      match m1.nodes[i.toNat]? with
      | none => none
      | some n => some ({ m1 with nodes := m1.nodes.set i.toNat { n with value := v } }, none)

/-- The loop of `resize`: every node of the old array with a non-nil value is
inserted into the new table, in array order. -/
def resizeLoop {V : Type} (mix : Nat → Nat) :
    List (intnode V) → IntegerMap V → Option (IntegerMap V)
  | [], m => some m
  | n :: ns, m =>
    if n.value.isSome = true then
      match insert mix m n.key n.value with
      | none => none
      | some (m1, _) => resizeLoop mix ns m1
    else resizeLoop mix ns m

/-- Source: `IntegerMap.resize`. -/
def resize {V : Type} (mix : Nat → Nat) (m : IntegerMap V) : Option (IntegerMap V) :=
  let newlen := (m.stats.numSlots * 2) % u32
  let m1 : IntegerMap V :=
    { nodes := List.replicate newlen emptyNode
      stats := { m.stats with numElements := 0, numSlots := newlen } }
  match resizeLoop mix m.nodes m1 with
  | none => none
  | some m2 =>
    some { m2 with stats := { m2.stats with numResizes := (m2.stats.numResizes + 1) % u32 } }

/-- The load-factor test of `Insert`,
`float64(numElements)/float64(numSlots) > 0.75`.  Both operands are `uint32`
values, which `float64` represents exactly; the quotient of two such values
differs from `0.75` by at least `2^-34` unless it equals it, so rounding to
`float64` cannot change the outcome of the comparison, and for `numSlots = 0`
the quotient is `+Inf` or `NaN`, which is above `0.75` exactly when
`numElements` is positive.  Hence the test is `4 * numElements > 3 * numSlots`. -/
def overLoad {V : Type} (m : IntegerMap V) : Bool :=
  decide (3 * m.stats.numSlots < 4 * m.stats.numElements)

/-- Source: `IntegerMap.Insert`. -/
def Insert {V : Type} (mix : Nat → Nat) (m : IntegerMap V) (k : Nat) (v : Option V) :
    Option (IntegerMap V × Option error) :=
  if overLoad m = true then
    match resize mix m with
    | none => none
    | some m1 => insert mix m1 k v
  else insert mix m k v

/-- Tables reachable from `NewIntegerMap()` by calls of `Insert` with a
non-nil value, `Delete` and `Search` that return. -/
inductive Reachable {V : Type} (mix : Nat → Nat) : IntegerMap V → Prop
  | new : Reachable mix NewIntegerMap
  | insert {m m1 : IntegerMap V} {k : Nat} {v : V} {e : Option error} :
      Reachable mix m → Insert mix m k (some v) = some (m1, e) → Reachable mix m1
  | delete {m m1 : IntegerMap V} {k : Nat} {r : Option V × Option error} :
      Reachable mix m → Delete mix m k = some (m1, r) → Reachable mix m1
  | search {m m1 : IntegerMap V} {k : Nat} {r : Option V × Option error} :
      Reachable mix m → Search mix m k = some (m1, r) → Reachable mix m1

/-- A sequence of `Insert` calls with non-nil values, applied in order. -/
def insertAll {V : Type} (mix : Nat → Nat) :
    IntegerMap V → List (Nat × V) → Option (IntegerMap V)
  | m, [] => some m
  | m, (k, v) :: ops =>
    match Insert mix m k (some v) with
    | none => none
    | some (m1, _) => insertAll mix m1 ops

/-! ## Specification vocabulary

Predicates and auxiliary functions in which the properties of the table are
stated. -/

/-- Slot `p` holds a non-nil value under a key other than `k`: a probe for `k`
steps over it. -/
def Pass {V : Type} (nodes : List (intnode V)) (k p : Nat) : Prop :=
  ∃ n, nodes[p]? = some n ∧ n.value.isSome = true ∧ n.key ≠ k

/-- Slot `j` holds key `k` with a non-nil value. -/
def Occ {V : Type} (nodes : List (intnode V)) (k j : Nat) : Prop :=
  ∃ n, nodes[j]? = some n ∧ n.value.isSome = true ∧ n.key = k

/-- Slot `j` exists and is empty (nil value). -/
def Vacant {V : Type} (nodes : List (intnode V)) (j : Nat) : Prop :=
  ∃ n, nodes[j]? = some n ∧ n.value.isSome = false

/-- Slot `j` exists and is non-empty. -/
def Live {V : Type} (nodes : List (intnode V)) (j : Nat) : Prop :=
  ∃ n, nodes[j]? = some n ∧ n.value.isSome = true

/-- The order in which `find` visits the slots of an array of length `len`
when it starts at `idx`: `idx, ..., len-1, 0, ..., idx-1`. -/
def probeSeq (idx len : Nat) : List Nat :=
  (List.range (len - idx)).map (fun i => idx + i) ++ List.range idx

/-- The probe along `js` stops at `j`, which holds `k`. -/
def ProbeFound {V : Type} (nodes : List (intnode V)) (js : List Nat) (k j : Nat) : Prop :=
  ∃ l1 l2, js = l1 ++ j :: l2 ∧ (∀ p ∈ l1, Pass nodes k p) ∧ Occ nodes k j

/-- The probe along `js` stops at `j`, which is empty. -/
def ProbeVacant {V : Type} (nodes : List (intnode V)) (js : List Nat) (k j : Nat) : Prop :=
  ∃ l1 l2, js = l1 ++ j :: l2 ∧ (∀ p ∈ l1, Pass nodes k p) ∧ Vacant nodes j

/-- The probe along `js` steps over every slot. -/
def ProbeFull {V : Type} (nodes : List (intnode V)) (js : List Nat) (k : Nat) : Prop :=
  ∀ p ∈ js, Pass nodes k p

/-- The table `m1` differs from `m` in the statistics `numFinds` and `numSteps`
only. -/
def SameTable {V : Type} (m m1 : IntegerMap V) : Prop :=
  m1.nodes = m.nodes ∧ m1.stats.numElements = m.stats.numElements ∧
    m1.stats.numSlots = m.stats.numSlots ∧ m1.stats.numResizes = m.stats.numResizes

/-- Number of non-empty slots. -/
def liveCount {V : Type} (nodes : List (intnode V)) : Nat :=
  nodes.countP (fun n => n.value.isSome)

/-- The array has `numSlots` slots and `numSlots` is a positive `uint32`. -/
def Shape {V : Type} (m : IntegerMap V) : Prop :=
  m.nodes.length = m.stats.numSlots ∧ 0 < m.stats.numSlots ∧ m.stats.numSlots < u32

/-- The probe order of key `k` in table `m`. -/
def probeOf {V : Type} (mix : Nat → Nat) (m : IntegerMap V) (k : Nat) : List Nat :=
  probeSeq (index mix m k) m.nodes.length

/-- The array has `numSlots` slots and `numElements` counts its non-empty
slots. -/
def Counted {V : Type} (m : IntegerMap V) : Prop :=
  Shape m ∧ m.stats.numElements = liveCount m.nodes

/-- Every non-empty slot is the one at which the probe for its key stops. -/
def Good {V : Type} (mix : Nat → Nat) (m : IntegerMap V) : Prop :=
  ∀ j k, Occ m.nodes k j → ProbeFound m.nodes (probeOf mix m k) k j

/-- Some slot holds the pair `(k, v)`. -/
def Holds {V : Type} (nodes : List (intnode V)) (k : Nat) (v : V) : Prop :=
  ({ key := k, value := some v } : intnode V) ∈ nodes

/-- Invariant of every table reachable from `NewIntegerMap()`: the array has
`numSlots` slots, `numSlots` is a power of two between `2^4` and `2^31`,
`numElements` counts the non-empty slots, and the load is at most one element
above three quarters. -/
def Inv {V : Type} (m : IntegerMap V) : Prop :=
  Counted m ∧ (∃ e, 4 ≤ e ∧ e ≤ 31 ∧ m.stats.numSlots = 2 ^ e) ∧
    4 * m.stats.numElements ≤ 3 * m.stats.numSlots + 4

/-- The probe for `k` stops at a slot holding the pair `(k, v)`. -/
def Stored {V : Type} (mix : Nat → Nat) (m : IntegerMap V) (k : Nat) (v : V) : Prop :=
  ∃ j, ProbeFound m.nodes (probeOf mix m k) k j ∧
    m.nodes[j]? = some ({ key := k, value := some v } : intnode V)

/-- Tables reachable from `NewIntegerMap()` by calls of `Insert` with any
value (nil included), `Delete` and `Search` that return. -/
inductive ReachableAny {V : Type} (mix : Nat → Nat) : IntegerMap V → Prop
  | new : ReachableAny mix NewIntegerMap
  | insert {m m1 : IntegerMap V} {k : Nat} {v : Option V} {e : Option error} :
      ReachableAny mix m → Insert mix m k v = some (m1, e) → ReachableAny mix m1
  | delete {m m1 : IntegerMap V} {k : Nat} {r : Option V × Option error} :
      ReachableAny mix m → Delete mix m k = some (m1, r) → ReachableAny mix m1
  | search {m m1 : IntegerMap V} {k : Nat} {r : Option V × Option error} :
      ReachableAny mix m → Search mix m k = some (m1, r) → ReachableAny mix m1

/-- Invariant of the tables reachable with arbitrary values: as `Inv`, except
that `numElements` may exceed the number of non-empty slots. -/
def InvAny {V : Type} (m : IntegerMap V) : Prop :=
  Shape m ∧ (∃ e, 4 ≤ e ∧ e ≤ 31 ∧ m.stats.numSlots = 2 ^ e) ∧
    liveCount m.nodes ≤ m.stats.numElements ∧
    4 * m.stats.numElements ≤ 3 * m.stats.numSlots + 4

/-- One call of the public interface: `Insert` with a non-nil value, `Delete`
or `Search`. -/
inductive Op (V : Type) where
  | insert (k : Nat) (v : V)
  | delete (k : Nat)
  | search (k : Nat)

/-- A sequence of calls applied in order; the results of the calls are
dropped, a panic ends the run. -/
def runOps {V : Type} (mix : Nat → Nat) : IntegerMap V → List (Op V) → Option (IntegerMap V)
  | m, [] => some m
  | m, Op.insert k v :: ops =>
    match Insert mix m k (some v) with
    | none => none
    | some (m1, _) => runOps mix m1 ops
  | m, Op.delete k :: ops =>
    match Delete mix m k with
    | none => none
    | some (m1, _) => runOps mix m1 ops
  | m, Op.search k :: ops =>
    match Search mix m k with
    | none => none
    | some (m1, _) => runOps mix m1 ops

/-- The value `v` was given by the last pair for key `k` in `ops`. -/
def LastValue {V : Type} (ops : List (Nat × V)) (k : Nat) (v : V) : Prop :=
  ∃ pre post, ops = pre ++ (k, v) :: post ∧ ∀ p ∈ post, p.1 ≠ k

/-- Keys of the non-empty slots, in array order. -/
def keysOf {V : Type} (nodes : List (intnode V)) : List Nat :=
  (nodes.filter (fun n => n.value.isSome)).map (fun n => n.key)

/-- The table after `Insert(1, 100); Insert(3, 300)` on a fresh table with the
mixing function `Fmix32`: both keys start at slot 7, so key 3 sits in slot 8. -/
def twoKeyTable : IntegerMap Nat :=
  { nodes := List.replicate 7 emptyNode ++
      [{ key := 1, value := some 100 }, { key := 3, value := some 300 }] ++
      List.replicate 7 emptyNode
    stats := { numElements := 2, numSlots := 16, numFinds := 2, numSteps := 3,
               numResizes := 0 } }

/-- The table after a further `Delete(1)`: slot 7 is empty again, key 3 is
still in slot 8. -/
def brokenTable : IntegerMap Nat :=
  { nodes := List.replicate 7 emptyNode ++
      [{ key := 1, value := none }, { key := 3, value := some 300 }] ++
      List.replicate 7 emptyNode
    stats := { numElements := 1, numSlots := 16, numFinds := 3, numSteps := 4,
               numResizes := 0 } }

/-- The probe order in the words of the specification: starting at `idx`, the
slots in increasing order, wrapping from the last index back to 0, the whole
table once: `idx, idx+1, ..., numSlots-1, 0, ..., idx-1`. -/
def probeOrder (idx numSlots : Nat) : List Nat :=
  (List.range numSlots).map (fun i => (idx + i) % numSlots)

/-- A probe for `k` ends at slot `j`: the slot is empty or holds key `k`. -/
def stopsAt {V : Type} (nodes : List (intnode V)) (k j : Nat) : Bool :=
  match nodes[j]? with
  | some n => n.value.isNone || decide (n.key = k)
  | none => false

/-- The linear-probing reference for `find`, in the words of the
specification: take the first slot in probe order that is empty or holds `k`;
the result is `(j, nil)` when that slot `j` is non-empty (so holds `k`),
`(j, ErrNotFound)` when it is empty, and `(-1, ErrNotFound)` when there is no
such slot. -/
def findRef {V : Type} (mix : Nat → Nat) (m : IntegerMap V) (k : Nat) : Int × Option error :=
  match (probeOrder (index mix m k) m.stats.numSlots).find? (stopsAt m.nodes k) with
  | none => ((-1 : Int), some error.ErrNotFound)
  | some j =>
    match m.nodes[j]? with
    | some n =>
      if n.value.isSome = true then ((j : Int), none)
      else ((j : Int), some error.ErrNotFound)
    | none => ((-1 : Int), some error.ErrNotFound)

/-! ## Probe sequences and their outcomes -/

theorem pass_not_occ {V : Type} {nodes : List (intnode V)} {k p : Nat}
    (h : Pass nodes k p) : ¬ Occ nodes k p := by
  rintro ⟨n, hn, _, hk⟩
  obtain ⟨n1, hn1, _, hk1⟩ := h
  rw [hn] at hn1
  cases hn1
  exact hk1 hk

theorem pass_not_vacant {V : Type} {nodes : List (intnode V)} {k p : Nat}
    (h : Pass nodes k p) : ¬ Vacant nodes p := by
  rintro ⟨n, hn, hv⟩
  obtain ⟨n1, hn1, hl, _⟩ := h
  rw [hn] at hn1
  cases hn1
  rw [hv] at hl
  cases hl

theorem occ_not_vacant {V : Type} {nodes : List (intnode V)} {k p : Nat}
    (h : Occ nodes k p) : ¬ Vacant nodes p := by
  rintro ⟨n, hn, hv⟩
  obtain ⟨n1, hn1, hl, _⟩ := h
  rw [hn] at hn1
  cases hn1
  rw [hv] at hl
  cases hl

theorem pass_live {V : Type} {nodes : List (intnode V)} {k p : Nat}
    (h : Pass nodes k p) : Live nodes p := by
  obtain ⟨n, hn, hl, _⟩ := h
  exact ⟨n, hn, hl⟩

theorem occ_live {V : Type} {nodes : List (intnode V)} {k p : Nat}
    (h : Occ nodes k p) : Live nodes p := by
  obtain ⟨n, hn, hl, _⟩ := h
  exact ⟨n, hn, hl⟩

/-- The first slot of a list at which a probe does not step on is unique. -/
theorem first_stop_unique {P : Nat → Prop} :
    ∀ (l1 l1' l2 l2' : List Nat) (j j' : Nat),
      l1 ++ j :: l2 = l1' ++ j' :: l2' → (∀ p ∈ l1, P p) → (∀ p ∈ l1', P p) →
      ¬ P j → ¬ P j' → l1 = l1' ∧ j = j' ∧ l2 = l2' := by
  intro l1
  induction l1 with
  | nil =>
    intro l1' l2 l2' j j' h _ h2 hj _
    cases l1' with
    | nil =>
      simp at h
      exact ⟨rfl, h.1, h.2⟩
    | cons a t =>
      simp at h
      exact absurd (h.1 ▸ h2 a (List.mem_cons_self _ _)) hj
  | cons a t ih =>
    intro l1' l2 l2' j j' h h1 h2 hj hj'
    cases l1' with
    | nil =>
      simp at h
      exact absurd (h.1 ▸ h1 a (List.mem_cons_self _ _)) hj'
    | cons b t' =>
      simp at h
      obtain ⟨hab, ht⟩ := h
      obtain ⟨e1, e2, e3⟩ := ih t' l2 l2' j j' ht
        (fun p hp => h1 p (List.mem_cons_of_mem _ hp))
        (fun p hp => h2 p (List.mem_cons_of_mem _ hp)) hj hj'
      exact ⟨by rw [hab, e1], e2, e3⟩

/-- What a probe loop returns, slot by slot. -/
theorem findLoop_spec {V : Type} (nodes : List (intnode V)) (k : Nat) :
    ∀ (js : List Nat) (st : Nat), (∀ j ∈ js, j < nodes.length) →
      ∃ st1, (findLoop nodes k js st = some (st1, none) ∧ ProbeFull nodes js k) ∨
        (∃ j : Nat, findLoop nodes k js st = some (st1, some ((j : Int), none)) ∧
          ProbeFound nodes js k j) ∨
        (∃ j : Nat, findLoop nodes k js st = some (st1, some ((j : Int), some error.ErrNotFound)) ∧
          ProbeVacant nodes js k j) := by
  intro js
  induction js with
  | nil =>
    intro st _
    exact ⟨st, Or.inl ⟨rfl, fun p hp => absurd hp (List.not_mem_nil p)⟩⟩
  | cons a t ih =>
    intro st hb
    have ha : a < nodes.length := hb a (List.mem_cons_self _ _)
    have hget : nodes[a]? = some nodes[a] := List.getElem?_eq_getElem ha
    by_cases h1 : nodes[a].key = k ∧ nodes[a].value.isSome = true
    · refine ⟨(st + 1) % u32, Or.inr (Or.inl ⟨a, ?_, ?_⟩)⟩
      · simp [findLoop, hget, h1]
      · exact ⟨[], t, rfl, fun p hp => absurd hp (List.not_mem_nil p), nodes[a], hget, h1.2, h1.1⟩
    · by_cases h2 : nodes[a].value.isSome = false
      · refine ⟨(st + 1) % u32, Or.inr (Or.inr ⟨a, ?_, ?_⟩)⟩
        · simp [findLoop, hget, h2]
        · exact ⟨[], t, rfl, fun p hp => absurd hp (List.not_mem_nil p), nodes[a], hget, h2⟩
      · have hl : nodes[a].value.isSome = true := by
          cases hh : nodes[a].value.isSome
          · exact absurd hh h2
          · rfl
        have hpa : Pass nodes k a := ⟨nodes[a], hget, hl, fun hk => h1 ⟨hk, hl⟩⟩
        have hstep : findLoop nodes k (a :: t) st = findLoop nodes k t ((st + 1) % u32) := by
          simp only [findLoop, hget]
          rw [if_neg h1, if_neg h2]
        obtain ⟨st1, hr⟩ := ih ((st + 1) % u32) (fun j hj => hb j (List.mem_cons_of_mem _ hj))
        refine ⟨st1, ?_⟩
        rw [hstep]
        rcases hr with ⟨he, hf⟩ | ⟨j, he, l1, l2, hl, hp, ho⟩ | ⟨j, he, l1, l2, hl, hp, ho⟩
        · refine Or.inl ⟨he, ?_⟩
          intro p hp
          rcases List.mem_cons.1 hp with rfl | hp
          · exact hpa
          · exact hf p hp
        · refine Or.inr (Or.inl ⟨j, he, a :: l1, l2, by rw [hl]; rfl, ?_, ho⟩)
          intro p hp'
          rcases List.mem_cons.1 hp' with rfl | hp'
          · exact hpa
          · exact hp p hp'
        · refine Or.inr (Or.inr ⟨j, he, a :: l1, l2, by rw [hl]; rfl, ?_, ho⟩)
          intro p hp'
          rcases List.mem_cons.1 hp' with rfl | hp'
          · exact hpa
          · exact hp p hp'

theorem probeFound_append_left {V : Type} {nodes : List (intnode V)} {js : List Nat}
    {k j : Nat} (h : ProbeFound nodes js k j) (js2 : List Nat) :
    ProbeFound nodes (js ++ js2) k j := by
  obtain ⟨l1, l2, hl, hp, ho⟩ := h
  exact ⟨l1, l2 ++ js2, by rw [hl]; simp, hp, ho⟩

theorem probeVacant_append_left {V : Type} {nodes : List (intnode V)} {js : List Nat}
    {k j : Nat} (h : ProbeVacant nodes js k j) (js2 : List Nat) :
    ProbeVacant nodes (js ++ js2) k j := by
  obtain ⟨l1, l2, hl, hp, ho⟩ := h
  exact ⟨l1, l2 ++ js2, by rw [hl]; simp, hp, ho⟩

theorem probeFound_append_right {V : Type} {nodes : List (intnode V)} {js js2 : List Nat}
    {k j : Nat} (hf : ProbeFull nodes js k) (h : ProbeFound nodes js2 k j) :
    ProbeFound nodes (js ++ js2) k j := by
  obtain ⟨l1, l2, hl, hp, ho⟩ := h
  refine ⟨js ++ l1, l2, by rw [hl]; simp, ?_, ho⟩
  intro p hp1
  rcases List.mem_append.1 hp1 with h1 | h1
  · exact hf p h1
  · exact hp p h1

theorem probeVacant_append_right {V : Type} {nodes : List (intnode V)} {js js2 : List Nat}
    {k j : Nat} (hf : ProbeFull nodes js k) (h : ProbeVacant nodes js2 k j) :
    ProbeVacant nodes (js ++ js2) k j := by
  obtain ⟨l1, l2, hl, hp, ho⟩ := h
  refine ⟨js ++ l1, l2, by rw [hl]; simp, ?_, ho⟩
  intro p hp1
  rcases List.mem_append.1 hp1 with h1 | h1
  · exact hf p h1
  · exact hp p h1

theorem probeFull_append {V : Type} {nodes : List (intnode V)} {js js2 : List Nat}
    {k : Nat} (hf : ProbeFull nodes js k) (h : ProbeFull nodes js2 k) :
    ProbeFull nodes (js ++ js2) k := by
  intro p hp1
  rcases List.mem_append.1 hp1 with h1 | h1
  · exact hf p h1
  · exact h p h1

/-- What `find` returns on a table whose start index lies within the array:
only the statistics change, and the result is the outcome of the probe along
`probeSeq`. -/
theorem find_spec {V : Type} (mix : Nat → Nat) (m : IntegerMap V) (k : Nat)
    (h : index mix m k ≤ m.nodes.length) :
    ∃ m1, SameTable m m1 ∧
      ((ProbeFull m.nodes (probeSeq (index mix m k) m.nodes.length) k ∧
          find mix m k = some (m1, (-1 : Int), some error.ErrNotFound)) ∨
        (∃ j : Nat, ProbeFound m.nodes (probeSeq (index mix m k) m.nodes.length) k j ∧
          find mix m k = some (m1, (j : Int), none)) ∨
        (∃ j : Nat, ProbeVacant m.nodes (probeSeq (index mix m k) m.nodes.length) k j ∧
          find mix m k = some (m1, (j : Int), some error.ErrNotFound))) := by
  let m0 : IntegerMap V :=
    { m with stats := { m.stats with numFinds := (m.stats.numFinds + 1) % u32 } }
  have hidx : index mix
      ({ m with stats := { m.stats with numFinds := (m.stats.numFinds + 1) % u32 } } :
        IntegerMap V) k = index mix m k := rfl
  have hb1 : ∀ j ∈ (List.range (m.nodes.length - index mix m k)).map
      (fun i => index mix m k + i), j < m.nodes.length := by
    intro j hj
    simp only [List.mem_map, List.mem_range] at hj
    obtain ⟨i, hi, rfl⟩ := hj
    omega
  have hb2 : ∀ j ∈ List.range (index mix m k), j < m.nodes.length := by
    intro j hj
    simp only [List.mem_range] at hj
    omega
  have hnl : ¬ m.nodes.length < index mix m k := by omega
  obtain ⟨s1, r1⟩ := findLoop_spec m.nodes k _ m.stats.numSteps hb1
  rcases r1 with ⟨he, hf⟩ | ⟨j, he, hp⟩ | ⟨j, he, hp⟩
  · obtain ⟨s2, r2⟩ := findLoop_spec m.nodes k _ s1 hb2
    rcases r2 with ⟨he2, hf2⟩ | ⟨j, he2, hp2⟩ | ⟨j, he2, hp2⟩
    · refine ⟨withSteps m0 s2, ⟨rfl, rfl, rfl, rfl⟩, Or.inl ⟨probeFull_append hf hf2, ?_⟩⟩
      simp only [find, hidx, if_neg hnl, he, he2]
    · refine ⟨withSteps m0 s2, ⟨rfl, rfl, rfl, rfl⟩,
        Or.inr (Or.inl ⟨j, probeFound_append_right hf hp2, ?_⟩)⟩
      simp only [find, hidx, if_neg hnl, he, he2]
    · refine ⟨withSteps m0 s2, ⟨rfl, rfl, rfl, rfl⟩,
        Or.inr (Or.inr ⟨j, probeVacant_append_right hf hp2, ?_⟩)⟩
      simp only [find, hidx, if_neg hnl, he, he2]
  · refine ⟨withSteps m0 s1, ⟨rfl, rfl, rfl, rfl⟩,
      Or.inr (Or.inl ⟨j, probeFound_append_left hp _, ?_⟩)⟩
    simp only [find, hidx, if_neg hnl, he]
  · refine ⟨withSteps m0 s1, ⟨rfl, rfl, rfl, rfl⟩,
      Or.inr (Or.inr ⟨j, probeVacant_append_left hp _, ?_⟩)⟩
    simp only [find, hidx, if_neg hnl, he]

/-- The start index lies below `numSlots` whenever `numSlots` is positive. -/
theorem index_lt {V : Type} (mix : Nat → Nat) (m : IntegerMap V) (k : Nat)
    (h1 : 0 < m.stats.numSlots) : index mix m k < m.stats.numSlots := by
  have hm : sub32 m.stats.numSlots 1 = m.stats.numSlots - 1 := by
    unfold sub32
    exact if_pos h1
  have hle : index mix m k ≤ m.stats.numSlots - 1 := by
    unfold index
    rw [hm]
    exact Nat.and_le_right
  omega

theorem probeFound_unique {V : Type} {nodes : List (intnode V)} {js : List Nat} {k j j1 : Nat}
    (h : ProbeFound nodes js k j) (h1 : ProbeFound nodes js k j1) : j = j1 := by
  obtain ⟨l1, l2, hl, hp, ho⟩ := h
  obtain ⟨l1', l2', hl', hp', ho'⟩ := h1
  exact (first_stop_unique l1 l1' l2 l2' j j1 (hl ▸ hl') hp hp'
    (fun hq => pass_not_occ hq ho) (fun hq => pass_not_occ hq ho')).2.1

theorem probeVacant_unique {V : Type} {nodes : List (intnode V)} {js : List Nat} {k j j1 : Nat}
    (h : ProbeVacant nodes js k j) (h1 : ProbeVacant nodes js k j1) : j = j1 := by
  obtain ⟨l1, l2, hl, hp, ho⟩ := h
  obtain ⟨l1', l2', hl', hp', ho'⟩ := h1
  exact (first_stop_unique l1 l1' l2 l2' j j1 (hl ▸ hl') hp hp'
    (fun hq => pass_not_vacant hq ho) (fun hq => pass_not_vacant hq ho')).2.1

theorem probeFound_not_vacant {V : Type} {nodes : List (intnode V)} {js : List Nat}
    {k j j1 : Nat} (h : ProbeFound nodes js k j) (h1 : ProbeVacant nodes js k j1) : False := by
  obtain ⟨l1, l2, hl, hp, ho⟩ := h
  obtain ⟨l1', l2', hl', hp', ho'⟩ := h1
  have e := (first_stop_unique l1 l1' l2 l2' j j1 (hl ▸ hl') hp hp'
    (fun hq => pass_not_occ hq ho) (fun hq => pass_not_vacant hq ho')).2.1
  subst e
  exact occ_not_vacant ho ho'

theorem probeFull_not_found {V : Type} {nodes : List (intnode V)} {js : List Nat}
    {k j : Nat} (h : ProbeFull nodes js k) (h1 : ProbeFound nodes js k j) : False := by
  obtain ⟨l1, l2, hl, _, ho⟩ := h1
  exact pass_not_occ (h j (by rw [hl]; simp)) ho

theorem probeFull_not_vacant {V : Type} {nodes : List (intnode V)} {js : List Nat}
    {k j : Nat} (h : ProbeFull nodes js k) (h1 : ProbeVacant nodes js k j) : False := by
  obtain ⟨l1, l2, hl, _, ho⟩ := h1
  exact pass_not_vacant (h j (by rw [hl]; simp)) ho

theorem shape_index_le {V : Type} {m : IntegerMap V} (h : Shape m) (mix : Nat → Nat)
    (k : Nat) : index mix m k ≤ m.nodes.length := by
  have := index_lt mix m k h.2.1
  rw [h.1]
  omega

theorem shape_of_sameTable {V : Type} {m m1 : IntegerMap V} (h : Shape m)
    (hs : SameTable m m1) : Shape m1 := by
  obtain ⟨h1, _, h3, _⟩ := hs
  unfold Shape
  rw [h1, h3]
  exact h

theorem index_of_numSlots {V : Type} (mix : Nat → Nat) {m m1 : IntegerMap V}
    (h : m1.stats.numSlots = m.stats.numSlots) (k : Nat) : index mix m1 k = index mix m k := by
  unfold index
  rw [h]

theorem find_of_found {V : Type} {mix : Nat → Nat} {m : IntegerMap V} {k j : Nat}
    (hs : Shape m) (h : ProbeFound m.nodes (probeOf mix m k) k j) :
    ∃ m1, SameTable m m1 ∧ find mix m k = some (m1, (j : Int), none) := by
  obtain ⟨m1, hst, hr⟩ := find_spec mix m k (shape_index_le hs mix k)
  rcases hr with ⟨hf, _⟩ | ⟨j1, hp, he⟩ | ⟨j1, hp, _⟩
  · exact absurd h (fun hh => probeFull_not_found hf hh)
  · have := probeFound_unique h hp
    subst this
    exact ⟨m1, hst, he⟩
  · exact (probeFound_not_vacant h hp).elim

theorem find_of_vacant {V : Type} {mix : Nat → Nat} {m : IntegerMap V} {k j : Nat}
    (hs : Shape m) (h : ProbeVacant m.nodes (probeOf mix m k) k j) :
    ∃ m1, SameTable m m1 ∧ find mix m k = some (m1, (j : Int), some error.ErrNotFound) := by
  obtain ⟨m1, hst, hr⟩ := find_spec mix m k (shape_index_le hs mix k)
  rcases hr with ⟨hf, _⟩ | ⟨j1, hp, _⟩ | ⟨j1, hp, he⟩
  · exact (probeFull_not_vacant hf h).elim
  · exact (probeFound_not_vacant hp h).elim
  · have := probeVacant_unique h hp
    subst this
    exact ⟨m1, hst, he⟩

theorem find_of_full {V : Type} {mix : Nat → Nat} {m : IntegerMap V} {k : Nat}
    (hs : Shape m) (h : ProbeFull m.nodes (probeOf mix m k) k) :
    ∃ m1, SameTable m m1 ∧ find mix m k = some (m1, (-1 : Int), some error.ErrNotFound) := by
  obtain ⟨m1, hst, hr⟩ := find_spec mix m k (shape_index_le hs mix k)
  rcases hr with ⟨_, he⟩ | ⟨j1, hp, _⟩ | ⟨j1, hp, _⟩
  · exact ⟨m1, hst, he⟩
  · exact (probeFull_not_found h hp).elim
  · exact (probeFull_not_vacant h hp).elim

/-- The three outcomes of a probe are exhaustive. -/
theorem probe_cases {V : Type} (mix : Nat → Nat) {m : IntegerMap V} (hs : Shape m) (k : Nat) :
    ProbeFull m.nodes (probeOf mix m k) k ∨
      (∃ j, ProbeFound m.nodes (probeOf mix m k) k j) ∨
      (∃ j, ProbeVacant m.nodes (probeOf mix m k) k j) := by
  obtain ⟨m1, _, hr⟩ := find_spec mix m k (shape_index_le hs mix k)
  rcases hr with ⟨hf, _⟩ | ⟨j1, hp, _⟩ | ⟨j1, hp, _⟩
  · exact Or.inl hf
  · exact Or.inr (Or.inl ⟨j1, hp⟩)
  · exact Or.inr (Or.inr ⟨j1, hp⟩)

theorem occ_lt {V : Type} {nodes : List (intnode V)} {k j : Nat} (h : Occ nodes k j) :
    j < nodes.length := by
  obtain ⟨n, hn, _⟩ := h
  exact (List.getElem?_eq_some_iff.1 hn).1

theorem vacant_lt {V : Type} {nodes : List (intnode V)} {j : Nat} (h : Vacant nodes j) :
    j < nodes.length := by
  obtain ⟨n, hn, _⟩ := h
  exact (List.getElem?_eq_some_iff.1 hn).1

/-- Result of `Search` when the probe finds the key. -/
theorem search_of_found {V : Type} {mix : Nat → Nat} {m : IntegerMap V} {k j : Nat}
    {n : intnode V} (hs : Shape m) (h : ProbeFound m.nodes (probeOf mix m k) k j)
    (hn : m.nodes[j]? = some n) :
    ∃ m1, SameTable m m1 ∧ Search mix m k = some (m1, n.value, none) := by
  obtain ⟨m1, hst, he⟩ := find_of_found hs h
  refine ⟨m1, hst, ?_⟩
  have hn1 : m1.nodes[j]? = some n := by rw [hst.1]; exact hn
  have hneg : ¬ ((j : Int) < 0) := by omega
  simp [Search, he, hn1]

/-- Result of `Search` when the probe does not find the key. -/
theorem search_of_not_found {V : Type} {mix : Nat → Nat} {m : IntegerMap V} {k : Nat}
    (hs : Shape m) (h : ¬ ∃ j, ProbeFound m.nodes (probeOf mix m k) k j) :
    ∃ m1, SameTable m m1 ∧ Search mix m k = some (m1, none, some error.ErrNotFound) := by
  rcases probe_cases mix hs k with hf | ⟨j, hp⟩ | ⟨j, hp⟩
  · obtain ⟨m1, hst, he⟩ := find_of_full hs hf
    exact ⟨m1, hst, by simp [Search, he]⟩
  · exact absurd ⟨j, hp⟩ h
  · obtain ⟨m1, hst, he⟩ := find_of_vacant hs hp
    exact ⟨m1, hst, by simp [Search, he]⟩

/-- The step `insert` takes when its probe finds the key: the value is
overwritten in place. -/
theorem insert_of_found {V : Type} {mix : Nat → Nat} {m : IntegerMap V} {k j : Nat}
    (v : Option V) (hs : Shape m) (h : ProbeFound m.nodes (probeOf mix m k) k j) :
    ∃ m1, insert mix m k v = some (m1, none) ∧
      m1.nodes = m.nodes.set j { key := k, value := v } ∧
      m1.stats.numElements = m.stats.numElements ∧
      m1.stats.numSlots = m.stats.numSlots ∧
      m1.stats.numResizes = m.stats.numResizes := by
  obtain ⟨m0, hst, he⟩ := find_of_found hs h
  obtain ⟨_, _, _, _, n, hn, _, hk⟩ := h
  have hn1 : m0.nodes[j]? = some n := by rw [hst.1]; exact hn
  have hneg : ¬ ((j : Int) < 0) := by omega
  refine ⟨{ m0 with nodes := m0.nodes.set j { n with value := v } }, ?_, ?_, hst.2.1,
    hst.2.2.1, hst.2.2.2⟩
  · simp [insert, he, hn1]
  · show m0.nodes.set j { n with value := v } = _
    rw [hst.1, hk]

/-- The step `insert` takes when its probe ends at an empty slot: the pair is
written there and counted. -/
theorem insert_of_vacant {V : Type} {mix : Nat → Nat} {m : IntegerMap V} {k j : Nat}
    (v : Option V) (hs : Shape m) (h : ProbeVacant m.nodes (probeOf mix m k) k j) :
    ∃ m1, insert mix m k v = some (m1, none) ∧
      m1.nodes = m.nodes.set j { key := k, value := v } ∧
      m1.stats.numElements = (m.stats.numElements + 1) % u32 ∧
      m1.stats.numSlots = m.stats.numSlots ∧
      m1.stats.numResizes = m.stats.numResizes := by
  obtain ⟨m0, hst, he⟩ := find_of_vacant hs h
  obtain ⟨_, _, _, _, n, hn, _⟩ := h
  have hn1 : m0.nodes[j]? = some n := by rw [hst.1]; exact hn
  have hneg : ¬ ((j : Int) < 0) := by omega
  have hne : ¬ ((j : Int) = -1) := by omega
  refine ⟨{ nodes := m0.nodes.set j { key := k, value := v }
            stats := { m0.stats with numElements := (m0.stats.numElements + 1) % u32 } },
    ?_, ?_, ?_, hst.2.2.1, hst.2.2.2⟩
  · simp [insert, he, hn1, hne]
  · show m0.nodes.set j _ = _
    rw [hst.1]
  · show (m0.stats.numElements + 1) % u32 = _
    rw [hst.2.1]

/-- With no empty slot and no slot holding the key, `insert` panics. -/
theorem insert_of_full {V : Type} {mix : Nat → Nat} {m : IntegerMap V} {k : Nat}
    (v : Option V) (hs : Shape m) (h : ProbeFull m.nodes (probeOf mix m k) k) :
    insert mix m k v = none := by
  obtain ⟨m0, _, he⟩ := find_of_full hs h
  simp [insert, he]

/-- The step `Delete` takes when its probe finds the key. -/
theorem delete_of_found {V : Type} {mix : Nat → Nat} {m : IntegerMap V} {k j : Nat}
    {n : intnode V} (hs : Shape m) (h : ProbeFound m.nodes (probeOf mix m k) k j)
    (hn : m.nodes[j]? = some n) :
    ∃ m1, Delete mix m k = some (m1, n.value, none) ∧
      m1.nodes = m.nodes.set j { key := n.key, value := none } ∧
      m1.stats.numElements = sub32 m.stats.numElements 1 ∧
      m1.stats.numSlots = m.stats.numSlots ∧
      m1.stats.numResizes = m.stats.numResizes := by
  obtain ⟨m0, hst, he⟩ := find_of_found hs h
  have hn1 : m0.nodes[j]? = some n := by rw [hst.1]; exact hn
  have hneg : ¬ ((j : Int) < 0) := by omega
  refine ⟨{ nodes := m0.nodes.set j { n with value := none }
            stats := { m0.stats with numElements := sub32 m0.stats.numElements 1 } },
    ?_, ?_, ?_, hst.2.2.1, hst.2.2.2⟩
  · simp [Delete, he, hn1]
  · show m0.nodes.set j _ = _
    rw [hst.1]
  · show sub32 m0.stats.numElements 1 = _
    rw [hst.2.1]

/-- The step `Delete` takes when its probe does not find the key. -/
theorem delete_of_not_found {V : Type} {mix : Nat → Nat} {m : IntegerMap V} {k : Nat}
    (hs : Shape m) (h : ¬ ∃ j, ProbeFound m.nodes (probeOf mix m k) k j) :
    ∃ m1, SameTable m m1 ∧ Delete mix m k = some (m1, none, some error.ErrNotFound) := by
  rcases probe_cases mix hs k with hf | ⟨j, hp⟩ | ⟨j, hp⟩
  · obtain ⟨m1, hst, he⟩ := find_of_full hs hf
    exact ⟨m1, hst, by simp [Delete, he]⟩
  · exact absurd ⟨j, hp⟩ h
  · obtain ⟨m1, hst, he⟩ := find_of_vacant hs hp
    exact ⟨m1, hst, by simp [Delete, he]⟩

/-! ## Effect of writing one slot -/

theorem pass_set_of_ne {V : Type} {nodes : List (intnode V)} {k p j : Nat} (n : intnode V)
    (hne : p ≠ j) (h : Pass nodes k p) : Pass (nodes.set j n) k p := by
  obtain ⟨n1, hn1, hl, hk⟩ := h
  exact ⟨n1, by rw [List.getElem?_set_ne (Ne.symm hne)]; exact hn1, hl, hk⟩

theorem pass_of_set_of_ne {V : Type} {nodes : List (intnode V)} {k p j : Nat} (n : intnode V)
    (hne : p ≠ j) (h : Pass (nodes.set j n) k p) : Pass nodes k p := by
  obtain ⟨n1, hn1, hl, hk⟩ := h
  rw [List.getElem?_set_ne (Ne.symm hne)] at hn1
  exact ⟨n1, hn1, hl, hk⟩

theorem occ_set_self {V : Type} {nodes : List (intnode V)} {k j : Nat} (v : V)
    (hj : j < nodes.length) : Occ (nodes.set j { key := k, value := some v }) k j :=
  ⟨{ key := k, value := some v }, by rw [List.getElem?_set_self hj], rfl, rfl⟩

theorem vacant_set_self {V : Type} {nodes : List (intnode V)} {j : Nat} (k : Nat)
    (hj : j < nodes.length) : Vacant (nodes.set j { key := k, value := none }) j :=
  ⟨{ key := k, value := none }, by rw [List.getElem?_set_self hj], rfl⟩

/-- After the slot at which a probe for `k` stopped is filled with `k`, the
probe finds `k` there. -/
theorem probeFound_set {V : Type} {nodes : List (intnode V)} {js l1 l2 : List Nat} {k j : Nat}
    (v : V) (hl : js = l1 ++ j :: l2) (hp : ∀ p ∈ l1, Pass nodes k p)
    (hj : j < nodes.length) (hstop : ¬ Pass nodes k j) :
    ProbeFound (nodes.set j { key := k, value := some v }) js k j := by
  refine ⟨l1, l2, hl, ?_, occ_set_self v hj⟩
  intro p hp1
  have hne : p ≠ j := by
    rintro rfl
    exact hstop (hp p hp1)
  exact pass_set_of_ne _ hne (hp p hp1)

/-- After the slot at which a probe for `k` stopped is emptied, the probe ends
there on an empty slot. -/
theorem probeVacant_set {V : Type} {nodes : List (intnode V)} {js l1 l2 : List Nat} {k j : Nat}
    (k1 : Nat) (hl : js = l1 ++ j :: l2) (hp : ∀ p ∈ l1, Pass nodes k p)
    (hj : j < nodes.length) (hstop : ¬ Pass nodes k j) :
    ProbeVacant (nodes.set j { key := k1, value := none }) js k j := by
  refine ⟨l1, l2, hl, ?_, vacant_set_self k1 hj⟩
  intro p hp1
  have hne : p ≠ j := by
    rintro rfl
    exact hstop (hp p hp1)
  exact pass_set_of_ne _ hne (hp p hp1)

/-! ## The probe order visits every slot once -/

theorem mem_probeSeq {idx len : Nat} (h : idx ≤ len) (p : Nat) :
    p ∈ probeSeq idx len ↔ p < len := by
  unfold probeSeq
  simp only [List.mem_append, List.mem_map, List.mem_range]
  constructor
  · rintro (⟨i, hi, rfl⟩ | hp)
    · omega
    · omega
  · intro hp
    by_cases hlt : p < idx
    · exact Or.inr hlt
    · exact Or.inl ⟨p - idx, by omega, by omega⟩

theorem nodup_probeSeq (idx len : Nat) : (probeSeq idx len).Nodup := by
  unfold probeSeq
  rw [List.nodup_append]
  refine ⟨(List.nodup_range _).map ?_, List.nodup_range _, ?_⟩
  · intro a b hab
    simp only at hab
    omega
  · intro a ha hb
    simp only [List.mem_map, List.mem_range] at ha hb
    obtain ⟨i, _, rfl⟩ := ha
    omega

/-- A list without repetitions splits around a member in one way only. -/
theorem nodup_split_unique {l : List Nat} (hn : l.Nodup) :
    ∀ (l1 l1' l2 l2' : List Nat) (j : Nat),
      l = l1 ++ j :: l2 → l = l1' ++ j :: l2' → l1 = l1' ∧ l2 = l2' := by
  intro l1 l1' l2 l2' j h h'
  have hj1 : j ∉ l1 := by
    intro hm
    rw [h] at hn
    exact (List.disjoint_of_nodup_append hn) hm (List.mem_cons_self _ _)
  have hj2 : j ∉ l1' := by
    intro hm
    rw [h'] at hn
    exact (List.disjoint_of_nodup_append hn) hm (List.mem_cons_self _ _)
  have := first_stop_unique (P := fun p => p ≠ j) l1 l1' l2 l2' j j (h ▸ h')
    (fun p hp hpj => hj1 (hpj ▸ hp)) (fun p hp hpj => hj2 (hpj ▸ hp))
    (fun hq => hq rfl) (fun hq => hq rfl)
  exact ⟨this.1, this.2.2⟩

/-! ## Counting the non-empty slots -/

theorem liveCount_set {V : Type} (nodes : List (intnode V)) (j : Nat) (a : intnode V)
    (h : j < nodes.length) :
    liveCount (nodes.set j a) + (if nodes[j].value.isSome = true then 1 else 0) =
      liveCount nodes + (if a.value.isSome = true then 1 else 0) := by
  unfold liveCount
  rw [List.countP_set _ _ _ _ h]
  have := List.boole_getElem_le_countP (fun n : intnode V => n.value.isSome) nodes j h
  simp only at this
  omega

theorem liveCount_set_vacant {V : Type} {nodes : List (intnode V)} {j : Nat}
    (h : Vacant nodes j) (k : Nat) (v : V) :
    liveCount (nodes.set j { key := k, value := some v }) = liveCount nodes + 1 := by
  obtain ⟨n, hn, hv⟩ := h
  obtain ⟨hj, hnj⟩ := List.getElem?_eq_some_iff.1 hn
  have := liveCount_set nodes j { key := k, value := some v } hj
  rw [hnj, hv] at this
  simpa using this

theorem liveCount_set_live {V : Type} {nodes : List (intnode V)} {j : Nat}
    (h : Live nodes j) (k : Nat) (v : V) :
    liveCount (nodes.set j { key := k, value := some v }) = liveCount nodes := by
  obtain ⟨n, hn, hv⟩ := h
  obtain ⟨hj, hnj⟩ := List.getElem?_eq_some_iff.1 hn
  have := liveCount_set nodes j { key := k, value := some v } hj
  rw [hnj, hv] at this
  simpa using this

theorem liveCount_set_none {V : Type} {nodes : List (intnode V)} {j : Nat}
    (h : Live nodes j) (k : Nat) :
    liveCount (nodes.set j { key := k, value := none }) + 1 = liveCount nodes := by
  obtain ⟨n, hn, hv⟩ := h
  obtain ⟨hj, hnj⟩ := List.getElem?_eq_some_iff.1 hn
  have := liveCount_set nodes j { key := k, value := none } hj
  rw [hnj, hv] at this
  simpa using this

theorem liveCount_le {V : Type} (nodes : List (intnode V)) : liveCount nodes ≤ nodes.length :=
  List.countP_le_length _

theorem liveCount_replicate {V : Type} (n : Nat) :
    liveCount (List.replicate n (emptyNode : intnode V)) = 0 := by
  unfold liveCount
  rw [List.countP_replicate]
  simp [emptyNode]

/-- A table with fewer non-empty slots than slots has an empty slot. -/
theorem exists_vacant {V : Type} {nodes : List (intnode V)}
    (h : liveCount nodes < nodes.length) : ∃ j, Vacant nodes j := by
  by_contra hc
  have hall : ∀ a ∈ nodes, (fun n : intnode V => n.value.isSome) a = true := by
    intro a ha
    obtain ⟨i, hi⟩ := List.mem_iff_getElem?.1 ha
    cases hv : a.value.isSome
    · exact absurd ⟨i, a, hi, hv⟩ hc
    · exact hv
  have := (List.countP_eq_length (p := fun n : intnode V => n.value.isSome)).2 hall
  unfold liveCount at h
  omega

/-- A probe can step over every slot only if no slot is empty. -/
theorem probeFull_no_vacant {V : Type} {nodes : List (intnode V)} {idx k : Nat}
    (hi : idx ≤ nodes.length) (h : ProbeFull nodes (probeSeq idx nodes.length) k) (j : Nat) :
    ¬ Vacant nodes j := by
  intro hv
  exact pass_not_vacant (h j ((mem_probeSeq hi j).2 (vacant_lt hv))) hv

/-- On a table with an empty slot `insert` cannot find the table full. -/
theorem not_probeFull {V : Type} (mix : Nat → Nat) {m : IntegerMap V} (hs : Shape m)
    (hc : liveCount m.nodes < m.nodes.length) (k : Nat) :
    ¬ ProbeFull m.nodes (probeOf mix m k) k := by
  intro hf
  obtain ⟨j, hj⟩ := exists_vacant hc
  exact probeFull_no_vacant (shape_index_le hs mix k) hf j hj

/-! ## One `insert`, one `Delete` -/

/-- The step of `insert` on a table that has an empty slot: the pair is
written to the slot at which the probe stopped. -/
theorem insert_step {V : Type} (mix : Nat → Nat) {m : IntegerMap V} (hs : Shape m)
    (hc : liveCount m.nodes < m.nodes.length) (k : Nat) (v : Option V) :
    ∃ m1 j, insert mix m k v = some (m1, none) ∧
      m1.nodes = m.nodes.set j { key := k, value := v } ∧
      m1.stats.numSlots = m.stats.numSlots ∧
      m1.stats.numResizes = m.stats.numResizes ∧
      ((ProbeFound m.nodes (probeOf mix m k) k j ∧
          m1.stats.numElements = m.stats.numElements) ∨
        (ProbeVacant m.nodes (probeOf mix m k) k j ∧
          m1.stats.numElements = (m.stats.numElements + 1) % u32)) := by
  rcases probe_cases mix hs k with hf | ⟨j, hp⟩ | ⟨j, hp⟩
  · exact absurd hf (not_probeFull mix hs hc k)
  · obtain ⟨m1, h1, h2, h3, h4, h5⟩ := insert_of_found v hs hp
    exact ⟨m1, j, h1, h2, h4, h5, Or.inl ⟨hp, h3⟩⟩
  · obtain ⟨m1, h1, h2, h3, h4, h5⟩ := insert_of_vacant v hs hp
    exact ⟨m1, j, h1, h2, h4, h5, Or.inr ⟨hp, h3⟩⟩

theorem probeFound_lt {V : Type} {nodes : List (intnode V)} {js : List Nat} {k j : Nat}
    (h : ProbeFound nodes js k j) : j < nodes.length := by
  obtain ⟨_, _, _, _, ho⟩ := h
  exact occ_lt ho

theorem probeVacant_lt {V : Type} {nodes : List (intnode V)} {js : List Nat} {k j : Nat}
    (h : ProbeVacant nodes js k j) : j < nodes.length := by
  obtain ⟨_, _, _, _, ho⟩ := h
  exact vacant_lt ho

/-- After `insert` has written `k` at the slot where its probe stopped, a
probe for `k` finds it in that slot. -/
theorem probeFound_after_insert {V : Type} {nodes : List (intnode V)} {js : List Nat}
    {k j : Nat} (v : V)
    (h : ProbeFound nodes js k j ∨ ProbeVacant nodes js k j) :
    ProbeFound (nodes.set j { key := k, value := some v }) js k j := by
  rcases h with ⟨l1, l2, hl, hp, ho⟩ | ⟨l1, l2, hl, hp, ho⟩
  · exact probeFound_set v hl hp (occ_lt ho) (fun hq => pass_not_occ hq ho)
  · exact probeFound_set v hl hp (vacant_lt ho) (fun hq => pass_not_vacant hq ho)

theorem probeOf_congr {V : Type} (mix : Nat → Nat) {m m1 : IntegerMap V}
    (h1 : m1.nodes.length = m.nodes.length) (h2 : m1.stats.numSlots = m.stats.numSlots)
    (k : Nat) : probeOf mix m1 k = probeOf mix m k := by
  unfold probeOf
  rw [h1, index_of_numSlots mix h2]

/-- Insert-then-search, one level down: after `insert` of a non-nil value on a
table with an empty slot, `Search` returns that value. -/
theorem search_after_insert {V : Type} (mix : Nat → Nat) {m m1 : IntegerMap V}
    (hs : Shape m) (hc : liveCount m.nodes < m.nodes.length) (k : Nat) (v : V)
    {e : Option error} (hi : insert mix m k (some v) = some (m1, e)) :
    Shape m1 ∧ ∃ m2, SameTable m1 m2 ∧ Search mix m1 k = some (m2, some v, none) := by
  obtain ⟨m0, j, h1, h2, h3, _, h5⟩ := insert_step mix hs hc k (some v)
  rw [h1] at hi
  have hm : m0 = m1 := by
    cases hi
    rfl
  subst hm
  have hlen : m0.nodes.length = m.nodes.length := by rw [h2, List.length_set]
  have hs1 : Shape m0 := by
    unfold Shape
    rw [hlen, h3]
    exact hs
  have hj : j < m.nodes.length := by
    rcases h5 with ⟨hp, _⟩ | ⟨hp, _⟩
    · exact probeFound_lt hp
    · exact probeVacant_lt hp
  have hpf : ProbeFound m0.nodes (probeOf mix m0 k) k j := by
    rw [probeOf_congr mix hlen h3, h2]
    apply probeFound_after_insert
    rcases h5 with ⟨hp, _⟩ | ⟨hp, _⟩
    · exact Or.inl hp
    · exact Or.inr hp
  have hn : m0.nodes[j]? = some { key := k, value := some v } := by
    rw [h2, List.getElem?_set_self hj]
  refine ⟨hs1, ?_⟩
  exact search_of_found hs1 hpf hn

/-! ## Tables whose element counter is accurate -/

theorem counted_of_sameTable {V : Type} {m m1 : IntegerMap V} (h : Counted m)
    (hs : SameTable m m1) : Counted m1 := by
  refine ⟨shape_of_sameTable h.1 hs, ?_⟩
  rw [hs.1, hs.2.1]
  exact h.2

/-- Invariant kept by `insert` on a counted table with an empty slot. -/
theorem insert_counted {V : Type} (mix : Nat → Nat) {m : IntegerMap V} (hm : Counted m)
    (hc : liveCount m.nodes < m.nodes.length) (k : Nat) (v : V) :
    ∃ m1 j, insert mix m k (some v) = some (m1, none) ∧ Counted m1 ∧
      m1.nodes = m.nodes.set j { key := k, value := some v } ∧
      m1.stats.numSlots = m.stats.numSlots ∧
      m1.stats.numResizes = m.stats.numResizes ∧
      ((ProbeFound m.nodes (probeOf mix m k) k j ∧
          m1.stats.numElements = m.stats.numElements) ∨
        (ProbeVacant m.nodes (probeOf mix m k) k j ∧
          m1.stats.numElements = m.stats.numElements + 1)) := by
  obtain ⟨hs, hn⟩ := hm
  obtain ⟨m1, j, h1, h2, h3, h4, h5⟩ := insert_step mix hs hc k (some v)
  have hlen : m1.nodes.length = m.nodes.length := by rw [h2, List.length_set]
  have hs1 : Shape m1 := by
    unfold Shape
    rw [hlen, h3]
    exact hs
  have hlt : m.stats.numElements + 1 < u32 := by
    have := hs.1
    have := hs.2.2
    omega
  rcases h5 with ⟨hp, he⟩ | ⟨hp, he⟩
  · refine ⟨m1, j, h1, ⟨hs1, ?_⟩, h2, h3, h4, Or.inl ⟨hp, he⟩⟩
    obtain ⟨_, _, _, _, ho⟩ := hp
    rw [he, h2, liveCount_set_live (occ_live ho), hn]
  · have he1 : m1.stats.numElements = m.stats.numElements + 1 := by
      rw [he, Nat.mod_eq_of_lt hlt]
    refine ⟨m1, j, h1, ⟨hs1, ?_⟩, h2, h3, h4, Or.inr ⟨hp, he1⟩⟩
    obtain ⟨_, _, _, _, ho⟩ := hp
    rw [he1, h2, liveCount_set_vacant ho, hn]

/-- Invariant kept by `Delete` on a counted table. -/
theorem delete_counted {V : Type} (mix : Nat → Nat) {m : IntegerMap V} (hm : Counted m)
    (k : Nat) :
    (∃ m1, SameTable m m1 ∧ Delete mix m k = some (m1, none, some error.ErrNotFound) ∧
        ¬ ∃ j, ProbeFound m.nodes (probeOf mix m k) k j) ∨
      (∃ m1 j n, Delete mix m k = some (m1, n.value, none) ∧ Counted m1 ∧
        ProbeFound m.nodes (probeOf mix m k) k j ∧ m.nodes[j]? = some n ∧
        m1.nodes = m.nodes.set j { key := n.key, value := none } ∧
        m1.stats.numElements + 1 = m.stats.numElements ∧
        m1.stats.numSlots = m.stats.numSlots ∧
        m1.stats.numResizes = m.stats.numResizes) := by
  obtain ⟨hs, hn⟩ := hm
  by_cases hf : ∃ j, ProbeFound m.nodes (probeOf mix m k) k j
  · obtain ⟨j, hp⟩ := hf
    have hp0 := hp
    obtain ⟨_, _, _, _, n, hnj, hl, hk⟩ := hp
    obtain ⟨m1, h1, h2, h3, h4, h5⟩ := delete_of_found hs hp0 hnj
    have hlive : Live m.nodes j := ⟨n, hnj, hl⟩
    have hcnt := liveCount_set_none hlive n.key
    have hlen : m1.nodes.length = m.nodes.length := by rw [h2, List.length_set]
    have hs1 : Shape m1 := by
      unfold Shape
      rw [hlen, h4]
      exact hs
    have he : m1.stats.numElements + 1 = m.stats.numElements := by
      rw [h3]
      unfold sub32
      rw [if_pos (by omega)]
      omega
    refine Or.inr ⟨m1, j, n, h1, ⟨hs1, ?_⟩, hp0, hnj, h2, he, h4, h5⟩
    rw [h2]
    omega
  · obtain ⟨m1, hst, he⟩ := delete_of_not_found hs hf
    exact Or.inl ⟨m1, hst, he, hf⟩

/-- Every call of `Search` on a well-shaped table returns, and changes the
statistics only. -/
theorem search_total {V : Type} (mix : Nat → Nat) {m : IntegerMap V} (hs : Shape m)
    (k : Nat) : ∃ m1 r, SameTable m m1 ∧ Search mix m k = some (m1, r) := by
  by_cases hf : ∃ j, ProbeFound m.nodes (probeOf mix m k) k j
  · obtain ⟨j, hp⟩ := hf
    have hp0 := hp
    obtain ⟨_, _, _, _, n, hnj, _, _⟩ := hp
    obtain ⟨m1, hst, he⟩ := search_of_found hs hp0 hnj
    exact ⟨m1, _, hst, he⟩
  · obtain ⟨m1, hst, he⟩ := search_of_not_found hs hf
    exact ⟨m1, _, hst, he⟩

/-! ## Tables in which every stored key is reachable by its probe -/

theorem holds_iff {V : Type} {nodes : List (intnode V)} {k : Nat} {v : V} :
    Holds nodes k v ↔
      ∃ j : Nat, nodes[j]? = some ({ key := k, value := some v } : intnode V) :=
  List.mem_iff_getElem?

theorem occ_iff_holds {V : Type} {nodes : List (intnode V)} {k : Nat} :
    (∃ j, Occ nodes k j) ↔ ∃ v, Holds nodes k v := by
  constructor
  · rintro ⟨j, n, hn, hl, hk⟩
    obtain ⟨key, value⟩ := n
    cases value with
    | none => cases hl
    | some v =>
      simp only at hk
      subst hk
      exact ⟨v, holds_iff.2 ⟨j, hn⟩⟩
  · rintro ⟨v, hv⟩
    obtain ⟨j, hj⟩ := holds_iff.1 hv
    exact ⟨j, _, hj, rfl, rfl⟩

theorem good_unique {V : Type} {mix : Nat → Nat} {m : IntegerMap V} (hg : Good mix m)
    {k i j : Nat} (hi : Occ m.nodes k i) (hj : Occ m.nodes k j) : i = j :=
  probeFound_unique (hg i k hi) (hg j k hj)

theorem occ_of_set_ne {V : Type} {nodes : List (intnode V)} {k i j : Nat} {n : intnode V}
    (hne : i ≠ j) (h : Occ (nodes.set j n) k i) : Occ nodes k i := by
  obtain ⟨n1, hn1, hl, hk⟩ := h
  rw [List.getElem?_set_ne (Ne.symm hne)] at hn1
  exact ⟨n1, hn1, hl, hk⟩

theorem occ_set_ne {V : Type} {nodes : List (intnode V)} {k i j : Nat} (n : intnode V)
    (hne : i ≠ j) (h : Occ nodes k i) : Occ (nodes.set j n) k i := by
  obtain ⟨n1, hn1, hl, hk⟩ := h
  exact ⟨n1, by rw [List.getElem?_set_ne (Ne.symm hne)]; exact hn1, hl, hk⟩

theorem occ_set_self_key {V : Type} {nodes : List (intnode V)} {k k1 j : Nat} {v : Option V}
    (h : Occ (nodes.set j { key := k, value := v }) k1 j) : k1 = k := by
  obtain ⟨n1, hn1, _, hk⟩ := h
  have hj : j < nodes.length := by
    have := (List.getElem?_eq_some_iff.1 hn1).1
    rwa [List.length_set] at this
  rw [List.getElem?_set_self hj] at hn1
  cases hn1
  exact hk.symm

/-- The table stays good when `insert` writes a pair at the slot where its
probe stopped. -/
theorem good_insert {V : Type} {mix : Nat → Nat} {m m1 : IntegerMap V} (hg : Good mix m)
    {k j : Nat} {v : V}
    (h2 : m1.nodes = m.nodes.set j { key := k, value := some v })
    (h3 : m1.stats.numSlots = m.stats.numSlots)
    (hp : ProbeFound m.nodes (probeOf mix m k) k j ∨
      ProbeVacant m.nodes (probeOf mix m k) k j) : Good mix m1 := by
  have hlen : m1.nodes.length = m.nodes.length := by rw [h2, List.length_set]
  intro j2 k2 ho
  rw [probeOf_congr mix hlen h3, h2]
  rw [h2] at ho
  by_cases hj : j2 = j
  · subst hj
    have hk := occ_set_self_key ho
    subst hk
    exact probeFound_after_insert v hp
  · have ho1 : Occ m.nodes k2 j2 := occ_of_set_ne hj ho
    obtain ⟨l1, l2, hl, hpass, _⟩ := hg j2 k2 ho1
    refine ⟨l1, l2, hl, ?_, ho⟩
    intro p hp1
    by_cases hpj : p = j
    · subst hpj
      have hq := hpass p hp1
      rcases hp with ⟨_, _, _, _, hoc⟩ | ⟨_, _, _, _, hv⟩
      · obtain ⟨n, hn, _, hkn⟩ := hoc
        obtain ⟨n1, hn1, _, hkn1⟩ := hq
        rw [hn] at hn1
        cases hn1
        have hlt := (List.getElem?_eq_some_iff.1 hn).1
        refine ⟨_, List.getElem?_set_self hlt, rfl, ?_⟩
        show k ≠ k2
        rw [← hkn]
        exact hkn1
      · exact absurd hv (pass_not_vacant hq)
    · exact pass_set_of_ne _ hpj (hpass p hp1)

/-- Contents of the table after `insert` has written `(k, v)`. -/
theorem holds_insert {V : Type} {mix : Nat → Nat} {m : IntegerMap V} (hg : Good mix m)
    {k j : Nat} (v : V)
    (hp : ProbeFound m.nodes (probeOf mix m k) k j ∨
      ProbeVacant m.nodes (probeOf mix m k) k j) (k1 : Nat) (v1 : V) :
    Holds (m.nodes.set j { key := k, value := some v }) k1 v1 ↔
      (k1 = k ∧ v1 = v) ∨ (k1 ≠ k ∧ Holds m.nodes k1 v1) := by
  have hj : j < m.nodes.length := by
    rcases hp with h | h
    · exact probeFound_lt h
    · exact probeVacant_lt h
  constructor
  · intro h
    obtain ⟨i, hi⟩ := holds_iff.1 h
    by_cases hij : i = j
    · subst hij
      rw [List.getElem?_set_self hj] at hi
      simp only [Option.some.injEq, intnode.mk.injEq] at hi
      exact Or.inl ⟨hi.1.symm, hi.2.symm⟩
    · rw [List.getElem?_set_ne (Ne.symm hij)] at hi
      refine Or.inr ⟨?_, holds_iff.2 ⟨i, hi⟩⟩
      intro hk
      subst hk
      have hoi : Occ m.nodes k1 i := ⟨_, hi, rfl, rfl⟩
      rcases hp with h1 | h1
      · obtain ⟨_, _, _, _, hoj⟩ := h1
        exact hij (good_unique hg hoi hoj)
      · exact probeFound_not_vacant (hg i k1 hoi) h1
  · rintro (⟨hk, hv⟩ | ⟨hk, hh⟩)
    · subst hk
      subst hv
      exact holds_iff.2 ⟨j, List.getElem?_set_self hj⟩
    · obtain ⟨i, hi⟩ := holds_iff.1 hh
      have hij : i ≠ j := by
        rintro rfl
        rcases hp with ⟨_, _, _, _, n, hn, _, hkn⟩ | ⟨_, _, _, _, n, hn, hvn⟩
        · rw [hi] at hn
          cases hn
          exact hk hkn
        · rw [hi] at hn
          cases hn
          cases hvn
      exact holds_iff.2 ⟨i, by rw [List.getElem?_set_ne (Ne.symm hij)]; exact hi⟩

/-- In a good table `Search` returns the stored value of every stored key. -/
theorem search_good_hit {V : Type} {mix : Nat → Nat} {m : IntegerMap V} (hs : Shape m)
    (hg : Good mix m) {k : Nat} {v : V} (h : Holds m.nodes k v) :
    ∃ m1, SameTable m m1 ∧ Search mix m k = some (m1, some v, none) := by
  obtain ⟨j, hj⟩ := holds_iff.1 h
  exact search_of_found hs (hg j k ⟨_, hj, rfl, rfl⟩) hj

/-- In any table `Search` misses a key that no non-empty slot holds. -/
theorem search_miss {V : Type} (mix : Nat → Nat) {m : IntegerMap V} (hs : Shape m)
    {k : Nat} (h : ¬ ∃ v, Holds m.nodes k v) :
    ∃ m1, SameTable m m1 ∧ Search mix m k = some (m1, none, some error.ErrNotFound) := by
  apply search_of_not_found hs
  rintro ⟨j, _, _, _, _, ho⟩
  exact h (occ_iff_holds.1 ⟨j, ho⟩)

/-! ## `resize` -/

theorem liveCount_cons {V : Type} (n : intnode V) (ns : List (intnode V)) :
    liveCount (n :: ns) = liveCount ns + (if n.value.isSome = true then 1 else 0) := by
  unfold liveCount
  rw [List.countP_cons]

theorem holds_cons {V : Type} (n : intnode V) (ns : List (intnode V)) (k : Nat) (v : V) :
    Holds (n :: ns) k v ↔ n = { key := k, value := some v } ∨ Holds ns k v := by
  unfold Holds
  rw [List.mem_cons]
  constructor
  · rintro (h | h)
    · exact Or.inl h.symm
    · exact Or.inr h
  · rintro (h | h)
    · exact Or.inl h.symm
    · exact Or.inr h

/-- The re-insertion loop of `resize`, started on a good table with room for
the pairs to come: it returns, the table stays good, and it holds the keys it
held before together with the keys of the non-empty nodes inserted. -/
theorem resizeLoop_spec {V : Type} (mix : Nat → Nat) :
    ∀ (ns : List (intnode V)) (mc : IntegerMap V), Counted mc → Good mix mc →
      liveCount mc.nodes + liveCount ns ≤ mc.nodes.length →
      ∃ m1, resizeLoop mix ns mc = some m1 ∧ Counted m1 ∧ Good mix m1 ∧
        m1.stats.numSlots = mc.stats.numSlots ∧
        m1.stats.numResizes = mc.stats.numResizes ∧
        liveCount m1.nodes ≤ liveCount mc.nodes + liveCount ns ∧
        (∀ k, (∃ v, Holds m1.nodes k v) ↔
          ((∃ v, Holds mc.nodes k v) ∨ ∃ v, Holds ns k v)) ∧
        (∀ k v, Holds m1.nodes k v → Holds mc.nodes k v ∨ Holds ns k v) := by
  intro ns
  induction ns with
  | nil =>
    intro mc hc hg _
    refine ⟨mc, rfl, hc, hg, rfl, rfl, by omega, ?_, fun k v h => Or.inl h⟩
    intro k
    constructor
    · exact fun h => Or.inl h
    · rintro (h | ⟨v, h⟩)
      · exact h
      · exact absurd h (List.not_mem_nil _)
  | cons n ns ih =>
    intro mc hc hg hroom
    rw [liveCount_cons] at hroom
    cases hv : n.value with
    | none =>
      have hstep : resizeLoop mix (n :: ns) mc = resizeLoop mix ns mc := by
        simp [resizeLoop, hv]
      rw [hv] at hroom
      obtain ⟨m1, h1, h2, h3, h4, h5, h6, h7, h8⟩ := ih mc hc hg (by simpa using hroom)
      have hne : ∀ k v, n ≠ ({ key := k, value := some v } : intnode V) := by
        intro k v hn
        rw [hn] at hv
        cases hv
      refine ⟨m1, by rw [hstep, h1], h2, h3, h4, h5, ?_, ?_, ?_⟩
      · rw [liveCount_cons]
        omega
      · intro k
        rw [h7 k]
        constructor
        · rintro (h | ⟨v, h⟩)
          · exact Or.inl h
          · exact Or.inr ⟨v, (holds_cons n ns k v).2 (Or.inr h)⟩
        · rintro (h | ⟨v, h⟩)
          · exact Or.inl h
          · rcases (holds_cons n ns k v).1 h with h | h
            · exact absurd h (hne k v)
            · exact Or.inr ⟨v, h⟩
      · intro k v h
        rcases h8 k v h with h | h
        · exact Or.inl h
        · exact Or.inr ((holds_cons n ns k v).2 (Or.inr h))
    | some v0 =>
      have hn : n = { key := n.key, value := some v0 } := by
        obtain ⟨key, value⟩ := n
        simp only at hv
        rw [hv]
      rw [hv] at hroom
      have hroom1 : liveCount mc.nodes < mc.nodes.length := by
        simp only [Option.isSome_some, if_true] at hroom
        omega
      obtain ⟨m2, j, i1, i2, i3, i4, i5, i6⟩ := insert_counted mix hc hroom1 n.key v0
      have hstep : resizeLoop mix (n :: ns) mc = resizeLoop mix ns m2 := by
        simp [resizeLoop, hv, i1]
      have hp : ProbeFound mc.nodes (probeOf mix mc n.key) n.key j ∨
          ProbeVacant mc.nodes (probeOf mix mc n.key) n.key j := by
        rcases i6 with ⟨h, _⟩ | ⟨h, _⟩
        · exact Or.inl h
        · exact Or.inr h
      have hg2 : Good mix m2 := good_insert hg i3 i4 hp
      have hlen : m2.nodes.length = mc.nodes.length := by rw [i3, List.length_set]
      have hcnt : liveCount m2.nodes ≤ liveCount mc.nodes + 1 := by
        have a1 := i2.2
        have a2 := hc.2
        rcases i6 with ⟨_, h⟩ | ⟨_, h⟩
        · omega
        · omega
      have hroom2 : liveCount m2.nodes + liveCount ns ≤ m2.nodes.length := by
        simp only [Option.isSome_some, if_true] at hroom
        omega
      obtain ⟨m1, h1, h2, h3, h4, h5, h6, h7, h8⟩ := ih m2 i2 hg2 hroom2
      have hins := holds_insert hg v0 hp
      rw [← i3] at hins
      refine ⟨m1, by rw [hstep, h1], h2, h3, by rw [h4, i4], by rw [h5, i5], ?_, ?_, ?_⟩
      · rw [liveCount_cons, hv]
        simp only [Option.isSome_some, if_true]
        omega
      · intro k
        rw [h7 k]
        constructor
        · rintro (⟨v, h⟩ | ⟨v, h⟩)
          · rcases (hins k v).1 h with ⟨hk, hvv⟩ | ⟨_, hh⟩
            · refine Or.inr ⟨v0, (holds_cons n ns k v0).2 (Or.inl ?_)⟩
              rw [hk]
              exact hn
            · exact Or.inl ⟨v, hh⟩
          · exact Or.inr ⟨v, (holds_cons n ns k v).2 (Or.inr h)⟩
        · rintro (⟨v, h⟩ | ⟨v, h⟩)
          · by_cases hk : k = n.key
            · exact Or.inl ⟨v0, (hins k v0).2 (Or.inl ⟨hk, rfl⟩)⟩
            · exact Or.inl ⟨v, (hins k v).2 (Or.inr ⟨hk, h⟩)⟩
          · rcases (holds_cons n ns k v).1 h with h | h
            · have hk : k = n.key := by
                rw [h]
              exact Or.inl ⟨v0, (hins k v0).2 (Or.inl ⟨hk, rfl⟩)⟩
            · exact Or.inr ⟨v, h⟩
      · intro k v h
        rcases h8 k v h with h | h
        · rcases (hins k v).1 h with ⟨hk, hvv⟩ | ⟨_, hh⟩
          · refine Or.inr ((holds_cons n ns k v).2 (Or.inl ?_))
            rw [hk, hvv]
            exact hn
          · exact Or.inl hh
        · exact Or.inr ((holds_cons n ns k v).2 (Or.inr h))

theorem good_congr {V : Type} {mix : Nat → Nat} {m m1 : IntegerMap V} (hg : Good mix m)
    (h1 : m1.nodes = m.nodes) (h2 : m1.stats.numSlots = m.stats.numSlots) : Good mix m1 := by
  intro j k ho
  rw [probeOf_congr mix (by rw [h1]) h2, h1]
  rw [h1] at ho
  exact hg j k ho

theorem counted_congr {V : Type} {m m1 : IntegerMap V} (hc : Counted m)
    (h1 : m1.nodes = m.nodes) (h2 : m1.stats.numSlots = m.stats.numSlots)
    (h3 : m1.stats.numElements = m.stats.numElements) : Counted m1 := by
  unfold Counted Shape
  rw [h1, h2, h3]
  exact hc

theorem not_occ_replicate {V : Type} (n k j : Nat) :
    ¬ Occ (List.replicate n (emptyNode : intnode V)) k j := by
  rintro ⟨a, ha, hl, _⟩
  rw [List.getElem?_replicate] at ha
  split at ha
  · cases ha
    cases hl
  · cases ha

theorem not_holds_replicate {V : Type} (n k : Nat) (v : V) :
    ¬ Holds (List.replicate n (emptyNode : intnode V)) k v := by
  intro h
  have := List.eq_of_mem_replicate h
  unfold emptyNode at this
  cases this

/-- What `resize` does to a well-shaped table whose doubled size is still a
`uint32`: it returns a good table of twice the size that holds the same keys,
each with a value the old table held for it. -/
theorem resize_spec {V : Type} (mix : Nat → Nat) {m : IntegerMap V} (hs : Shape m)
    (h2 : m.stats.numSlots * 2 < u32) :
    ∃ m1, resize mix m = some m1 ∧ Counted m1 ∧ Good mix m1 ∧
      m1.stats.numSlots = m.stats.numSlots * 2 ∧
      m1.stats.numResizes = (m.stats.numResizes + 1) % u32 ∧
      liveCount m1.nodes ≤ liveCount m.nodes ∧
      (∀ k, (∃ v, Holds m1.nodes k v) ↔ ∃ v, Holds m.nodes k v) ∧
      (∀ k v, Holds m1.nodes k v → Holds m.nodes k v) := by
  have hmod : (m.stats.numSlots * 2) % u32 = m.stats.numSlots * 2 := Nat.mod_eq_of_lt h2
  let m0 : IntegerMap V :=
    { nodes := List.replicate ((m.stats.numSlots * 2) % u32) emptyNode
      stats := { m.stats with numElements := 0, numSlots := (m.stats.numSlots * 2) % u32 } }
  have hc0 : Counted m0 := by
    refine ⟨⟨?_, ?_, ?_⟩, ?_⟩
    · show (List.replicate _ _).length = (m.stats.numSlots * 2) % u32
      rw [List.length_replicate]
    · show 0 < (m.stats.numSlots * 2) % u32
      rw [hmod]
      have := hs.2.1
      omega
    · show (m.stats.numSlots * 2) % u32 < u32
      rw [hmod]
      exact h2
    · show 0 = liveCount (List.replicate _ _)
      rw [liveCount_replicate]
  have hg0 : Good mix m0 := by
    intro j k ho
    exact absurd ho (not_occ_replicate _ k j)
  have hroom : liveCount m0.nodes + liveCount m.nodes ≤ m0.nodes.length := by
    show liveCount (List.replicate _ _) + _ ≤ (List.replicate _ _).length
    rw [liveCount_replicate, List.length_replicate, hmod]
    have := liveCount_le m.nodes
    have := hs.1
    omega
  obtain ⟨m2, r1, r2, r3, r4, r5, r6, r7, r8⟩ := resizeLoop_spec mix m.nodes m0 hc0 hg0 hroom
  have hl0 : liveCount m0.nodes = 0 := liveCount_replicate _
  refine ⟨{ m2 with stats := { m2.stats with numResizes := (m2.stats.numResizes + 1) % u32 } },
    ?_, counted_congr r2 rfl rfl rfl, good_congr r3 rfl rfl, ?_, ?_, ?_, ?_, ?_⟩
  · show resize mix m = _
    unfold resize
    simp only []
    rw [r1]
  · show m2.stats.numSlots = _
    rw [r4]
    exact hmod
  · show (m2.stats.numResizes + 1) % u32 = _
    rw [r5]
  · show liveCount m2.nodes ≤ _
    omega
  · intro k
    show (∃ v, Holds m2.nodes k v) ↔ _
    rw [r7 k]
    constructor
    · rintro (⟨v, h⟩ | h)
      · exact absurd h (not_holds_replicate _ k v)
      · exact h
    · exact fun h => Or.inr h
  · intro k v h
    rcases r8 k v h with h | h
    · exact absurd h (not_holds_replicate _ k v)
    · exact h

theorem find_nil {V : Type} (mix : Nat → Nat) {m : IntegerMap V} (h : m.nodes = []) (k : Nat) :
    find mix m k = none ∨ ∃ m1, find mix m k = some (m1, (-1 : Int), some error.ErrNotFound) := by
  unfold find
  simp only [h, List.length_nil]
  by_cases hi : 0 < index mix
      ({ nodes := [], stats := { m.stats with numFinds := (m.stats.numFinds + 1) % u32 } } :
        IntegerMap V) k
  · left
    rw [if_pos hi]
  · right
    rw [if_neg hi]
    have h0 : index mix
      ({ nodes := [], stats := { m.stats with numFinds := (m.stats.numFinds + 1) % u32 } } :
        IntegerMap V) k = 0 := by omega
    rw [h0]
    simp [findLoop]

theorem insert_nil {V : Type} (mix : Nat → Nat) {m : IntegerMap V} (h : m.nodes = []) (k : Nat)
    (v : Option V) : insert mix m k v = none := by
  unfold insert
  rcases find_nil mix h k with hf | ⟨m1, hf⟩
  · rw [hf]
  · rw [hf]
    simp

theorem resizeLoop_nil {V : Type} (mix : Nat → Nat) :
    ∀ (ns : List (intnode V)) (mc : IntegerMap V), mc.nodes = [] → 0 < liveCount ns →
      resizeLoop mix ns mc = none := by
  intro ns
  induction ns with
  | nil =>
    intro mc _ h
    exact absurd h (by simp [liveCount])
  | cons n ns ih =>
    intro mc hm h
    rw [liveCount_cons] at h
    cases hv : n.value with
    | none =>
      rw [hv] at h
      have hstep : resizeLoop mix (n :: ns) mc = resizeLoop mix ns mc := by
        simp [resizeLoop, hv]
      rw [hstep]
      exact ih mc hm (by simpa using h)
    | some v0 =>
      have := insert_nil mix hm n.key (some v0)
      simp [resizeLoop, hv, this]

/-- When doubling `numSlots` overflows `uint32` to zero, `resize` of a
non-empty table panics. -/
theorem resize_overflow {V : Type} (mix : Nat → Nat) {m : IntegerMap V}
    (h : (m.stats.numSlots * 2) % u32 = 0) (hl : 0 < liveCount m.nodes) :
    resize mix m = none := by
  have hloop : resizeLoop mix m.nodes
      ({ nodes := List.replicate ((m.stats.numSlots * 2) % u32) emptyNode
         stats := { m.stats with numElements := 0,
                                 numSlots := (m.stats.numSlots * 2) % u32 } } :
        IntegerMap V) = none := by
    apply resizeLoop_nil mix _ _ _ hl
    show List.replicate _ _ = []
    rw [h]
    rfl
  unfold resize
  simp only []
  rw [hloop]

/-! ## The invariant of reachable tables -/

theorem inv_of_sameTable {V : Type} {m m1 : IntegerMap V} (h : Inv m)
    (hs : SameTable m m1) : Inv m1 := by
  obtain ⟨h1, h2, h3⟩ := h
  refine ⟨counted_of_sameTable h1 hs, ?_, ?_⟩
  · rw [hs.2.2.1]
    exact h2
  · rw [hs.2.1, hs.2.2.1]
    exact h3

theorem stored_of_sameTable {V : Type} {mix : Nat → Nat} {m m1 : IntegerMap V} {k : Nat}
    {v : V} (h : Stored mix m k v) (hs : SameTable m m1) : Stored mix m1 k v := by
  obtain ⟨j, hp, hn⟩ := h
  refine ⟨j, ?_, ?_⟩
  · rw [probeOf_congr mix (by rw [hs.1]) hs.2.2.1, hs.1]
    exact hp
  · rw [hs.1]
    exact hn

/-- After `insert` has written `(k, v)` the pair is stored. -/
theorem stored_after_insert {V : Type} {mix : Nat → Nat} {m m1 : IntegerMap V} {k j : Nat}
    {v : V} (h2 : m1.nodes = m.nodes.set j { key := k, value := some v })
    (h3 : m1.stats.numSlots = m.stats.numSlots)
    (hp : ProbeFound m.nodes (probeOf mix m k) k j ∨
      ProbeVacant m.nodes (probeOf mix m k) k j) : Stored mix m1 k v := by
  have hlen : m1.nodes.length = m.nodes.length := by rw [h2, List.length_set]
  have hj : j < m.nodes.length := by
    rcases hp with h | h
    · exact probeFound_lt h
    · exact probeVacant_lt h
  refine ⟨j, ?_, ?_⟩
  · rw [probeOf_congr mix hlen h3, h2]
    exact probeFound_after_insert v hp
  · rw [h2, List.getElem?_set_self hj]

theorem stored_search {V : Type} {mix : Nat → Nat} {m : IntegerMap V} {k : Nat} {v : V}
    (hs : Shape m) (h : Stored mix m k v) :
    ∃ m1, SameTable m m1 ∧ Search mix m k = some (m1, some v, none) := by
  obtain ⟨j, hp, hn⟩ := h
  exact search_of_found hs hp hn

theorem overLoad_false {V : Type} {m : IntegerMap V} (h : overLoad m = false) :
    4 * m.stats.numElements ≤ 3 * m.stats.numSlots := by
  unfold overLoad at h
  have := of_decide_eq_false h
  omega

theorem overLoad_true {V : Type} {m : IntegerMap V} (h : overLoad m = true) :
    3 * m.stats.numSlots < 4 * m.stats.numElements := by
  unfold overLoad at h
  exact of_decide_eq_true h

theorem Insert_no_resize {V : Type} (mix : Nat → Nat) {m : IntegerMap V}
    (h : overLoad m = false) (k : Nat) (v : Option V) :
    Insert mix m k v = insert mix m k v := by
  unfold Insert
  rw [h]
  rfl

theorem Insert_resize {V : Type} (mix : Nat → Nat) {m mr : IntegerMap V}
    (h : overLoad m = true) (hr : resize mix m = some mr) (k : Nat) (v : Option V) :
    Insert mix m k v = insert mix mr k v := by
  unfold Insert
  rw [h, hr]
  rfl

theorem pow_two_lt {e : Nat} (h : 2 ^ e < 2147483648) : e ≤ 30 := by
  by_contra hc
  have h31 : 2 ^ 31 ≤ 2 ^ e := Nat.pow_le_pow_right (by norm_num) (by omega)
  norm_num at h31
  omega

/-- The step `Insert` takes on a table satisfying the invariant, when the
doubling of `numSlots` (if it is due) does not overflow: it returns without
error, the invariant holds again, the pair is stored, and `numSlots` is kept
or doubled according to the load test. -/
theorem Insert_spec {V : Type} (mix : Nat → Nat) {m : IntegerMap V} (hi : Inv m)
    (hsz : m.stats.numSlots < 2147483648 ∨ overLoad m = false) (k : Nat) (v : V) :
    ∃ m1, Insert mix m k (some v) = some (m1, none) ∧ Inv m1 ∧ Stored mix m1 k v ∧
      m1.stats.numElements ≤ m.stats.numElements + 1 ∧
      ((overLoad m = false ∧ m1.stats.numSlots = m.stats.numSlots ∧
          m1.stats.numResizes = m.stats.numResizes) ∨
        (overLoad m = true ∧ m1.stats.numSlots = m.stats.numSlots * 2 ∧
          m1.stats.numResizes = (m.stats.numResizes + 1) % u32)) := by
  obtain ⟨hc, ⟨e, he4, he31, he⟩, hload⟩ := hi
  have hshape := hc.1
  have hlen := hshape.1
  have hpos := hshape.2.1
  have hcnt := hc.2
  cases hov : overLoad m with
  | false =>
    have hle := overLoad_false hov
    have hroom : liveCount m.nodes < m.nodes.length := by omega
    obtain ⟨m1, j, i1, i2, i3, i4, i5, i6⟩ := insert_counted mix hc hroom k v
    have hp : ProbeFound m.nodes (probeOf mix m k) k j ∨
        ProbeVacant m.nodes (probeOf mix m k) k j := by
      rcases i6 with ⟨h, _⟩ | ⟨h, _⟩
      · exact Or.inl h
      · exact Or.inr h
    have hn1 : m1.stats.numElements ≤ m.stats.numElements + 1 := by
      rcases i6 with ⟨_, h⟩ | ⟨_, h⟩
      · omega
      · omega
    refine ⟨m1, by rw [Insert_no_resize mix hov, i1], ⟨i2, ⟨e, he4, he31, by rw [i4, he]⟩, ?_⟩,
      stored_after_insert i3 i4 hp, hn1, Or.inl ⟨rfl, i4, i5⟩⟩
    rw [i4]
    omega
  | true =>
    have hgt := overLoad_true hov
    have hlt : m.stats.numSlots < 2147483648 := by
      rcases hsz with h | h
      · exact h
      · rw [hov] at h
        cases h
    have hu : u32 = 4294967296 := rfl
    have h2 : m.stats.numSlots * 2 < u32 := by omega
    obtain ⟨mr, r1, r2, r3, r4, r5, r6, _, _⟩ := resize_spec mix hc.1 h2
    have hlenr := r2.1.1
    have hroom : liveCount mr.nodes < mr.nodes.length := by
      have := liveCount_le m.nodes
      omega
    obtain ⟨m1, j, i1, i2, i3, i4, i5, i6⟩ := insert_counted mix r2 hroom k v
    have hp : ProbeFound mr.nodes (probeOf mix mr k) k j ∨
        ProbeVacant mr.nodes (probeOf mix mr k) k j := by
      rcases i6 with ⟨h, _⟩ | ⟨h, _⟩
      · exact Or.inl h
      · exact Or.inr h
    have hnr := r2.2
    have hn1 : m1.stats.numElements ≤ m.stats.numElements + 1 := by
      rcases i6 with ⟨_, h⟩ | ⟨_, h⟩
      · omega
      · omega
    have he30 : e ≤ 30 := pow_two_lt (by rw [← he]; exact hlt)
    refine ⟨m1, by rw [Insert_resize mix hov r1, i1],
      ⟨i2, ⟨e + 1, by omega, by omega, by rw [i4, r4, he, pow_succ]⟩, ?_⟩,
      stored_after_insert i3 i4 hp, hn1, Or.inr ⟨rfl, by rw [i4, r4], by rw [i5, r5]⟩⟩
    rw [i4, r4]
    have := liveCount_le m.nodes
    omega

/-- Every `Insert` of a non-nil value that returns on a table satisfying the
invariant returns a nil error and re-establishes the invariant. -/
theorem Insert_inv {V : Type} (mix : Nat → Nat) {m m1 : IntegerMap V} (hi : Inv m)
    {k : Nat} {v : V} {e : Option error} (h : Insert mix m k (some v) = some (m1, e)) :
    Inv m1 ∧ e = none ∧ Stored mix m1 k v ∧
      m1.stats.numElements ≤ m.stats.numElements + 1 ∧
      ((overLoad m = false ∧ m1.stats.numSlots = m.stats.numSlots ∧
          m1.stats.numResizes = m.stats.numResizes) ∨
        (overLoad m = true ∧ m1.stats.numSlots = m.stats.numSlots * 2 ∧
          m1.stats.numResizes = (m.stats.numResizes + 1) % u32)) := by
  by_cases hsz : m.stats.numSlots < 2147483648 ∨ overLoad m = false
  · obtain ⟨m2, h1, h2, h3, h4, h5⟩ := Insert_spec mix hi hsz k v
    rw [h1] at h
    have hm : m2 = m1 := by
      cases h
      rfl
    have he : e = none := by
      cases h
      rfl
    subst hm
    exact ⟨h2, he, h3, h4, h5⟩
  · exfalso
    have hge : ¬ m.stats.numSlots < 2147483648 := fun hh => hsz (Or.inl hh)
    have hov : overLoad m = true := by
      cases hh : overLoad m
      · exact absurd (Or.inr hh) hsz
      · rfl
    obtain ⟨hc, ⟨e1, _, he31, he⟩, _⟩ := hi
    have hle : (2 : Nat) ^ e1 ≤ 2 ^ 31 := Nat.pow_le_pow_right (by norm_num) he31
    norm_num at hle
    have hs : m.stats.numSlots = 2147483648 := by omega
    have hgt := overLoad_true hov
    have hl : 0 < liveCount m.nodes := by
      have := hc.2
      omega
    have hz : (m.stats.numSlots * 2) % u32 = 0 := by
      rw [hs]
      rfl
    have hr := resize_overflow mix hz hl
    unfold Insert at h
    rw [hov, hr] at h
    simp at h

theorem roundUp_default : RoundUpPowerOfTwo32 DefaultIntegerMapSize = 16 := by decide

theorem inv_new {V : Type} : Inv (NewIntegerMap : IntegerMap V) := by
  have hr := roundUp_default
  refine ⟨⟨⟨?_, ?_, ?_⟩, ?_⟩, ⟨4, le_refl 4, by omega, ?_⟩, ?_⟩
  · show (List.replicate _ _).length = RoundUpPowerOfTwo32 DefaultIntegerMapSize % u32
    rw [List.length_replicate, hr]
    rfl
  · show 0 < RoundUpPowerOfTwo32 DefaultIntegerMapSize % u32
    rw [hr]
    decide
  · show RoundUpPowerOfTwo32 DefaultIntegerMapSize % u32 < u32
    rw [hr]
    decide
  · show 0 = liveCount (List.replicate _ _)
    rw [liveCount_replicate]
  · show RoundUpPowerOfTwo32 DefaultIntegerMapSize % u32 = 2 ^ 4
    rw [hr]
    rfl
  · show 4 * 0 ≤ 3 * (RoundUpPowerOfTwo32 DefaultIntegerMapSize % u32) + 4
    omega

theorem Delete_inv {V : Type} (mix : Nat → Nat) {m m1 : IntegerMap V} (hi : Inv m)
    {k : Nat} {r : Option V × Option error} (h : Delete mix m k = some (m1, r)) :
    Inv m1 ∧ m1.stats.numSlots = m.stats.numSlots ∧
      m1.stats.numResizes = m.stats.numResizes := by
  obtain ⟨hc, ⟨e, he4, he31, he⟩, hload⟩ := hi
  rcases delete_counted mix hc k with ⟨m2, hst, hd, _⟩ | ⟨m2, j, n, hd, hc2, _, _, _, hn, hsl, hrs⟩
  · rw [hd] at h
    have hm : m2 = m1 := by
      cases h
      rfl
    subst hm
    exact ⟨inv_of_sameTable ⟨hc, ⟨e, he4, he31, he⟩, hload⟩ hst, hst.2.2.1, hst.2.2.2⟩
  · rw [hd] at h
    have hm : m2 = m1 := by
      cases h
      rfl
    subst hm
    refine ⟨⟨hc2, ⟨e, he4, he31, by rw [hsl, he]⟩, ?_⟩, hsl, hrs⟩
    rw [hsl]
    omega

theorem Search_sameTable {V : Type} (mix : Nat → Nat) {m m1 : IntegerMap V} (hs : Shape m)
    {k : Nat} {r : Option V × Option error} (h : Search mix m k = some (m1, r)) :
    SameTable m m1 := by
  obtain ⟨m2, r2, hst, he⟩ := search_total mix hs k
  rw [he] at h
  have hm : m2 = m1 := by
    cases h
    rfl
  subst hm
  exact hst

/-- Every reachable table satisfies the invariant. -/
theorem reachable_inv {V : Type} {mix : Nat → Nat} {m : IntegerMap V}
    (h : Reachable mix m) : Inv m := by
  induction h with
  | new => exact inv_new
  | insert _ hi ih => exact (Insert_inv mix ih hi).1
  | delete _ hd ih => exact (Delete_inv mix ih hd).1
  | search _ hs ih => exact inv_of_sameTable ih (Search_sameTable mix ih.1.1 hs)

/-! ## Tables reachable with arbitrary (possibly nil) values -/

theorem reachable_any {V : Type} {mix : Nat → Nat} {m : IntegerMap V}
    (h : Reachable mix m) : ReachableAny mix m := by
  induction h with
  | new => exact ReachableAny.new
  | insert _ hi ih => exact ReachableAny.insert ih hi
  | delete _ hd ih => exact ReachableAny.delete ih hd
  | search _ hs ih => exact ReachableAny.search ih hs

theorem inv_any {V : Type} {m : IntegerMap V} (h : Inv m) : InvAny m :=
  ⟨h.1.1, h.2.1, by rw [h.1.2], h.2.2⟩

theorem invAny_of_sameTable {V : Type} {m m1 : IntegerMap V} (h : InvAny m)
    (hs : SameTable m m1) : InvAny m1 := by
  obtain ⟨h1, h2, h3, h4⟩ := h
  refine ⟨shape_of_sameTable h1 hs, ?_, ?_, ?_⟩
  · rw [hs.2.2.1]
    exact h2
  · rw [hs.1, hs.2.1]
    exact h3
  · rw [hs.2.1, hs.2.2.1]
    exact h4

/-- The step of `insert` with an arbitrary value on a table with an empty
slot. -/
theorem insert_any {V : Type} (mix : Nat → Nat) {m : IntegerMap V} (hs : Shape m)
    (hroom : liveCount m.nodes < m.nodes.length)
    (hn : liveCount m.nodes ≤ m.stats.numElements)
    (hlt : m.stats.numElements + 1 < u32) (k : Nat) (v : Option V) :
    ∃ m1, insert mix m k v = some (m1, none) ∧ Shape m1 ∧
      m1.stats.numSlots = m.stats.numSlots ∧
      m1.stats.numResizes = m.stats.numResizes ∧
      liveCount m1.nodes ≤ m1.stats.numElements ∧
      m1.stats.numElements ≤ m.stats.numElements + 1 := by
  obtain ⟨m1, j, h1, h2, h3, h4, h5⟩ := insert_step mix hs hroom k v
  have hlen : m1.nodes.length = m.nodes.length := by rw [h2, List.length_set]
  have hs1 : Shape m1 := by
    unfold Shape
    rw [hlen, h3]
    exact hs
  have hbit : (if v.isSome = true then 1 else 0) ≤ 1 := by
    split <;> omega
  rcases h5 with ⟨hp, he⟩ | ⟨hp, he⟩
  · obtain ⟨_, _, _, _, n, hnj, hl, _⟩ := hp
    obtain ⟨hj, hnj1⟩ := List.getElem?_eq_some_iff.1 hnj
    have hc := liveCount_set m.nodes j { key := k, value := v } hj
    rw [hnj1, hl] at hc
    simp only [if_true] at hc
    refine ⟨m1, h1, hs1, h3, h4, ?_, by omega⟩
    rw [h2, he]
    omega
  · obtain ⟨_, _, _, _, n, hnj, hl⟩ := hp
    obtain ⟨hj, hnj1⟩ := List.getElem?_eq_some_iff.1 hnj
    have hc := liveCount_set m.nodes j { key := k, value := v } hj
    rw [hnj1, hl] at hc
    simp only [Bool.false_eq_true, if_false] at hc
    have he1 : m1.stats.numElements = m.stats.numElements + 1 := by
      rw [he, Nat.mod_eq_of_lt hlt]
    refine ⟨m1, h1, hs1, h3, h4, ?_, by omega⟩
    rw [h2, he1]
    omega

/-- As `Insert_spec`, for an arbitrary value. -/
theorem Insert_any_spec {V : Type} (mix : Nat → Nat) {m : IntegerMap V} (hi : InvAny m)
    (hsz : m.stats.numSlots < 2147483648 ∨ overLoad m = false) (k : Nat) (v : Option V) :
    ∃ m1, Insert mix m k v = some (m1, none) ∧ InvAny m1 ∧
      ((overLoad m = false ∧ m1.stats.numSlots = m.stats.numSlots ∧
          m1.stats.numResizes = m.stats.numResizes) ∨
        (overLoad m = true ∧ m1.stats.numSlots = m.stats.numSlots * 2 ∧
          m1.stats.numResizes = (m.stats.numResizes + 1) % u32)) := by
  obtain ⟨hs, ⟨e, he4, he31, he⟩, hcnt, hload⟩ := hi
  have hlen := hs.1
  have hpos := hs.2.1
  have hu : u32 = 4294967296 := rfl
  have hle : (2 : Nat) ^ e ≤ 2 ^ 31 := Nat.pow_le_pow_right (by norm_num) he31
  norm_num at hle
  cases hov : overLoad m with
  | false =>
    have hle := overLoad_false hov
    obtain ⟨m1, i1, i2, i3, i4, i5, i6⟩ :=
      insert_any mix hs (by omega) hcnt (by omega) k v
    refine ⟨m1, by rw [Insert_no_resize mix hov, i1],
      ⟨i2, ⟨e, he4, he31, by rw [i3, he]⟩, i5, ?_⟩, Or.inl ⟨rfl, i3, i4⟩⟩
    rw [i3]
    omega
  | true =>
    have hlt : m.stats.numSlots < 2147483648 := by
      rcases hsz with h | h
      · exact h
      · rw [hov] at h
        cases h
    have h2 : m.stats.numSlots * 2 < u32 := by omega
    obtain ⟨mr, r1, r2, _, r4, r5, r6, _, _⟩ := resize_spec mix hs h2
    have hlenr := r2.1.1
    have hnr := r2.2
    have hll := liveCount_le m.nodes
    obtain ⟨m1, i1, i2, i3, i4, i5, i6⟩ :=
      insert_any mix r2.1 (by omega) (by omega) (by omega) k v
    have he30 : e ≤ 30 := pow_two_lt (by rw [← he]; exact hlt)
    refine ⟨m1, by rw [Insert_resize mix hov r1, i1],
      ⟨i2, ⟨e + 1, by omega, by omega, by rw [i3, r4, he, pow_succ]⟩, i5, ?_⟩,
      Or.inr ⟨rfl, by rw [i3, r4], by rw [i4, r5]⟩⟩
    rw [i3, r4]
    omega

theorem resizeLoop_nil_cases {V : Type} (mix : Nat → Nat) :
    ∀ (ns : List (intnode V)) (mc : IntegerMap V), mc.nodes = [] →
      resizeLoop mix ns mc = none ∨ resizeLoop mix ns mc = some mc := by
  intro ns
  induction ns with
  | nil =>
    intro mc _
    exact Or.inr rfl
  | cons n ns ih =>
    intro mc hm
    cases hv : n.value with
    | none =>
      have hstep : resizeLoop mix (n :: ns) mc = resizeLoop mix ns mc := by
        simp [resizeLoop, hv]
      rw [hstep]
      exact ih mc hm
    | some v0 =>
      have := insert_nil mix hm n.key (some v0)
      left
      simp [resizeLoop, hv, this]

/-- When doubling `numSlots` overflows `uint32` to zero, an `Insert` that
resizes panics. -/
theorem Insert_overflow {V : Type} (mix : Nat → Nat) {m : IntegerMap V}
    (hov : overLoad m = true) (h : (m.stats.numSlots * 2) % u32 = 0) (k : Nat)
    (v : Option V) : Insert mix m k v = none := by
  have hnil : IntegerMap.nodes
      ({ nodes := List.replicate ((m.stats.numSlots * 2) % u32) emptyNode,
         stats := { m.stats with numElements := 0,
                                 numSlots := (m.stats.numSlots * 2) % u32 } } :
        IntegerMap V) = [] := by
    show List.replicate _ _ = []
    rw [h]
    rfl
  unfold Insert
  rw [hov]
  simp only [if_true]
  unfold resize
  simp only []
  rcases resizeLoop_nil_cases mix m.nodes _ hnil with hr | hr
  · rw [hr]
  · rw [hr]
    simp only []
    apply insert_nil
    show List.replicate _ _ = []
    rw [h]
    rfl

/-- Every `Insert` that returns on a table satisfying `InvAny` returns a nil
error and re-establishes it. -/
theorem Insert_any_inv {V : Type} (mix : Nat → Nat) {m m1 : IntegerMap V} (hi : InvAny m)
    {k : Nat} {v : Option V} {e : Option error} (h : Insert mix m k v = some (m1, e)) :
    InvAny m1 ∧ e = none ∧
      ((overLoad m = false ∧ m1.stats.numSlots = m.stats.numSlots ∧
          m1.stats.numResizes = m.stats.numResizes) ∨
        (overLoad m = true ∧ m1.stats.numSlots = m.stats.numSlots * 2 ∧
          m1.stats.numResizes = (m.stats.numResizes + 1) % u32)) := by
  by_cases hsz : m.stats.numSlots < 2147483648 ∨ overLoad m = false
  · obtain ⟨m2, h1, h2, h3⟩ := Insert_any_spec mix hi hsz k v
    rw [h1] at h
    have hm : m2 = m1 := by
      cases h
      rfl
    have he : e = none := by
      cases h
      rfl
    subst hm
    exact ⟨h2, he, h3⟩
  · exfalso
    have hge : ¬ m.stats.numSlots < 2147483648 := fun hh => hsz (Or.inl hh)
    have hov : overLoad m = true := by
      cases hh : overLoad m
      · exact absurd (Or.inr hh) hsz
      · rfl
    obtain ⟨_, ⟨e1, _, he31, he⟩, _, _⟩ := hi
    have hle : (2 : Nat) ^ e1 ≤ 2 ^ 31 := Nat.pow_le_pow_right (by norm_num) he31
    norm_num at hle
    have hs : m.stats.numSlots = 2147483648 := by omega
    have hz : (m.stats.numSlots * 2) % u32 = 0 := by
      rw [hs]
      rfl
    rw [Insert_overflow mix hov hz k v] at h
    cases h

/-- The step of `Delete` on a well-shaped table whose counter is not below
the number of non-empty slots. -/
theorem delete_any {V : Type} (mix : Nat → Nat) {m : IntegerMap V} (hs : Shape m)
    (hn : liveCount m.nodes ≤ m.stats.numElements) (k : Nat) :
    ∃ m1 r, Delete mix m k = some (m1, r) ∧ Shape m1 ∧
      m1.stats.numSlots = m.stats.numSlots ∧
      m1.stats.numResizes = m.stats.numResizes ∧
      liveCount m1.nodes ≤ m1.stats.numElements ∧
      m1.stats.numElements ≤ m.stats.numElements := by
  by_cases hf : ∃ j, ProbeFound m.nodes (probeOf mix m k) k j
  · obtain ⟨j, hp⟩ := hf
    have hp0 := hp
    obtain ⟨_, _, _, _, n, hnj, hl, hk⟩ := hp
    obtain ⟨m1, h1, h2, h3, h4, h5⟩ := delete_of_found hs hp0 hnj
    have hcnt := liveCount_set_none ⟨n, hnj, hl⟩ n.key
    have hlen : m1.nodes.length = m.nodes.length := by rw [h2, List.length_set]
    have hs1 : Shape m1 := by
      unfold Shape
      rw [hlen, h4]
      exact hs
    have he : m1.stats.numElements + 1 = m.stats.numElements := by
      rw [h3]
      unfold sub32
      rw [if_pos (by omega)]
      omega
    refine ⟨m1, _, h1, hs1, h4, h5, ?_, by omega⟩
    rw [h2]
    omega
  · obtain ⟨m1, hst, he⟩ := delete_of_not_found hs hf
    refine ⟨m1, _, he, shape_of_sameTable hs hst, hst.2.2.1, hst.2.2.2, ?_, ?_⟩
    · rw [hst.1, hst.2.1]
      exact hn
    · rw [hst.2.1]

theorem Delete_any_inv {V : Type} (mix : Nat → Nat) {m m1 : IntegerMap V} (hi : InvAny m)
    {k : Nat} {r : Option V × Option error} (h : Delete mix m k = some (m1, r)) :
    InvAny m1 ∧ m1.stats.numSlots = m.stats.numSlots ∧
      m1.stats.numResizes = m.stats.numResizes := by
  obtain ⟨hs, ⟨e, he4, he31, he⟩, hcnt, hload⟩ := hi
  obtain ⟨m2, r2, hd, d1, d2, d3, d4, d5⟩ := delete_any mix hs hcnt k
  rw [hd] at h
  have hm : m2 = m1 := by
    cases h
    rfl
  subst hm
  refine ⟨⟨d1, ⟨e, he4, he31, by rw [d2, he]⟩, d4, ?_⟩, d2, d3⟩
  rw [d2]
  omega

/-- Every table reachable with arbitrary values satisfies `InvAny`. -/
theorem reachableAny_inv {V : Type} {mix : Nat → Nat} {m : IntegerMap V}
    (h : ReachableAny mix m) : InvAny m := by
  induction h with
  | new => exact inv_any inv_new
  | insert _ hi ih => exact (Insert_any_inv mix ih hi).1
  | delete _ hd ih => exact (Delete_any_inv mix ih hd).1
  | search _ hs ih => exact invAny_of_sameTable ih (Search_sameTable mix ih.1 hs)

theorem size_lt_iff {V : Type} (m : IntegerMap V) :
    Size m < 2 ^ 31 ↔ m.stats.numSlots < 2147483648 := by
  unfold Size
  constructor
  · intro h
    norm_num at h
    exact h
  · intro h
    norm_num
    exact h

/-- A table satisfying `InvAny` has an empty slot. -/
theorem invAny_vacant {V : Type} {m : IntegerMap V} (h : InvAny m) :
    ∃ j, Vacant m.nodes j := by
  obtain ⟨hs, ⟨e, he4, _, he⟩, hcnt, hload⟩ := h
  have h16 : (2 : Nat) ^ 4 ≤ 2 ^ e := Nat.pow_le_pow_right (by norm_num) he4
  norm_num at h16
  apply exists_vacant
  have := hs.1
  omega

/-- After `Delete` of a stored key the probe for it ends on the emptied
slot. -/
theorem delete_stored {V : Type} (mix : Nat → Nat) {m : IntegerMap V} {k : Nat} {v : V}
    (hs : Shape m) (hn : liveCount m.nodes ≤ m.stats.numElements)
    (hst : Stored mix m k v) :
    ∃ m1, Delete mix m k = some (m1, some v, none) ∧ Shape m1 ∧
      m1.stats.numElements + 1 = m.stats.numElements ∧
      m1.stats.numSlots = m.stats.numSlots ∧
      ¬ ∃ j, ProbeFound m1.nodes (probeOf mix m1 k) k j := by
  obtain ⟨j, hp, hnj⟩ := hst
  obtain ⟨m1, h1, h2, h3, h4, _⟩ := delete_of_found hs hp hnj
  have hlive : Live m.nodes j := ⟨_, hnj, rfl⟩
  have hcnt := liveCount_set_none hlive k
  have hlen : m1.nodes.length = m.nodes.length := by rw [h2, List.length_set]
  have hs1 : Shape m1 := by
    unfold Shape
    rw [hlen, h4]
    exact hs
  have he : m1.stats.numElements + 1 = m.stats.numElements := by
    rw [h3]
    unfold sub32
    rw [if_pos (by omega)]
    omega
  refine ⟨m1, h1, hs1, he, h4, ?_⟩
  obtain ⟨l1, l2, hl, hpass, ho⟩ := hp
  have hv : ProbeVacant m1.nodes (probeOf mix m1 k) k j := by
    rw [probeOf_congr mix hlen h4, h2]
    exact probeVacant_set k hl hpass (occ_lt ho) (fun hq => pass_not_occ hq ho)
  rintro ⟨j1, hf⟩
  exact probeFound_not_vacant hf hv

/-- On any table, a `find` that returns changes the statistics only. -/
theorem find_sameTable {V : Type} (mix : Nat → Nat) {m m1 : IntegerMap V} {k : Nat}
    {r : Int × Option error} (h : find mix m k = some (m1, r)) : SameTable m m1 := by
  unfold find at h
  simp only at h
  split at h
  · cases h
  · split at h
    · cases h
    · cases h
      exact ⟨rfl, rfl, rfl, rfl⟩
    · split at h
      · cases h
      · cases h
        exact ⟨rfl, rfl, rfl, rfl⟩
      · cases h
        exact ⟨rfl, rfl, rfl, rfl⟩

/-- On any table, a `Search` that returns changes the statistics only. -/
theorem Search_frame {V : Type} (mix : Nat → Nat) {m m1 : IntegerMap V} {k : Nat}
    {r : Option V × Option error} (h : Search mix m k = some (m1, r)) : SameTable m m1 := by
  unfold Search at h
  cases hf : find mix m k with
  | none =>
    rw [hf] at h
    cases h
  | some p =>
    obtain ⟨m0, i, err⟩ := p
    have hst := find_sameTable mix hf
    rw [hf] at h
    simp only at h
    split at h
    · cases h
      exact hst
    · split at h
      · cases h
      · split at h
        · cases h
        · cases h
          exact hst

/-- On any table, a `Delete` that returns `ErrNotFound` changes the statistics
only. -/
theorem Delete_frame {V : Type} (mix : Nat → Nat) {m m1 : IntegerMap V} {k : Nat}
    {v : Option V} (h : Delete mix m k = some (m1, v, some error.ErrNotFound)) :
    SameTable m m1 ∧ v = none := by
  unfold Delete at h
  cases hf : find mix m k with
  | none =>
    rw [hf] at h
    cases h
  | some p =>
    obtain ⟨m0, i, err⟩ := p
    have hst := find_sameTable mix hf
    rw [hf] at h
    simp only at h
    split at h
    · cases h
      exact ⟨hst, rfl⟩
    · split at h
      · cases h
      · split at h
        · cases h
        · cases h

/-- On a well-shaped table with an empty slot `find` returns a slot index,
never `-1`. -/
theorem find_nonneg {V : Type} (mix : Nat → Nat) {m : IntegerMap V} (hs : Shape m)
    (hv : ∃ j, Vacant m.nodes j) (k : Nat) :
    ∃ m1 i e, find mix m k = some (m1, i, e) ∧ 0 ≤ i := by
  obtain ⟨j0, hj0⟩ := hv
  rcases probe_cases mix hs k with hf | ⟨j, hp⟩ | ⟨j, hp⟩
  · exact absurd hj0 (probeFull_no_vacant (shape_index_le hs mix k) hf j0)
  · obtain ⟨m1, _, he⟩ := find_of_found hs hp
    exact ⟨m1, _, _, he, by omega⟩
  · obtain ⟨m1, _, he⟩ := find_of_vacant hs hp
    exact ⟨m1, _, _, he, by omega⟩

/-- No probe finds a key in the fresh table. -/
theorem new_not_found {V : Type} (mix : Nat → Nat) (k : Nat) :
    ¬ ∃ j, ProbeFound (NewIntegerMap : IntegerMap V).nodes
      (probeOf mix (NewIntegerMap : IntegerMap V) k) k j := by
  rintro ⟨j, _, _, _, _, ho⟩
  exact not_occ_replicate _ k j ho

/-! ## Runs of operations -/

theorem reachable_runOps {V : Type} (mix : Nat → Nat) :
    ∀ (ops : List (Op V)) (m m1 : IntegerMap V), Reachable mix m →
      runOps mix m ops = some m1 → Reachable mix m1 := by
  intro ops
  induction ops with
  | nil =>
    intro m m1 hr h
    cases h
    exact hr
  | cons o ops ih =>
    intro m m1 hr h
    cases o with
    | insert k v =>
      cases hi : Insert mix m k (some v) with
      | none =>
        simp [runOps, hi] at h
      | some p =>
        obtain ⟨m2, e⟩ := p
        simp only [runOps, hi] at h
        exact ih m2 m1 (Reachable.insert hr hi) h
    | delete k =>
      cases hi : Delete mix m k with
      | none =>
        simp [runOps, hi] at h
      | some p =>
        obtain ⟨m2, r⟩ := p
        simp only [runOps, hi] at h
        exact ih m2 m1 (Reachable.delete hr hi) h
    | search k =>
      cases hi : Search mix m k with
      | none =>
        simp [runOps, hi] at h
      | some p =>
        obtain ⟨m2, r⟩ := p
        simp only [runOps, hi] at h
        exact ih m2 m1 (Reachable.search hr hi) h

theorem reachable_insertAll {V : Type} (mix : Nat → Nat) :
    ∀ (ops : List (Nat × V)) (m m1 : IntegerMap V), Reachable mix m →
      insertAll mix m ops = some m1 → Reachable mix m1 := by
  intro ops
  induction ops with
  | nil =>
    intro m m1 hr h
    cases h
    exact hr
  | cons o ops ih =>
    intro m m1 hr h
    obtain ⟨k, v⟩ := o
    cases hi : Insert mix m k (some v) with
    | none =>
      simp [insertAll, hi] at h
    | some p =>
      obtain ⟨m2, e⟩ := p
      simp only [insertAll, hi] at h
      exact ih m2 m1 (Reachable.insert hr hi) h

/-- A run of at most `2^30` further `Insert` calls on a table satisfying the
invariant that holds no more than `2^30` elements with them returns. -/
theorem insertAll_total {V : Type} (mix : Nat → Nat) :
    ∀ (ops : List (Nat × V)) (m : IntegerMap V), Inv m →
      m.stats.numElements + ops.length ≤ 1073741824 →
      ∃ m1, insertAll mix m ops = some m1 := by
  intro ops
  induction ops with
  | nil =>
    intro m _ _
    exact ⟨m, rfl⟩
  | cons o ops ih =>
    intro m hi hlen
    obtain ⟨k, v⟩ := o
    simp only [List.length_cons] at hlen
    have hsz : m.stats.numSlots < 2147483648 ∨ overLoad m = false := by
      cases hov : overLoad m with
      | false => exact Or.inr rfl
      | true =>
        have := overLoad_true hov
        left
        omega
    obtain ⟨m1, h1, h2, _, h4, _⟩ := Insert_spec mix hi hsz k v
    obtain ⟨m2, h5⟩ := ih m1 h2 (by omega)
    refine ⟨m2, ?_⟩
    simp only [insertAll, h1]
    exact h5

/-! ## Overwriting a stored key -/

theorem overLoad_eq_false {V : Type} {m : IntegerMap V}
    (h : 4 * m.stats.numElements ≤ 3 * m.stats.numSlots) : overLoad m = false := by
  unfold overLoad
  exact decide_eq_false (by omega)

/-- After an `Insert` on a table below `2^31` slots the next `Insert` cannot
overflow `numSlots`. -/
theorem Insert_next_ok {V : Type} {m m1 : IntegerMap V} (hi : Inv m)
    (hsz : m.stats.numSlots < 2147483648)
    (hn : m1.stats.numElements ≤ m.stats.numElements + 1)
    (hc : (overLoad m = false ∧ m1.stats.numSlots = m.stats.numSlots ∧
          m1.stats.numResizes = m.stats.numResizes) ∨
        (overLoad m = true ∧ m1.stats.numSlots = m.stats.numSlots * 2 ∧
          m1.stats.numResizes = (m.stats.numResizes + 1) % u32)) :
    m1.stats.numSlots < 2147483648 ∨ overLoad m1 = false := by
  rcases hc with ⟨_, h, _⟩ | ⟨_, h, _⟩
  · left
    rw [h]
    exact hsz
  · right
    apply overLoad_eq_false
    have h1 := hi.1.2
    have h2 := liveCount_le m.nodes
    have h3 := hi.1.1.1
    obtain ⟨e, he4, _, he⟩ := hi.2.1
    have h16 : (2 : Nat) ^ 4 ≤ 2 ^ e := Nat.pow_le_pow_right (by norm_num) he4
    norm_num at h16
    omega

/-- `Insert` of a key that is already stored does not raise `numElements`. -/
theorem Insert_overwrite {V : Type} (mix : Nat → Nat) {m : IntegerMap V} (hi : Inv m)
    (hsz : m.stats.numSlots < 2147483648 ∨ overLoad m = false) {k : Nat} {v1 : V}
    (hst : Stored mix m k v1) (v2 : V) :
    ∃ m1, Insert mix m k (some v2) = some (m1, none) ∧ Inv m1 ∧ Stored mix m1 k v2 ∧
      m1.stats.numElements ≤ m.stats.numElements := by
  obtain ⟨m1, h1, h2, h3, _, _⟩ := Insert_spec mix hi hsz k v2
  refine ⟨m1, h1, h2, h3, ?_⟩
  obtain ⟨hc, ⟨e, he4, he31, he⟩, hload⟩ := hi
  have hshape := hc.1
  have hlen := hshape.1
  have hpos := hshape.2.1
  have hcnt := hc.2
  obtain ⟨j0, hp0, hn0⟩ := hst
  cases hov : overLoad m with
  | false =>
    have hle := overLoad_false hov
    have hroom : liveCount m.nodes < m.nodes.length := by omega
    obtain ⟨m2, j, i1, _, _, _, _, i6⟩ := insert_counted mix hc hroom k v2
    rw [Insert_no_resize mix hov, i1] at h1
    have hm : m2 = m1 := by
      cases h1
      rfl
    subst hm
    rcases i6 with ⟨_, h⟩ | ⟨hv, _⟩
    · omega
    · exact (probeFound_not_vacant hp0 hv).elim
  | true =>
    have hlt : m.stats.numSlots < 2147483648 := by
      rcases hsz with h | h
      · exact h
      · rw [hov] at h
        cases h
    have hu : u32 = 4294967296 := rfl
    have h2 : m.stats.numSlots * 2 < u32 := by omega
    obtain ⟨mr, r1, r2, r3, r4, _, r6, r7, _⟩ := resize_spec mix hshape h2
    have hlenr := r2.1.1
    have hll := liveCount_le m.nodes
    have hroom : liveCount mr.nodes < mr.nodes.length := by omega
    obtain ⟨m2, j, i1, _, _, _, _, i6⟩ := insert_counted mix r2 hroom k v2
    rw [Insert_resize mix hov r1, i1] at h1
    have hm : m2 = m1 := by
      cases h1
      rfl
    subst hm
    have hnr := r2.2
    obtain ⟨jr, hjr⟩ := occ_iff_holds.2 ((r7 k).2 ⟨v1, holds_iff.2 ⟨j0, hn0⟩⟩)
    rcases i6 with ⟨_, h⟩ | ⟨hv, _⟩
    · omega
    · exact (probeFound_not_vacant (r3 jr k hjr) hv).elim

/-! ## Tables built by insertions only -/

theorem holds_unique {V : Type} {mix : Nat → Nat} {m : IntegerMap V} (hg : Good mix m)
    {k : Nat} {v v1 : V} (h : Holds m.nodes k v) (h1 : Holds m.nodes k v1) : v = v1 := by
  obtain ⟨i, hi⟩ := holds_iff.1 h
  obtain ⟨j, hj⟩ := holds_iff.1 h1
  have hij : i = j := good_unique hg ⟨_, hi, rfl, rfl⟩ ⟨_, hj, rfl, rfl⟩
  subst hij
  rw [hi] at hj
  simp only [Option.some.injEq, intnode.mk.injEq, true_and] at hj
  exact hj

/-- An `Insert` that returns did not overflow `numSlots`. -/
theorem Insert_hsz {V : Type} (mix : Nat → Nat) {m m1 : IntegerMap V} (hi : Inv m)
    {k : Nat} {v : Option V} {e : Option error} (h : Insert mix m k v = some (m1, e)) :
    m.stats.numSlots < 2147483648 ∨ overLoad m = false := by
  by_contra hsz
  have hge : ¬ m.stats.numSlots < 2147483648 := fun hh => hsz (Or.inl hh)
  have hov : overLoad m = true := by
    cases hh : overLoad m
    · exact absurd (Or.inr hh) hsz
    · rfl
  obtain ⟨_, ⟨e1, _, he31, he⟩, _⟩ := hi
  have hle : (2 : Nat) ^ e1 ≤ 2 ^ 31 := Nat.pow_le_pow_right (by norm_num) he31
  norm_num at hle
  have hs : m.stats.numSlots = 2147483648 := by omega
  have hz : (m.stats.numSlots * 2) % u32 = 0 := by
    rw [hs]
    rfl
  rw [Insert_overflow mix hov hz k v] at h
  cases h

/-- `Insert` on a good table: the result is good and holds what the table
held, with the pair for `k` replaced or added. -/
theorem Insert_good {V : Type} (mix : Nat → Nat) {m : IntegerMap V} (hi : Inv m)
    (hg : Good mix m) (hsz : m.stats.numSlots < 2147483648 ∨ overLoad m = false)
    (k : Nat) (v : V) :
    ∃ m1, Insert mix m k (some v) = some (m1, none) ∧ Inv m1 ∧ Good mix m1 ∧
      ∀ k1 v1, Holds m1.nodes k1 v1 ↔
        ((k1 = k ∧ v1 = v) ∨ (k1 ≠ k ∧ Holds m.nodes k1 v1)) := by
  obtain ⟨m1, h1, h2, _, _, _⟩ := Insert_spec mix hi hsz k v
  refine ⟨m1, h1, h2, ?_⟩
  obtain ⟨hc, ⟨e, he4, he31, he⟩, hload⟩ := hi
  have hshape := hc.1
  have hlen := hshape.1
  have hpos := hshape.2.1
  have hcnt := hc.2
  cases hov : overLoad m with
  | false =>
    have hle := overLoad_false hov
    have hroom : liveCount m.nodes < m.nodes.length := by omega
    obtain ⟨m2, j, i1, _, i3, i4, _, i6⟩ := insert_counted mix hc hroom k v
    rw [Insert_no_resize mix hov, i1] at h1
    have hm : m2 = m1 := by
      cases h1
      rfl
    subst hm
    have hp : ProbeFound m.nodes (probeOf mix m k) k j ∨
        ProbeVacant m.nodes (probeOf mix m k) k j := by
      rcases i6 with ⟨h, _⟩ | ⟨h, _⟩
      · exact Or.inl h
      · exact Or.inr h
    refine ⟨good_insert hg i3 i4 hp, ?_⟩
    intro k1 v1
    rw [i3]
    exact holds_insert hg v hp k1 v1
  | true =>
    have hlt : m.stats.numSlots < 2147483648 := by
      rcases hsz with h | h
      · exact h
      · rw [hov] at h
        cases h
    have hu : u32 = 4294967296 := rfl
    have h2 : m.stats.numSlots * 2 < u32 := by omega
    obtain ⟨mr, r1, r2, r3, r4, _, r6, r7, r8⟩ := resize_spec mix hshape h2
    have hlenr := r2.1.1
    have hll := liveCount_le m.nodes
    have hroom : liveCount mr.nodes < mr.nodes.length := by omega
    obtain ⟨m2, j, i1, _, i3, i4, _, i6⟩ := insert_counted mix r2 hroom k v
    rw [Insert_resize mix hov r1, i1] at h1
    have hm : m2 = m1 := by
      cases h1
      rfl
    subst hm
    have hp : ProbeFound mr.nodes (probeOf mix mr k) k j ∨
        ProbeVacant mr.nodes (probeOf mix mr k) k j := by
      rcases i6 with ⟨h, _⟩ | ⟨h, _⟩
      · exact Or.inl h
      · exact Or.inr h
    have hsame : ∀ k1 v1, Holds mr.nodes k1 v1 ↔ Holds m.nodes k1 v1 := by
      intro k1 v1
      constructor
      · exact r8 k1 v1
      · intro h
        obtain ⟨v0, hv0⟩ := (r7 k1).2 ⟨v1, h⟩
        have := holds_unique hg (r8 k1 v0 hv0) h
        rw [← this]
        exact hv0
    refine ⟨good_insert r3 i3 i4 hp, ?_⟩
    intro k1 v1
    rw [i3, holds_insert r3 v hp k1 v1, hsame k1 v1]

theorem lastValue_cons {V : Type} (k0 : Nat) (v0 : V) (ops : List (Nat × V)) (k : Nat)
    (v : V) :
    LastValue ((k0, v0) :: ops) k v ↔
      (LastValue ops k v ∨ ((∀ p ∈ ops, p.1 ≠ k) ∧ k = k0 ∧ v = v0)) := by
  constructor
  · rintro ⟨pre, post, h, hp⟩
    cases pre with
    | nil =>
      simp only [List.nil_append, List.cons.injEq, Prod.mk.injEq] at h
      obtain ⟨⟨hk, hv⟩, hpost⟩ := h
      right
      rw [hpost]
      exact ⟨hp, hk.symm, hv.symm⟩
    | cons a pre1 =>
      simp only [List.cons_append, List.cons.injEq] at h
      exact Or.inl ⟨pre1, post, h.2, hp⟩
  · rintro (⟨pre, post, h, hp⟩ | ⟨hp, hk, hv⟩)
    · exact ⟨(k0, v0) :: pre, post, by rw [h]; rfl, hp⟩
    · exact ⟨[], ops, by rw [hk, hv]; rfl, hp⟩

theorem lastValue_mem {V : Type} {ops : List (Nat × V)} {k : Nat} {v : V}
    (h : LastValue ops k v) : (k, v) ∈ ops := by
  obtain ⟨pre, post, h, _⟩ := h
  rw [h]
  simp

theorem lastValue_exists {V : Type} :
    ∀ (ops : List (Nat × V)) (k : Nat), k ∈ ops.map Prod.fst → ∃ v, LastValue ops k v := by
  intro ops
  induction ops with
  | nil =>
    intro k h
    simp at h
  | cons a ops ih =>
    intro k h
    obtain ⟨k0, v0⟩ := a
    by_cases hk : k ∈ ops.map Prod.fst
    · obtain ⟨v, hv⟩ := ih k hk
      exact ⟨v, (lastValue_cons k0 v0 ops k v).2 (Or.inl hv)⟩
    · have hk0 : k = k0 := by
        simp only [List.map_cons, List.mem_cons] at h
        rcases h with h | h
        · exact h
        · exact absurd h hk
      refine ⟨v0, (lastValue_cons k0 v0 ops k v0).2 (Or.inr ⟨?_, hk0, rfl⟩)⟩
      intro p hp hpk
      exact hk (List.mem_map.2 ⟨p, hp, hpk⟩)

/-- Contents of the table at the end of a run of insertions on a good
table. -/
theorem insertAll_good {V : Type} (mix : Nat → Nat) :
    ∀ (ops : List (Nat × V)) (m m1 : IntegerMap V), Inv m → Good mix m →
      insertAll mix m ops = some m1 →
      Inv m1 ∧ Good mix m1 ∧
        ∀ k v, Holds m1.nodes k v ↔
          (LastValue ops k v ∨ ((∀ p ∈ ops, p.1 ≠ k) ∧ Holds m.nodes k v)) := by
  intro ops
  induction ops with
  | nil =>
    intro m m1 hi hg h
    cases h
    refine ⟨hi, hg, ?_⟩
    intro k v
    constructor
    · intro h
      exact Or.inr ⟨fun p hp => absurd hp (List.not_mem_nil p), h⟩
    · rintro (⟨pre, post, h, _⟩ | ⟨_, h⟩)
      · cases pre <;> cases h
      · exact h
  | cons a ops ih =>
    intro m m1 hi hg h
    obtain ⟨k0, v0⟩ := a
    cases hins : Insert mix m k0 (some v0) with
    | none =>
      simp [insertAll, hins] at h
    | some q =>
      obtain ⟨m2, e⟩ := q
      simp only [insertAll, hins] at h
      obtain ⟨m2', g1, g2, g3, g4⟩ := Insert_good mix hi hg (Insert_hsz mix hi hins) k0 v0
      rw [g1] at hins
      have hm : m2' = m2 := by
        cases hins
        rfl
      subst hm
      obtain ⟨j1, j2, j3⟩ := ih m2' m1 g2 g3 h
      refine ⟨j1, j2, ?_⟩
      intro k v
      rw [j3 k v, lastValue_cons k0 v0 ops k v, g4 k v]
      constructor
      · rintro (h1 | ⟨h1, (⟨h2, h3⟩ | ⟨h2, h3⟩)⟩)
        · exact Or.inl (Or.inl h1)
        · exact Or.inl (Or.inr ⟨h1, h2, h3⟩)
        · refine Or.inr ⟨?_, h3⟩
          intro p hp
          rcases List.mem_cons.1 hp with rfl | hp
          · exact fun hh => h2 hh.symm
          · exact h1 p hp
      · rintro ((h1 | ⟨h1, h2, h3⟩) | ⟨h1, h2⟩)
        · exact Or.inl h1
        · exact Or.inr ⟨h1, Or.inl ⟨h2, h3⟩⟩
        · refine Or.inr ⟨fun p hp => h1 p (List.mem_cons_of_mem _ hp), Or.inr ⟨?_, h2⟩⟩
          intro hk
          exact h1 (k0, v0) (List.mem_cons_self _ _) hk.symm

/-! ## Counting the keys of a good table -/

theorem liveCount_eq_keys {V : Type} (nodes : List (intnode V)) :
    liveCount nodes = (keysOf nodes).length := by
  unfold liveCount keysOf
  rw [List.countP_eq_length_filter, List.length_map]

theorem mem_keysOf {V : Type} {nodes : List (intnode V)} {k : Nat} :
    k ∈ keysOf nodes ↔ ∃ v, Holds nodes k v := by
  unfold keysOf Holds
  simp only [List.mem_map, List.mem_filter]
  constructor
  · rintro ⟨n, ⟨hn, hl⟩, hk⟩
    obtain ⟨key, value⟩ := n
    cases value with
    | none => cases hl
    | some v =>
      simp only at hk
      subst hk
      exact ⟨v, hn⟩
  · rintro ⟨v, hv⟩
    exact ⟨_, ⟨hv, rfl⟩, rfl⟩

theorem nodup_keysOf {V : Type} {mix : Nat → Nat} {m : IntegerMap V} (hg : Good mix m) :
    (keysOf m.nodes).Nodup := by
  have hpw : m.nodes.Pairwise
      (fun a b => a.value.isSome = true → b.value.isSome = true → a.key ≠ b.key) := by
    rw [List.pairwise_iff_getElem]
    intro i j hi hj hij hpi hpj heq
    have := good_unique hg (i := i) (j := j)
      ⟨m.nodes[i], List.getElem?_eq_getElem hi, hpi, heq⟩
      ⟨m.nodes[j], List.getElem?_eq_getElem hj, hpj, rfl⟩
    omega
  unfold keysOf List.Nodup
  rw [List.pairwise_map]
  refine List.Pairwise.imp_of_mem ?_ (hpw.filter (fun n => n.value.isSome))
  intro a b ha hb hab
  exact hab (List.mem_filter.1 ha).2 (List.mem_filter.1 hb).2

theorem numElements_eq_card {V : Type} {mix : Nat → Nat} {m : IntegerMap V} (hi : Inv m)
    (hg : Good mix m) : m.stats.numElements = (keysOf m.nodes).toFinset.card := by
  rw [hi.1.2, liveCount_eq_keys, List.toFinset_card_of_nodup (nodup_keysOf hg)]

theorem keysOf_replicate {V : Type} (n : Nat) :
    keysOf (List.replicate n (emptyNode : intnode V)) = [] := by
  unfold keysOf
  rw [List.filter_replicate_of_neg (by simp [emptyNode])]
  rfl

/-- A run of insertions on a good table returns when the table never has to
hold more than `2^30` distinct keys. -/
theorem insertAll_total_good {V : Type} (mix : Nat → Nat) :
    ∀ (ops : List (Nat × V)) (m : IntegerMap V), Inv m → Good mix m →
      ((keysOf m.nodes).toFinset ∪ (ops.map Prod.fst).toFinset).card ≤ 1073741824 →
      ∃ m1, insertAll mix m ops = some m1 := by
  intro ops
  induction ops with
  | nil =>
    intro m _ _ _
    exact ⟨m, rfl⟩
  | cons a ops ih =>
    intro m hi hg hcard
    obtain ⟨k0, v0⟩ := a
    have hn := numElements_eq_card hi hg
    have hle : (keysOf m.nodes).toFinset.card ≤
        ((keysOf m.nodes).toFinset ∪ (((k0, v0) :: ops).map Prod.fst).toFinset).card :=
      Finset.card_le_card Finset.subset_union_left
    have hsz : m.stats.numSlots < 2147483648 ∨ overLoad m = false := by
      cases hov : overLoad m with
      | false => exact Or.inr rfl
      | true =>
        have := overLoad_true hov
        left
        omega
    obtain ⟨m1, g1, g2, g3, g4⟩ := Insert_good mix hi hg hsz k0 v0
    have hkeys : (keysOf m1.nodes).toFinset ∪ (ops.map Prod.fst).toFinset =
        (keysOf m.nodes).toFinset ∪ (((k0, v0) :: ops).map Prod.fst).toFinset := by
      ext k
      simp only [Finset.mem_union, List.mem_toFinset, mem_keysOf, List.map_cons,
        List.mem_cons]
      constructor
      · rintro (⟨v, hv⟩ | h)
        · rcases (g4 k v).1 hv with ⟨hk, _⟩ | ⟨_, hh⟩
          · exact Or.inr (Or.inl hk)
          · exact Or.inl ⟨v, hh⟩
        · exact Or.inr (Or.inr h)
      · rintro (⟨v, hv⟩ | h | h)
        · by_cases hk : k = k0
          · exact Or.inl ⟨v0, (g4 k v0).2 (Or.inl ⟨hk, rfl⟩)⟩
          · exact Or.inl ⟨v, (g4 k v).2 (Or.inr ⟨hk, hv⟩)⟩
        · exact Or.inl ⟨v0, (g4 k v0).2 (Or.inl ⟨h, rfl⟩)⟩
        · exact Or.inr h
    obtain ⟨m2, h5⟩ := ih m1 g2 g3 (by rw [hkeys]; exact hcard)
    refine ⟨m2, ?_⟩
    simp only [insertAll, g1]
    exact h5

theorem good_new {V : Type} (mix : Nat → Nat) : Good mix (NewIntegerMap : IntegerMap V) := by
  intro j k ho
  exact absurd ho (not_occ_replicate _ k j)

/-- With the mixing function `Fmix32`, keys 1 and 3 both start their probe at
slot 7 of the fresh table. -/
theorem index_collision :
    index Fmix32 (NewIntegerMap : IntegerMap Nat) 1 = 7 ∧
      index Fmix32 (NewIntegerMap : IntegerMap Nat) 3 = 7 := by
  decide

/-! ## Bounds on the counter and on the indices -/

/-- The two outcomes of `Delete` on a well-shaped table whose counter is not
below the number of non-empty slots: a miss that changes the statistics only,
or a hit that lowers `numElements` by one without wrapping around. -/
theorem delete_any_cases {V : Type} (mix : Nat → Nat) {m : IntegerMap V} (hs : Shape m)
    (hn : liveCount m.nodes ≤ m.stats.numElements) (k : Nat) :
    (∃ m1, Delete mix m k = some (m1, none, some error.ErrNotFound) ∧ SameTable m m1) ∨
      (∃ m1 v, Delete mix m k = some (m1, v, none) ∧
        m1.stats.numElements + 1 = m.stats.numElements ∧
        m1.stats.numSlots = m.stats.numSlots) := by
  by_cases hf : ∃ j, ProbeFound m.nodes (probeOf mix m k) k j
  · obtain ⟨j, hp⟩ := hf
    have hp0 := hp
    obtain ⟨_, _, _, _, n, hnj, hl, hk⟩ := hp
    obtain ⟨m1, h1, h2, h3, h4, h5⟩ := delete_of_found hs hp0 hnj
    have hcnt := liveCount_set_none ⟨n, hnj, hl⟩ n.key
    have he : m1.stats.numElements + 1 = m.stats.numElements := by
      rw [h3]
      unfold sub32
      rw [if_pos (by omega)]
      omega
    exact Or.inr ⟨m1, _, h1, he, h4⟩
  · obtain ⟨m1, hst, he⟩ := delete_of_not_found hs hf
    exact Or.inl ⟨m1, he, hst⟩

/-- On a well-shaped table with an empty slot `find` returns the index of a
slot of the array. -/
theorem find_in_bounds {V : Type} (mix : Nat → Nat) {m : IntegerMap V} (hs : Shape m)
    (hv : ∃ j, Vacant m.nodes j) (k : Nat) :
    ∃ m1 i e, find mix m k = some (m1, i, e) ∧ 0 ≤ i ∧ i < (m.nodes.length : Int) := by
  obtain ⟨j0, hj0⟩ := hv
  rcases probe_cases mix hs k with hf | ⟨j, hp⟩ | ⟨j, hp⟩
  · exact absurd hj0 (probeFull_no_vacant (shape_index_le hs mix k) hf j0)
  · obtain ⟨m1, _, he⟩ := find_of_found hs hp
    have := probeFound_lt hp
    exact ⟨m1, _, _, he, by omega, by omega⟩
  · obtain ⟨m1, _, he⟩ := find_of_vacant hs hp
    have := probeVacant_lt hp
    exact ⟨m1, _, _, he, by omega, by omega⟩

/-- In a table satisfying `InvAny` the counter does not exceed the number of
slots. -/
theorem invAny_le {V : Type} {m : IntegerMap V} (h : InvAny m) :
    m.stats.numElements ≤ m.stats.numSlots ∧ 16 ≤ m.stats.numSlots := by
  obtain ⟨_, ⟨e, he4, _, he⟩, _, hload⟩ := h
  have h16 : (2 : Nat) ^ 4 ≤ 2 ^ e := Nat.pow_le_pow_right (by norm_num) he4
  norm_num at h16
  omega

/-! ## The frame of `Delete` -/

/-- A `find` that returns did not slice out of range. -/
theorem find_index_le {V : Type} (mix : Nat → Nat) {m m0 : IntegerMap V} {k : Nat}
    {r : Int × Option error} (h : find mix m k = some (m0, r)) :
    index mix m k ≤ m.nodes.length := by
  by_contra hc
  have hnone : find mix m k = none := by
    unfold find
    simp only
    exact if_pos (Nat.lt_of_not_le hc)
  rw [hnone] at h
  cases h

/-- What a hit of `find` means, on any table: the index is that of a non-empty
slot holding the key. -/
theorem find_hit {V : Type} (mix : Nat → Nat) {m m0 : IntegerMap V} {k : Nat} {i : Int}
    (h : find mix m k = some (m0, i, none)) :
    ∃ (j : Nat) (n : intnode V), i = (j : Int) ∧ m.nodes[j]? = some n ∧
      n.value.isSome = true ∧ n.key = k ∧ SameTable m m0 := by
  have hst := find_sameTable mix h
  obtain ⟨m1, _, hr⟩ := find_spec mix m k (find_index_le mix h)
  rcases hr with ⟨_, he⟩ | ⟨j, hp, he⟩ | ⟨j, _, he⟩
  · rw [he] at h
    simp at h
  · rw [he] at h
    simp only [Option.some.injEq, Prod.mk.injEq, and_true] at h
    obtain ⟨_, _, _, _, n, hn, hl, hk⟩ := hp
    exact ⟨j, n, h.2.symm, hn, hl, hk, hst⟩
  · rw [he] at h
    simp at h

/-- The effect of `Delete` after a hit of `find`, on any table. -/
theorem delete_of_find_hit {V : Type} (mix : Nat → Nat) {m m0 : IntegerMap V} {k j : Nat}
    {n : intnode V} (h : find mix m k = some (m0, (j : Int), none))
    (hn : m.nodes[j]? = some n) :
    ∃ m1, Delete mix m k = some (m1, n.value, none) ∧
      m1.nodes = m.nodes.set j { key := n.key, value := none } ∧
      m1.stats.numElements = sub32 m.stats.numElements 1 ∧
      m1.stats.numSlots = m.stats.numSlots ∧
      m1.stats.numResizes = m.stats.numResizes := by
  have hst := find_sameTable mix h
  have hn1 : m0.nodes[j]? = some n := by rw [hst.1]; exact hn
  have hneg : ¬ ((j : Int) < 0) := by omega
  refine ⟨{ nodes := m0.nodes.set j { n with value := none }
            stats := { m0.stats with numElements := sub32 m0.stats.numElements 1 } },
    ?_, ?_, ?_, hst.2.2.1, hst.2.2.2⟩
  · simp [Delete, h, hn1]
  · show m0.nodes.set j _ = _
    rw [hst.1]
  · show sub32 m0.stats.numElements 1 = _
    rw [hst.2.1]

/-! ## `resize` of a table without duplicate keys -/

theorem holds_unique_of_nodup {V : Type} {nodes : List (intnode V)}
    (hnd : (keysOf nodes).Nodup) {k : Nat} {v v1 : V} (h : Holds nodes k v)
    (h1 : Holds nodes k v1) : v = v1 := by
  unfold keysOf at hnd
  have ha : ({ key := k, value := some v } : intnode V) ∈
      nodes.filter (fun n => n.value.isSome) := List.mem_filter.2 ⟨h, rfl⟩
  have hb : ({ key := k, value := some v1 } : intnode V) ∈
      nodes.filter (fun n => n.value.isSome) := List.mem_filter.2 ⟨h1, rfl⟩
  have := List.inj_on_of_nodup_map hnd ha hb rfl
  simp only [intnode.mk.injEq, Option.some.injEq, true_and] at this
  exact this

/-- `resize` of a well-shaped table whose non-empty slots hold distinct keys:
the new table holds exactly the pairs of the old one, in as many slots. -/
theorem resize_content {V : Type} (mix : Nat → Nat) {m : IntegerMap V} (hs : Shape m)
    (h2 : m.stats.numSlots * 2 < u32) (hnd : (keysOf m.nodes).Nodup) :
    ∃ m1, resize mix m = some m1 ∧ Counted m1 ∧ Good mix m1 ∧
      m1.stats.numSlots = m.stats.numSlots * 2 ∧
      m1.stats.numResizes = (m.stats.numResizes + 1) % u32 ∧
      (∀ k v, Holds m1.nodes k v ↔ Holds m.nodes k v) ∧
      liveCount m1.nodes = liveCount m.nodes := by
  obtain ⟨m1, r1, r2, r3, r4, r5, _, r7, r8⟩ := resize_spec mix hs h2
  have hsame : ∀ k v, Holds m1.nodes k v ↔ Holds m.nodes k v := by
    intro k v
    constructor
    · exact r8 k v
    · intro h
      obtain ⟨v0, hv0⟩ := (r7 k).2 ⟨v, h⟩
      have := holds_unique_of_nodup hnd (r8 k v0 hv0) h
      rw [← this]
      exact hv0
  refine ⟨m1, r1, r2, r3, r4, r5, hsame, ?_⟩
  have hkeys : (keysOf m1.nodes).toFinset = (keysOf m.nodes).toFinset := by
    ext k
    simp only [List.mem_toFinset, mem_keysOf]
    exact r7 k
  rw [liveCount_eq_keys, liveCount_eq_keys,
    ← List.toFinset_card_of_nodup (nodup_keysOf r3), ← List.toFinset_card_of_nodup hnd, hkeys]

/-! ## `find` and the linear-probing reference -/

/-- The modular probe order of the specification is the order in which the two
loops of `find` visit the slots. -/
theorem probeOrder_eq {idx n : Nat} (h : idx < n) : probeOrder idx n = probeSeq idx n := by
  unfold probeOrder probeSeq
  have hn : n = (n - idx) + idx := by omega
  conv_lhs => rw [hn, List.range_add, List.map_append, List.map_map]
  congr 1
  · apply List.map_congr_left
    intro i hi
    have := List.mem_range.1 hi
    show (idx + i) % (n - idx + idx) = idx + i
    exact Nat.mod_eq_of_lt (by omega)
  · have : List.map ((fun i => (idx + i) % (n - idx + idx)) ∘ fun x => n - idx + x)
        (List.range idx) = List.map id (List.range idx) := by
      apply List.map_congr_left
      intro i hi
      have := List.mem_range.1 hi
      show (idx + (n - idx + i)) % (n - idx + idx) = i
      have h1 : idx + (n - idx + i) = i + (n - idx + idx) := by omega
      rw [h1, Nat.add_mod_right]
      exact Nat.mod_eq_of_lt (by omega)
    rw [this, List.map_id]

theorem stopsAt_pass {V : Type} {nodes : List (intnode V)} {k p : Nat}
    (h : Pass nodes k p) : stopsAt nodes k p = false := by
  obtain ⟨n, hn, hl, hk⟩ := h
  unfold stopsAt
  rw [hn]
  simp only [Bool.or_eq_false_iff, decide_eq_false_iff_not]
  refine ⟨?_, hk⟩
  cases hv : n.value with
  | none =>
    rw [hv] at hl
    cases hl
  | some x => rfl

theorem stopsAt_occ {V : Type} {nodes : List (intnode V)} {k p : Nat}
    (h : Occ nodes k p) : stopsAt nodes k p = true := by
  obtain ⟨n, hn, _, hk⟩ := h
  unfold stopsAt
  rw [hn]
  simp only [Bool.or_eq_true, decide_eq_true_eq]
  exact Or.inr hk

theorem stopsAt_vacant {V : Type} {nodes : List (intnode V)} {k p : Nat}
    (h : Vacant nodes p) : stopsAt nodes k p = true := by
  obtain ⟨n, hn, hv⟩ := h
  unfold stopsAt
  rw [hn]
  simp only [Bool.or_eq_true, decide_eq_true_eq]
  left
  cases hh : n.value with
  | none => rfl
  | some x =>
    rw [hh] at hv
    cases hv

/-- The first element of a list at which a test succeeds. -/
theorem find?_first {p : Nat → Bool} :
    ∀ (l1 l2 : List Nat) (j : Nat), (∀ x ∈ l1, p x = false) → p j = true →
      (l1 ++ j :: l2).find? p = some j := by
  intro l1
  induction l1 with
  | nil =>
    intro l2 j _ hj
    exact List.find?_cons_of_pos _ hj
  | cons a t ih =>
    intro l2 j h hj
    have ha : ¬ p a = true := by
      rw [h a (List.mem_cons_self _ _)]
      exact Bool.false_ne_true
    rw [List.cons_append, List.find?_cons_of_neg _ ha]
    exact ih l2 j (fun x hx => h x (List.mem_cons_of_mem _ hx)) hj

/-- The three outcomes of a probe, as values of the reference. -/
theorem findRef_cases {V : Type} (mix : Nat → Nat) {m : IntegerMap V} (hs : Shape m)
    (k : Nat) :
    (ProbeFull m.nodes (probeOf mix m k) k →
        findRef mix m k = ((-1 : Int), some error.ErrNotFound)) ∧
      (∀ j, ProbeFound m.nodes (probeOf mix m k) k j →
        findRef mix m k = ((j : Int), none)) ∧
      (∀ j, ProbeVacant m.nodes (probeOf mix m k) k j →
        findRef mix m k = ((j : Int), some error.ErrNotFound)) := by
  have hidx : index mix m k < m.stats.numSlots := index_lt mix m k hs.2.1
  have hord : probeOrder (index mix m k) m.stats.numSlots = probeOf mix m k := by
    unfold probeOf
    rw [hs.1]
    exact probeOrder_eq hidx
  refine ⟨?_, ?_, ?_⟩
  · intro hf
    have hnone : (probeOf mix m k).find? (stopsAt m.nodes k) = none := by
      rw [List.find?_eq_none]
      intro x hx
      rw [stopsAt_pass (hf x hx)]
      exact Bool.false_ne_true
    unfold findRef
    rw [hord, hnone]
  · rintro j ⟨l1, l2, hl, hp, ho⟩
    have hsome : (probeOf mix m k).find? (stopsAt m.nodes k) = some j := by
      rw [hl]
      exact find?_first l1 l2 j (fun x hx => stopsAt_pass (hp x hx)) (stopsAt_occ ho)
    obtain ⟨n, hn, hlive, _⟩ := ho
    unfold findRef
    rw [hord, hsome]
    simp only [hn, hlive, if_true]
  · rintro j ⟨l1, l2, hl, hp, ho⟩
    have hsome : (probeOf mix m k).find? (stopsAt m.nodes k) = some j := by
      rw [hl]
      exact find?_first l1 l2 j (fun x hx => stopsAt_pass (hp x hx)) (stopsAt_vacant ho)
    obtain ⟨n, hn, hv⟩ := ho
    unfold findRef
    rw [hord, hsome]
    simp only [hn, hv, Bool.false_eq_true, if_false]

/-- A probe steps over every slot exactly when every slot is non-empty and
none holds the key. -/
theorem probeFull_iff {V : Type} (mix : Nat → Nat) {m : IntegerMap V} (hs : Shape m)
    (k : Nat) :
    ProbeFull m.nodes (probeOf mix m k) k ↔ ∀ n ∈ m.nodes, n.value ≠ none ∧ n.key ≠ k := by
  have hidx := shape_index_le hs mix k
  constructor
  · intro hf n hn
    obtain ⟨i, hi⟩ := List.mem_iff_getElem?.1 hn
    have hlt := (List.getElem?_eq_some_iff.1 hi).1
    obtain ⟨n1, hn1, hl, hk⟩ := hf i ((mem_probeSeq hidx i).2 hlt)
    rw [hi] at hn1
    cases hn1
    refine ⟨?_, hk⟩
    intro hv
    rw [hv] at hl
    cases hl
  · intro h p hp
    have hlt := (mem_probeSeq hidx p).1 hp
    have hmem : m.nodes[p] ∈ m.nodes := List.getElem_mem hlt
    obtain ⟨hv, hk⟩ := h _ hmem
    refine ⟨m.nodes[p], List.getElem?_eq_getElem hlt, ?_, hk⟩
    cases hh : (m.nodes[p]).value with
    | none => exact absurd hh hv
    | some x => rfl

/-! ## The number of slots `find` visits -/

theorem mod_step (st c : Nat) : ((st + 1) % u32 + c) % u32 = (st + (c + 1)) % u32 := by
  unfold u32
  omega

theorem mod_chain {a b d c1 c2 : Nat} (h1 : a % u32 = (b + c1) % u32)
    (h2 : d % u32 = (a + c2) % u32) : d % u32 = (b + (c1 + c2)) % u32 := by
  unfold u32 at *
  omega

/-- A probe loop adds to the step counter the number of slots it visited, at
most the length of its range. -/
theorem findLoop_steps {V : Type} (nodes : List (intnode V)) (k : Nat) :
    ∀ (js : List Nat) (st st1 : Nat) (r : Option (Int × Option error)),
      findLoop nodes k js st = some (st1, r) →
      ∃ c, c ≤ js.length ∧ st1 % u32 = (st + c) % u32 := by
  intro js
  induction js with
  | nil =>
    intro st st1 r h
    simp only [findLoop, Option.some.injEq, Prod.mk.injEq] at h
    exact ⟨0, le_refl _, by rw [← h.1]; rfl⟩
  | cons a t ih =>
    intro st st1 r h
    cases hget : nodes[a]? with
    | none =>
      simp [findLoop, hget] at h
    | some n =>
      simp only [findLoop, hget] at h
      split at h
      · simp only [Option.some.injEq, Prod.mk.injEq] at h
        refine ⟨1, by simp, ?_⟩
        rw [← h.1, Nat.mod_mod]
      · split at h
        · simp only [Option.some.injEq, Prod.mk.injEq] at h
          refine ⟨1, by simp, ?_⟩
          rw [← h.1, Nat.mod_mod]
        · obtain ⟨c, hc, he⟩ := ih _ _ _ h
          refine ⟨c + 1, by simp only [List.length_cons]; omega, ?_⟩
          rw [he, mod_step]

/-- A call of `find` adds to `numSteps` the number of slots it visited, at most
the number of slots of the array. -/
theorem find_steps {V : Type} (mix : Nat → Nat) {m m1 : IntegerMap V} {k : Nat}
    {r : Int × Option error} (h : find mix m k = some (m1, r)) :
    ∃ c, c ≤ m.nodes.length ∧ m1.stats.numSteps % u32 = (m.stats.numSteps + c) % u32 := by
  have hle := find_index_le mix h
  have hidx : index mix
      ({ m with stats := { m.stats with numFinds := (m.stats.numFinds + 1) % u32 } } :
        IntegerMap V) k = index mix m k := rfl
  have hnl : ¬ m.nodes.length < index mix m k := by omega
  have hb1 : ∀ j ∈ (List.range (m.nodes.length - index mix m k)).map
      (fun i => index mix m k + i), j < m.nodes.length := by
    intro j hj
    simp only [List.mem_map, List.mem_range] at hj
    obtain ⟨i, hi, rfl⟩ := hj
    omega
  have hb2 : ∀ j ∈ List.range (index mix m k), j < m.nodes.length := by
    intro j hj
    simp only [List.mem_range] at hj
    omega
  have hl1 : ((List.range (m.nodes.length - index mix m k)).map
      (fun i => index mix m k + i)).length = m.nodes.length - index mix m k := by
    rw [List.length_map, List.length_range]
  have hl2 : (List.range (index mix m k)).length = index mix m k := List.length_range _
  obtain ⟨s1, r1⟩ := findLoop_spec m.nodes k _ m.stats.numSteps hb1
  rcases r1 with ⟨he, _⟩ | ⟨j, he, _⟩ | ⟨j, he, _⟩
  · obtain ⟨c1, hc1, e1⟩ := findLoop_steps m.nodes k _ _ _ _ he
    obtain ⟨s2, r2⟩ := findLoop_spec m.nodes k _ s1 hb2
    rcases r2 with ⟨he2, _⟩ | ⟨j, he2, _⟩ | ⟨j, he2, _⟩
    · obtain ⟨c2, hc2, e2⟩ := findLoop_steps m.nodes k _ _ _ _ he2
      simp only [find, hidx, if_neg hnl, he, he2, Option.some.injEq, Prod.mk.injEq] at h
      refine ⟨c1 + c2, by omega, ?_⟩
      rw [← h.1]
      exact mod_chain e1 e2
    · obtain ⟨c2, hc2, e2⟩ := findLoop_steps m.nodes k _ _ _ _ he2
      simp only [find, hidx, if_neg hnl, he, he2, Option.some.injEq, Prod.mk.injEq] at h
      refine ⟨c1 + c2, by omega, ?_⟩
      rw [← h.1]
      exact mod_chain e1 e2
    · obtain ⟨c2, hc2, e2⟩ := findLoop_steps m.nodes k _ _ _ _ he2
      simp only [find, hidx, if_neg hnl, he, he2, Option.some.injEq, Prod.mk.injEq] at h
      refine ⟨c1 + c2, by omega, ?_⟩
      rw [← h.1]
      exact mod_chain e1 e2
  · obtain ⟨c1, hc1, e1⟩ := findLoop_steps m.nodes k _ _ _ _ he
    simp only [find, hidx, if_neg hnl, he, Option.some.injEq, Prod.mk.injEq] at h
    refine ⟨c1, by omega, ?_⟩
    rw [← h.1]
    exact e1
  · obtain ⟨c1, hc1, e1⟩ := findLoop_steps m.nodes k _ _ _ _ he
    simp only [find, hidx, if_neg hnl, he, Option.some.injEq, Prod.mk.injEq] at h
    refine ⟨c1, by omega, ?_⟩
    rw [← h.1]
    exact e1

/-! ## The contract -/

/-- C1 (insert-then-search): on every table reachable from `NewIntegerMap()`
by `Insert` (non-nil values), `Delete` and `Search` whose `Size()` is below
`2^31`, for every mixing function, key `k` and non-nil value `v`,
`Insert(k, v)` returns a nil error and the following `Search(k)` returns
`(v, nil)`. -/
theorem C1_insert_then_search {V : Type} (mix : Nat → Nat) (m : IntegerMap V) (k : Nat)
    (v : V) (hr : Reachable mix m) (hsz : Size m < 2 ^ 31) :
    ∃ m1, Insert mix m k (some v) = some (m1, none) ∧
      ∃ m2, Search mix m1 k = some (m2, some v, none) := by
  obtain ⟨m1, h1, h2, h3, _⟩ :=
    Insert_spec mix (reachable_inv hr) (Or.inl ((size_lt_iff m).1 hsz)) k v
  obtain ⟨m2, _, h4⟩ := stored_search h2.1.1 h3
  exact ⟨m1, h1, m2, h4⟩

/-- Instance of C1 on the fresh table: `Insert(1, 100)` then `Search(1)`. -/
theorem C1_insert_then_search_witness :
    Reachable Fmix32 (NewIntegerMap : IntegerMap Nat) ∧
      Size (NewIntegerMap : IntegerMap Nat) < 2 ^ 31 ∧
      ∃ m1, Insert Fmix32 (NewIntegerMap : IntegerMap Nat) 1 (some 100) = some (m1, none) ∧
        ∃ m2, Search Fmix32 m1 1 = some (m2, some 100, none) :=
  ⟨Reachable.new, by decide,
    C1_insert_then_search Fmix32 NewIntegerMap 1 100 Reachable.new (by decide)⟩

/-- C3 (insert-then-delete): on every reachable table with `Size()` below
`2^31`, after `Insert(k, v)` with a non-nil `v` the call `Delete(k)` returns
`(v, nil)` and makes `Len()` exactly one smaller; a following `Search(k)`
returns `(nil, ErrNotFound)`, and a following `Delete(k)` (directly, or after
that `Search`) returns `(nil, ErrNotFound)` and leaves `Len()` unchanged. -/
theorem C3_insert_then_delete {V : Type} (mix : Nat → Nat) (m : IntegerMap V) (k : Nat)
    (v : V) (hr : Reachable mix m) (hsz : Size m < 2 ^ 31) :
    ∃ m1, Insert mix m k (some v) = some (m1, none) ∧
      ∃ m2, Delete mix m1 k = some (m2, some v, none) ∧ Len m2 = Len m1 - 1 ∧
        (∃ m3, Search mix m2 k = some (m3, none, some error.ErrNotFound) ∧
          ∃ m4, Delete mix m3 k = some (m4, none, some error.ErrNotFound) ∧
            Len m4 = Len m2) ∧
        (∃ m4, Delete mix m2 k = some (m4, none, some error.ErrNotFound) ∧
          Len m4 = Len m2) := by
  obtain ⟨m1, h1, h2, h3, _⟩ :=
    Insert_spec mix (reachable_inv hr) (Or.inl ((size_lt_iff m).1 hsz)) k v
  obtain ⟨m2, d1, d2, d3, d4, d5⟩ := delete_stored mix h2.1.1 (by rw [h2.1.2]) h3
  refine ⟨m1, h1, m2, d1, ?_, ?_, ?_⟩
  · unfold Len
    omega
  · obtain ⟨m3, s1, s2⟩ := search_of_not_found d2 d5
    have hnf : ¬ ∃ j, ProbeFound m3.nodes (probeOf mix m3 k) k j := by
      rw [probeOf_congr mix (by rw [s1.1]) s1.2.2.1, s1.1]
      exact d5
    obtain ⟨m4, t1, t2⟩ := delete_of_not_found (shape_of_sameTable d2 s1) hnf
    refine ⟨m3, s2, m4, t2, ?_⟩
    unfold Len
    rw [t1.2.1, s1.2.1]
  · obtain ⟨m4, t1, t2⟩ := delete_of_not_found d2 d5
    refine ⟨m4, t2, ?_⟩
    unfold Len
    rw [t1.2.1]

/-- Instance of C3 on the fresh table with key 1 and value 100. -/
theorem C3_insert_then_delete_witness :
    Reachable Fmix32 (NewIntegerMap : IntegerMap Nat) ∧
      Size (NewIntegerMap : IntegerMap Nat) < 2 ^ 31 ∧
      ∃ m1, Insert Fmix32 (NewIntegerMap : IntegerMap Nat) 1 (some 100) = some (m1, none) ∧
        ∃ m2, Delete Fmix32 m1 1 = some (m2, some 100, none) ∧ Len m2 = Len m1 - 1 ∧
          (∃ m3, Search Fmix32 m2 1 = some (m3, none, some error.ErrNotFound) ∧
            ∃ m4, Delete Fmix32 m3 1 = some (m4, none, some error.ErrNotFound) ∧
              Len m4 = Len m2) ∧
          (∃ m4, Delete Fmix32 m2 1 = some (m4, none, some error.ErrNotFound) ∧
            Len m4 = Len m2) :=
  ⟨Reachable.new, by decide,
    C3_insert_then_delete Fmix32 NewIntegerMap 1 100 Reachable.new (by decide)⟩

/-- C5 (miss-before-insert): on the fresh table `NewIntegerMap()`, for every
mixing function and key `k`, `Search(k)` returns `(nil, ErrNotFound)` and
`Delete(k)` returns `(nil, ErrNotFound)`; both leave the slots untouched. -/
theorem C5_miss_before_insert {V : Type} (mix : Nat → Nat) (k : Nat) :
    (∃ m1, Search mix (NewIntegerMap : IntegerMap V) k =
        some (m1, none, some error.ErrNotFound) ∧ SameTable NewIntegerMap m1) ∧
      (∃ m1, Delete mix (NewIntegerMap : IntegerMap V) k =
        some (m1, none, some error.ErrNotFound) ∧ SameTable NewIntegerMap m1) := by
  have hs : Shape (NewIntegerMap : IntegerMap V) := inv_new.1.1
  have hnf := new_not_found (V := V) mix k
  obtain ⟨m1, s1, s2⟩ := search_of_not_found hs hnf
  obtain ⟨m2, t1, t2⟩ := delete_of_not_found hs hnf
  exact ⟨⟨m1, s2, s1⟩, ⟨m2, t2, t1⟩⟩

/-- C8 (capacity is a power of two): on every table reachable from
`NewIntegerMap()` by `Insert` (any value), `Delete` and `Search` whose
`Size()` is below `2^31`, `Size()` is a power of two and at least 16; `Insert`
returns and leaves `Size()` unchanged or exactly doubles it, and `Delete` and
`Search` return and leave `Size()` unchanged, so `Size()` never decreases. -/
theorem C8_capacity_power_of_two {V : Type} (mix : Nat → Nat) (m : IntegerMap V) (k : Nat)
    (v : Option V) (hr : ReachableAny mix m) (hsz : Size m < 2 ^ 31) :
    (∃ e : Nat, Size m = 2 ^ e) ∧ 16 ≤ Size m ∧
      (∃ m1, Insert mix m k v = some (m1, none) ∧
        (Size m1 = Size m ∨ Size m1 = 2 * Size m)) ∧
      (∃ m1 r, Delete mix m k = some (m1, r) ∧ Size m1 = Size m) ∧
      (∃ m1 r, Search mix m k = some (m1, r) ∧ Size m1 = Size m) := by
  have hi := reachableAny_inv hr
  obtain ⟨hs, ⟨e, he4, he31, he⟩, hcnt, hload⟩ := hi
  have h16 : (2 : Nat) ^ 4 ≤ 2 ^ e := Nat.pow_le_pow_right (by norm_num) he4
  norm_num at h16
  refine ⟨⟨e, ?_⟩, ?_, ?_, ?_, ?_⟩
  · unfold Size
    rw [he]
    push_cast
    rfl
  · unfold Size
    omega
  · obtain ⟨m1, h1, _, h3⟩ :=
      Insert_any_spec mix (reachableAny_inv hr) (Or.inl ((size_lt_iff m).1 hsz)) k v
    refine ⟨m1, h1, ?_⟩
    unfold Size
    rcases h3 with ⟨_, h, _⟩ | ⟨_, h, _⟩
    · left
      rw [h]
    · right
      rw [h]
      push_cast
      ring
  · obtain ⟨m1, r, h1, _, h3, _⟩ := delete_any mix hs hcnt k
    refine ⟨m1, r, h1, ?_⟩
    unfold Size
    rw [h3]
  · obtain ⟨m1, r, h1, h2⟩ := search_total mix hs k
    refine ⟨m1, r, h2, ?_⟩
    unfold Size
    rw [h1.2.2.1]

/-- Instance of C8 on the fresh table. -/
theorem C8_capacity_power_of_two_witness :
    ReachableAny Fmix32 (NewIntegerMap : IntegerMap Nat) ∧
      Size (NewIntegerMap : IntegerMap Nat) < 2 ^ 31 ∧
      (∃ e : Nat, Size (NewIntegerMap : IntegerMap Nat) = 2 ^ e) ∧
      16 ≤ Size (NewIntegerMap : IntegerMap Nat) ∧
      (∃ m1, Insert Fmix32 (NewIntegerMap : IntegerMap Nat) 1 (some 100) = some (m1, none) ∧
        (Size m1 = Size (NewIntegerMap : IntegerMap Nat) ∨
          Size m1 = 2 * Size (NewIntegerMap : IntegerMap Nat))) ∧
      (∃ m1 r, Delete Fmix32 (NewIntegerMap : IntegerMap Nat) 1 = some (m1, r) ∧
        Size m1 = Size (NewIntegerMap : IntegerMap Nat)) ∧
      (∃ m1 r, Search Fmix32 (NewIntegerMap : IntegerMap Nat) 1 = some (m1, r) ∧
        Size m1 = Size (NewIntegerMap : IntegerMap Nat)) :=
  ⟨ReachableAny.new, by decide,
    C8_capacity_power_of_two Fmix32 NewIntegerMap 1 (some 100) ReachableAny.new (by decide)⟩

/-- C9 (no mutation on a miss): on every table, a `Search(k)` that returns,
hit or miss, leaves the slot array, `numElements`, `numSlots` and `numResizes`
as they were; a `Delete(k)` that returns `ErrNotFound` returns a nil value and
leaves them as they were too; and on a table whose array has `numSlots` slots
(`numSlots` a positive `uint32`) both calls do return. -/
theorem C9_no_mutation_on_miss {V : Type} (mix : Nat → Nat) (m : IntegerMap V) (k : Nat) :
    (∀ m1 r, Search mix m k = some (m1, r) →
        m1.nodes = m.nodes ∧ m1.stats.numElements = m.stats.numElements ∧
          m1.stats.numSlots = m.stats.numSlots ∧
          m1.stats.numResizes = m.stats.numResizes) ∧
      (∀ m1 v, Delete mix m k = some (m1, v, some error.ErrNotFound) →
        v = none ∧ m1.nodes = m.nodes ∧ m1.stats.numElements = m.stats.numElements ∧
          m1.stats.numSlots = m.stats.numSlots ∧
          m1.stats.numResizes = m.stats.numResizes) ∧
      (m.nodes.length = m.stats.numSlots → 0 < m.stats.numSlots →
        m.stats.numSlots < u32 →
        (∃ m1 r, Search mix m k = some (m1, r)) ∧
          ∃ m1 r, Delete mix m k = some (m1, r)) := by
  refine ⟨?_, ?_, ?_⟩
  · intro m1 r h
    exact Search_frame mix h
  · intro m1 v h
    obtain ⟨h1, h2⟩ := Delete_frame mix h
    exact ⟨h2, h1⟩
  · intro h1 h2 h3
    have hs : Shape m := ⟨h1, h2, h3⟩
    obtain ⟨m1, r, _, hse⟩ := search_total mix hs k
    refine ⟨⟨m1, r, hse⟩, ?_⟩
    by_cases hf : ∃ j, ProbeFound m.nodes (probeOf mix m k) k j
    · obtain ⟨j, hp⟩ := hf
      have hp0 := hp
      obtain ⟨_, _, _, _, n, hnj, _, _⟩ := hp
      obtain ⟨m2, hd, _⟩ := delete_of_found hs hp0 hnj
      exact ⟨m2, _, hd⟩
    · obtain ⟨m2, _, hd⟩ := delete_of_not_found hs hf
      exact ⟨m2, _, hd⟩

/-- Instance of C9 on the fresh table: `Search(1)` and `Delete(1)` return and
leave the table as it was. -/
theorem C9_no_mutation_on_miss_witness :
    ∃ m1 m2 : IntegerMap Nat,
      Search Fmix32 (NewIntegerMap : IntegerMap Nat) 1 =
        some (m1, none, some error.ErrNotFound) ∧
      Delete Fmix32 (NewIntegerMap : IntegerMap Nat) 1 =
        some (m2, none, some error.ErrNotFound) ∧
      m1.nodes = (NewIntegerMap : IntegerMap Nat).nodes ∧
      m2.nodes = (NewIntegerMap : IntegerMap Nat).nodes ∧
      m1.stats.numElements = 0 ∧ m2.stats.numElements = 0 := by
  have hs : Shape (NewIntegerMap : IntegerMap Nat) := inv_new.1.1
  obtain ⟨m1, _, s1⟩ := search_of_not_found hs (new_not_found Fmix32 1)
  obtain ⟨m2, _, d1⟩ := delete_of_not_found hs (new_not_found Fmix32 1)
  have hc := C9_no_mutation_on_miss Fmix32 (NewIntegerMap : IntegerMap Nat) 1
  obtain ⟨a1, a2, _, _⟩ := hc.1 m1 _ s1
  obtain ⟨_, b1, b2, _, _⟩ := hc.2.1 m2 _ d1
  exact ⟨m1, m2, s1, d1, a1, b1, a2, b2⟩

/-- C10 (the full-table case is unreachable): on every table reachable from
`NewIntegerMap()` by `Insert` (any value), `Delete` and `Search` whose
`Size()` is below `2^31`, for every key `k` and value `v`, `Insert(k, v)`
returns with a nil error (so no `find` inside it, in `insert` or in the
re-insertions of `resize`, returned `-1` and the panic was not reached); the
table has an empty slot, and `find(k)` on it returns a non-negative index. -/
theorem C10_never_full {V : Type} (mix : Nat → Nat) (m : IntegerMap V) (k : Nat)
    (v : Option V) (hr : ReachableAny mix m) (hsz : Size m < 2 ^ 31) :
    (∃ m1, Insert mix m k v = some (m1, none)) ∧
      (∃ (j : Nat) (n : intnode V), m.nodes[j]? = some n ∧ n.value = none) ∧
      (∃ m1 i e, find mix m k = some (m1, i, e) ∧ 0 ≤ i) := by
  have hi := reachableAny_inv hr
  obtain ⟨m1, h1, _, _⟩ := Insert_any_spec mix hi (Or.inl ((size_lt_iff m).1 hsz)) k v
  obtain ⟨j, n, hn, hv⟩ := invAny_vacant hi
  refine ⟨⟨m1, h1⟩, ⟨j, n, hn, ?_⟩, find_nonneg mix hi.1 (invAny_vacant hi) k⟩
  cases hh : n.value with
  | none => rfl
  | some x =>
    rw [hh] at hv
    cases hv

/-- Instance of C10 on the fresh table. -/
theorem C10_never_full_witness :
    ReachableAny Fmix32 (NewIntegerMap : IntegerMap Nat) ∧
      Size (NewIntegerMap : IntegerMap Nat) < 2 ^ 31 ∧
      (∃ m1, Insert Fmix32 (NewIntegerMap : IntegerMap Nat) 1 (some 100) = some (m1, none)) ∧
      (∃ (j : Nat) (n : intnode Nat),
        (NewIntegerMap : IntegerMap Nat).nodes[j]? = some n ∧ n.value = none) ∧
      (∃ m1 i e, find Fmix32 (NewIntegerMap : IntegerMap Nat) 1 = some (m1, i, e) ∧ 0 ≤ i) :=
  ⟨ReachableAny.new, by decide,
    C10_never_full Fmix32 NewIntegerMap 1 (some 100) ReachableAny.new (by decide)⟩

/-- C6 (no duplicate keys), the code at a failing input: with the mixing
function `Fmix32` keys 1 and 3 both start their probe at slot 7 of 16.  After
`Insert(1,100); Insert(3,300); Delete(1); Insert(3,301)` on a fresh table the
reachable table holds key 3 twice, in the non-empty slots 7 and 8: `Delete`
emptied slot 7, so the probe of the last `Insert` stopped there and never saw
the copy in slot 8. -/
theorem C6_duplicate_keys :
    ∃ m : IntegerMap Nat,
      runOps Fmix32 NewIntegerMap
        [Op.insert 1 100, Op.insert 3 300, Op.delete 1, Op.insert 3 301] = some m ∧
      Reachable Fmix32 m ∧
      m.nodes[7]? = some { key := 3, value := some 301 } ∧
      m.nodes[8]? = some { key := 3, value := some 300 } := by
  have h : (runOps Fmix32 (NewIntegerMap : IntegerMap Nat)
      [Op.insert 1 100, Op.insert 3 300, Op.delete 1, Op.insert 3 301]).map
        (fun m => (m.nodes[7]?, m.nodes[8]?)) =
      some (some { key := 3, value := some 301 }, some { key := 3, value := some 300 }) := by
    decide
  cases hrun : runOps Fmix32 (NewIntegerMap : IntegerMap Nat)
      [Op.insert 1 100, Op.insert 3 300, Op.delete 1, Op.insert 3 301] with
  | none =>
    rw [hrun] at h
    cases h
  | some m =>
    rw [hrun] at h
    simp only [Option.map_some', Option.some.injEq, Prod.mk.injEq] at h
    exact ⟨m, rfl, reachable_runOps Fmix32 _ _ _ Reachable.new hrun, h.1, h.2⟩

/-- C7 as stated fails: thirteen `Insert` calls with distinct keys on a fresh
table (mixing function `Fmix32`) return a table with `Len() = 13` and
`Size() = 16`, a load of `13/16 > 0.75`. -/
theorem C7_load_factor_exceeded :
    ∃ m : IntegerMap Nat,
      insertAll Fmix32 NewIntegerMap
        [(0, 0), (1, 1), (2, 2), (3, 3), (4, 4), (5, 5), (6, 6), (7, 7), (8, 8), (9, 9),
          (10, 10), (11, 11), (12, 12)] = some m ∧
      Len m = 13 ∧ Size m = 16 ∧ ¬ (4 * Len m ≤ 3 * Size m) := by
  have h : (insertAll Fmix32 (NewIntegerMap : IntegerMap Nat)
      [(0, 0), (1, 1), (2, 2), (3, 3), (4, 4), (5, 5), (6, 6), (7, 7), (8, 8), (9, 9),
        (10, 10), (11, 11), (12, 12)]).map (fun m => (Len m, Size m)) = some (13, 16) := by
    decide
  cases hrun : insertAll Fmix32 (NewIntegerMap : IntegerMap Nat)
      [(0, 0), (1, 1), (2, 2), (3, 3), (4, 4), (5, 5), (6, 6), (7, 7), (8, 8), (9, 9),
        (10, 10), (11, 11), (12, 12)] with
  | none =>
    rw [hrun] at h
    cases h
  | some m =>
    rw [hrun] at h
    simp only [Option.map_some', Option.some.injEq, Prod.mk.injEq] at h
    refine ⟨m, rfl, h.1, h.2, ?_⟩
    rw [h.1, h.2]
    decide

/-- C7 amended (load-factor bound): for every finite sequence of `Insert`
calls with non-nil values on a fresh table, after the last call has returned
`4 * (Len() - 1) <= 3 * Size()`, that is the load exceeds three quarters by at
most one element (the test precedes the insertion); and a sequence of at most
`2^30` calls does return. -/
theorem C7_load_factor_bound {V : Type} (mix : Nat → Nat) (ops : List (Nat × V)) :
    (∀ m, insertAll mix (NewIntegerMap : IntegerMap V) ops = some m →
        4 * (Len m - 1) ≤ 3 * Size m) ∧
      (ops.length ≤ 2 ^ 30 → ∃ m, insertAll mix (NewIntegerMap : IntegerMap V) ops = some m) := by
  constructor
  · intro m h
    have hi := reachable_inv (reachable_insertAll mix ops _ m Reachable.new h)
    have := hi.2.2
    unfold Len Size
    omega
  · intro hlen
    apply insertAll_total mix ops _ inv_new
    show 0 + ops.length ≤ 1073741824
    norm_num at hlen
    omega

/-- Instance of the amended C7 on the thirteen insertions that refute the
original bound. -/
theorem C7_load_factor_bound_witness :
    ∃ m : IntegerMap Nat,
      insertAll Fmix32 NewIntegerMap
        [(0, 0), (1, 1), (2, 2), (3, 3), (4, 4), (5, 5), (6, 6), (7, 7), (8, 8), (9, 9),
          (10, 10), (11, 11), (12, 12)] = some m ∧
      4 * (Len m - 1) ≤ 3 * Size m := by
  have hc := C7_load_factor_bound Fmix32
    ([(0, 0), (1, 1), (2, 2), (3, 3), (4, 4), (5, 5), (6, 6), (7, 7), (8, 8), (9, 9),
      (10, 10), (11, 11), (12, 12)] : List (Nat × Nat))
  obtain ⟨m, hm⟩ := hc.2 (by decide)
  exact ⟨m, hm, hc.1 m hm⟩

/-- C4 (overwrite semantics): on every reachable table with `Size()` below
`2^31`, for every key `k` and non-nil values `v1`, `v2`, both `Insert(k, v1)`
and the following `Insert(k, v2)` return a nil error, `Len()` after the second
is not greater than after the first, and `Search(k)` then returns
`(v2, nil)`. -/
theorem C4_overwrite {V : Type} (mix : Nat → Nat) (m : IntegerMap V) (k : Nat) (v1 v2 : V)
    (hr : Reachable mix m) (hsz : Size m < 2 ^ 31) :
    ∃ m1, Insert mix m k (some v1) = some (m1, none) ∧
      ∃ m2, Insert mix m1 k (some v2) = some (m2, none) ∧ Len m2 ≤ Len m1 ∧
        ∃ m3, Search mix m2 k = some (m3, some v2, none) := by
  have hi := reachable_inv hr
  have hlt := (size_lt_iff m).1 hsz
  obtain ⟨m1, h1, h2, h3, h4, h5⟩ := Insert_spec mix hi (Or.inl hlt) k v1
  obtain ⟨m2, g1, g2, g3, g4⟩ :=
    Insert_overwrite mix h2 (Insert_next_ok hi hlt h4 h5) h3 v2
  obtain ⟨m3, _, s1⟩ := stored_search g2.1.1 g3
  refine ⟨m1, h1, m2, g1, ?_, m3, s1⟩
  unfold Len
  omega

/-- Instance of C4 from the test: `Insert(1, 100); Insert(1, 200)` on a fresh
table. -/
theorem C4_overwrite_witness :
    Reachable Fmix32 (NewIntegerMap : IntegerMap Nat) ∧
      Size (NewIntegerMap : IntegerMap Nat) < 2 ^ 31 ∧
      ∃ m1, Insert Fmix32 (NewIntegerMap : IntegerMap Nat) 1 (some 100) = some (m1, none) ∧
        ∃ m2, Insert Fmix32 m1 1 (some 200) = some (m2, none) ∧ Len m2 ≤ Len m1 ∧
          ∃ m3, Search Fmix32 m2 1 = some (m3, some 200, none) :=
  ⟨Reachable.new, by decide,
    C4_overwrite Fmix32 NewIntegerMap 1 100 200 Reachable.new (by decide)⟩

/-- C2 (resize preserves all entries): for every list of `Insert(k_i, v_i)`
calls with non-nil values and at most `2^30` distinct keys, applied in order to
a fresh table with any mixing function (however many resizes that forces),
every call returns, and afterwards `Len()` is the number of distinct keys of the
list, `Search(k)` returns `(v, nil)` for the value `v` of the last `Insert` of
every key `k` of the list, and `Search(k)` returns `(nil, ErrNotFound)` for
every key that is not in the list. -/
theorem C2_resize_preserves_entries {V : Type} (mix : Nat → Nat) (ops : List (Nat × V))
    (hn : (ops.map Prod.fst).dedup.length ≤ 2 ^ 30) :
    ∃ m, insertAll mix (NewIntegerMap : IntegerMap V) ops = some m ∧
      Len m = ((ops.map Prod.fst).dedup.length : Int) ∧
      (∀ k v, (∃ pre post, ops = pre ++ (k, v) :: post ∧ ∀ p ∈ post, p.1 ≠ k) →
        ∃ m1, Search mix m k = some (m1, some v, none)) ∧
      (∀ k, (∀ p ∈ ops, p.1 ≠ k) →
        ∃ m1, Search mix m k = some (m1, none, some error.ErrNotFound)) := by
  have hi0 : Inv (NewIntegerMap : IntegerMap V) := inv_new
  have hg0 := good_new (V := V) mix
  have hk0 : keysOf (NewIntegerMap : IntegerMap V).nodes = [] := keysOf_replicate _
  have hcard : ((keysOf (NewIntegerMap : IntegerMap V).nodes).toFinset ∪
      (ops.map Prod.fst).toFinset).card ≤ 1073741824 := by
    rw [hk0, List.toFinset_nil, Finset.empty_union, List.card_toFinset]
    norm_num at hn
    exact hn
  obtain ⟨m, hrun⟩ := insertAll_total_good mix ops _ hi0 hg0 hcard
  obtain ⟨hi, hg, hc⟩ := insertAll_good mix ops _ m hi0 hg0 hrun
  have hcont : ∀ k v, Holds m.nodes k v ↔ LastValue ops k v := by
    intro k v
    rw [hc k v]
    constructor
    · rintro (h | ⟨_, h⟩)
      · exact h
      · exact absurd h (not_holds_replicate _ k v)
    · exact fun h => Or.inl h
  refine ⟨m, hrun, ?_, ?_, ?_⟩
  · have hkeys : (keysOf m.nodes).toFinset = (ops.map Prod.fst).toFinset := by
      ext k
      simp only [List.mem_toFinset, mem_keysOf]
      constructor
      · rintro ⟨v, hv⟩
        exact List.mem_map.2 ⟨(k, v), lastValue_mem ((hcont k v).1 hv), rfl⟩
      · intro h
        obtain ⟨v, hv⟩ := lastValue_exists ops k h
        exact ⟨v, (hcont k v).2 hv⟩
    unfold Len
    rw [numElements_eq_card hi hg, hkeys, List.card_toFinset]
  · intro k v h
    obtain ⟨m1, _, hs⟩ := search_good_hit hi.1.1 hg ((hcont k v).2 h)
    exact ⟨m1, hs⟩
  · intro k h
    have hno : ¬ ∃ v, Holds m.nodes k v := by
      rintro ⟨v, hv⟩
      exact h (k, v) (lastValue_mem ((hcont k v).1 hv)) rfl
    obtain ⟨m1, _, hs⟩ := search_miss mix hi.1.1 hno
    exact ⟨m1, hs⟩

/-- Instance of C2 from the test: inserting `i -> i` for `i` in `0..9` gives
`Len() == 10` and `Search(9) == 9`. -/
theorem C2_resize_preserves_entries_witness :
    ((([(0, 0), (1, 1), (2, 2), (3, 3), (4, 4), (5, 5), (6, 6), (7, 7), (8, 8), (9, 9)] :
        List (Nat × Nat)).map Prod.fst).dedup.length ≤ 2 ^ 30) ∧
      ∃ m : IntegerMap Nat,
        insertAll Fmix32 NewIntegerMap
          [(0, 0), (1, 1), (2, 2), (3, 3), (4, 4), (5, 5), (6, 6), (7, 7), (8, 8), (9, 9)] =
            some m ∧
        Len m = 10 ∧ ∃ m1, Search Fmix32 m 9 = some (m1, some 9, none) := by
  have hlen : (([(0, 0), (1, 1), (2, 2), (3, 3), (4, 4), (5, 5), (6, 6), (7, 7), (8, 8),
      (9, 9)] : List (Nat × Nat)).map Prod.fst).dedup.length = 10 := by decide
  have hle : (([(0, 0), (1, 1), (2, 2), (3, 3), (4, 4), (5, 5), (6, 6), (7, 7), (8, 8),
      (9, 9)] : List (Nat × Nat)).map Prod.fst).dedup.length ≤ 2 ^ 30 := by
    rw [hlen]
    norm_num
  obtain ⟨m, h1, h2, h3, _⟩ := C2_resize_preserves_entries Fmix32
    ([(0, 0), (1, 1), (2, 2), (3, 3), (4, 4), (5, 5), (6, 6), (7, 7), (8, 8), (9, 9)] :
      List (Nat × Nat)) hle
  refine ⟨hle, m, h1, ?_, ?_⟩
  · rw [h2, hlen]
    rfl
  · exact h3 9 9 ⟨[(0, 0), (1, 1), (2, 2), (3, 3), (4, 4), (5, 5), (6, 6), (7, 7), (8, 8)],
      [], rfl, fun p hp => absurd hp (List.not_mem_nil p)⟩

/-- C11 (`Len()` never exceeds `Size()`): on every table reachable from
`NewIntegerMap()` by `Insert` (any value), `Delete` and `Search`,
`Len() <= Size()`; every `Delete` returns, a `Delete` that finds its key is
called with `Len() > 0` and lowers `Len()` by exactly one (no wrap-around of
`numElements`), and a `Delete` that misses leaves `Len()` unchanged. -/
theorem C11_len_le_size {V : Type} (mix : Nat → Nat) (m : IntegerMap V) (k : Nat)
    (hr : ReachableAny mix m) :
    Len m ≤ Size m ∧
      ∃ m1 r, Delete mix m k = some (m1, r) ∧ Len m1 ≤ Len m ∧
        (r.2 = none → 0 < Len m ∧ Len m1 = Len m - 1) ∧
        (r.2 = some error.ErrNotFound → Len m1 = Len m) := by
  have hi := reachableAny_inv hr
  have hle := (invAny_le hi).1
  refine ⟨by unfold Len Size; omega, ?_⟩
  rcases delete_any_cases mix hi.1 hi.2.2.1 k with ⟨m1, hd, hst⟩ | ⟨m1, v, hd, he, _⟩
  · have hn := hst.2.1
    refine ⟨m1, _, hd, ?_, ?_, ?_⟩
    · unfold Len
      omega
    · intro h
      cases h
    · intro _
      unfold Len
      omega
  · refine ⟨m1, _, hd, ?_, ?_, ?_⟩
    · unfold Len
      omega
    · intro _
      unfold Len
      omega
    · intro h
      cases h

/-- Instance of C11 on the fresh table. -/
theorem C11_len_le_size_witness :
    ReachableAny Fmix32 (NewIntegerMap : IntegerMap Nat) ∧
      Len (NewIntegerMap : IntegerMap Nat) ≤ Size (NewIntegerMap : IntegerMap Nat) ∧
      ∃ m1 r, Delete Fmix32 (NewIntegerMap : IntegerMap Nat) 1 = some (m1, r) ∧
        Len m1 ≤ Len (NewIntegerMap : IntegerMap Nat) ∧
        (r.2 = none → 0 < Len (NewIntegerMap : IntegerMap Nat) ∧
          Len m1 = Len (NewIntegerMap : IntegerMap Nat) - 1) ∧
        (r.2 = some error.ErrNotFound → Len m1 = Len (NewIntegerMap : IntegerMap Nat)) :=
  ⟨ReachableAny.new, C11_len_le_size Fmix32 NewIntegerMap 1 ReachableAny.new⟩

/-- C12 (construction): `NewIntegerMap()` has `Size() == 16`, the value of
`RoundUpPowerOfTwo32` at the default capacity 10, `Len() == 0`, exactly 16
slots, all of them zero-valued and so empty, and the counters `numFinds`,
`numSteps` and `numResizes` all zero. -/
theorem C12_construction {V : Type} :
    RoundUpPowerOfTwo32 DefaultIntegerMapSize = 16 ∧
      Size (NewIntegerMap : IntegerMap V) = 16 ∧
      Len (NewIntegerMap : IntegerMap V) = 0 ∧
      (NewIntegerMap : IntegerMap V).nodes.length = 16 ∧
      (NewIntegerMap : IntegerMap V).nodes = List.replicate 16 emptyNode ∧
      (∀ n ∈ (NewIntegerMap : IntegerMap V).nodes, n.key = 0 ∧ n.value = none) ∧
      (NewIntegerMap : IntegerMap V).stats.numFinds = 0 ∧
      (NewIntegerMap : IntegerMap V).stats.numSteps = 0 ∧
      (NewIntegerMap : IntegerMap V).stats.numResizes = 0 := by
  have hr := roundUp_default
  have hnodes : (NewIntegerMap : IntegerMap V).nodes = List.replicate 16 emptyNode := by
    show List.replicate (RoundUpPowerOfTwo32 DefaultIntegerMapSize) emptyNode = _
    rw [hr]
  refine ⟨hr, ?_, rfl, ?_, hnodes, ?_, rfl, rfl, rfl⟩
  · show ((RoundUpPowerOfTwo32 DefaultIntegerMapSize % u32 : Nat) : Int) = 16
    rw [hr]
    rfl
  · rw [hnodes, List.length_replicate]
  · intro n hn
    rw [hnodes] at hn
    have := List.eq_of_mem_replicate hn
    rw [this]
    exact ⟨rfl, rfl⟩

/-- C18 (`Len()` counts the live slots): on every table reachable from
`NewIntegerMap()` by `Insert` (non-nil values), `Delete` and `Search`,
`numElements`, the result of `Len()`, is the number of slots whose value is
non-nil. -/
theorem C18_len_counts_live_slots {V : Type} (mix : Nat → Nat) (m : IntegerMap V)
    (hr : Reachable mix m) :
    Len m = ((m.nodes.countP (fun n => n.value.isSome) : Nat) : Int) ∧
      m.stats.numElements = (m.nodes.filter (fun n => n.value.isSome)).length := by
  have h := (reachable_inv hr).1.2
  unfold liveCount at h
  refine ⟨?_, ?_⟩
  · unfold Len
    rw [h]
  · rw [h, List.countP_eq_length_filter]

/-- Instance of C18 on the fresh table. -/
theorem C18_len_counts_live_slots_witness :
    Reachable Fmix32 (NewIntegerMap : IntegerMap Nat) ∧
      Len (NewIntegerMap : IntegerMap Nat) =
        (((NewIntegerMap : IntegerMap Nat).nodes.countP (fun n => n.value.isSome) : Nat) :
          Int) ∧
      (NewIntegerMap : IntegerMap Nat).stats.numElements =
        ((NewIntegerMap : IntegerMap Nat).nodes.filter (fun n => n.value.isSome)).length :=
  ⟨Reachable.new, C18_len_counts_live_slots Fmix32 NewIntegerMap Reachable.new⟩

/-- C19 (indexing is always in bounds): on every table reachable from
`NewIntegerMap()` by `Insert` (any value), `Delete` and `Search` whose
`Size()` is below `2^31`, the slot array has `numSlots` slots and, for every
mixing function and key, `index(k) < numSlots`; `find` returns an index `i`
with `0 <= i < len(nodes)` (never `-1`), and `Search`, `Delete` and `Insert`
return, that is none of their slice expressions or `nodes[i]` accesses is out
of range. -/
theorem C19_indexing_in_bounds {V : Type} (mix : Nat → Nat) (m : IntegerMap V) (k : Nat)
    (v : Option V) (hr : ReachableAny mix m) (hsz : Size m < 2 ^ 31) :
    m.nodes.length = m.stats.numSlots ∧
      (∀ (mix1 : Nat → Nat) (k1 : Nat), index mix1 m k1 < m.stats.numSlots) ∧
      (∃ m1 i e, find mix m k = some (m1, i, e) ∧ 0 ≤ i ∧ i < (m.nodes.length : Int)) ∧
      (∃ m1 r, Search mix m k = some (m1, r)) ∧
      (∃ m1 r, Delete mix m k = some (m1, r)) ∧
      (∃ m1, Insert mix m k v = some (m1, none)) := by
  have hi := reachableAny_inv hr
  have hs := hi.1
  refine ⟨hs.1, fun mix1 k1 => index_lt mix1 m k1 hs.2.1,
    find_in_bounds mix hs (invAny_vacant hi) k, ?_, ?_, ?_⟩
  · obtain ⟨m1, r, _, h⟩ := search_total mix hs k
    exact ⟨m1, r, h⟩
  · obtain ⟨m1, r, h, _⟩ := delete_any mix hs hi.2.2.1 k
    exact ⟨m1, r, h⟩
  · obtain ⟨m1, h, _⟩ := Insert_any_spec mix hi (Or.inl ((size_lt_iff m).1 hsz)) k v
    exact ⟨m1, h⟩

/-- Instance of C19 on the fresh table. -/
theorem C19_indexing_in_bounds_witness :
    ReachableAny Fmix32 (NewIntegerMap : IntegerMap Nat) ∧
      Size (NewIntegerMap : IntegerMap Nat) < 2 ^ 31 ∧
      (NewIntegerMap : IntegerMap Nat).nodes.length =
        (NewIntegerMap : IntegerMap Nat).stats.numSlots ∧
      (∀ (mix1 : Nat → Nat) (k1 : Nat),
        index mix1 (NewIntegerMap : IntegerMap Nat) k1 <
          (NewIntegerMap : IntegerMap Nat).stats.numSlots) ∧
      (∃ m1 i e, find Fmix32 (NewIntegerMap : IntegerMap Nat) 1 = some (m1, i, e) ∧ 0 ≤ i ∧
        i < ((NewIntegerMap : IntegerMap Nat).nodes.length : Int)) ∧
      (∃ m1 r, Search Fmix32 (NewIntegerMap : IntegerMap Nat) 1 = some (m1, r)) ∧
      (∃ m1 r, Delete Fmix32 (NewIntegerMap : IntegerMap Nat) 1 = some (m1, r)) ∧
      (∃ m1, Insert Fmix32 (NewIntegerMap : IntegerMap Nat) 1 (some 100) = some (m1, none)) :=
  ⟨ReachableAny.new, by decide,
    C19_indexing_in_bounds Fmix32 NewIntegerMap 1 (some 100) ReachableAny.new (by decide)⟩

/-- C20 (inserting the empty sentinel): on the fresh table, for every mixing
function and key `k`, `Insert(k, nil)` returns a nil error and raises `Len()`
from 0 to 1, yet every slot of the result has a nil value and `Search` returns
`(nil, ErrNotFound)` for `k` and for every other key: `Len()` is 1 while
`Search` can find no key. -/
theorem C20_insert_nil {V : Type} (mix : Nat → Nat) (k : Nat) :
    ∃ m1, Insert mix (NewIntegerMap : IntegerMap V) k none = some (m1, none) ∧
      Len (NewIntegerMap : IntegerMap V) = 0 ∧ Len m1 = 1 ∧
      (∀ n ∈ m1.nodes, n.value = none) ∧
      ∀ k1, ∃ m2, Search mix m1 k1 = some (m2, none, some error.ErrNotFound) := by
  have hi : Inv (NewIntegerMap : IntegerMap V) := inv_new
  have hs := hi.1.1
  have hov : overLoad (NewIntegerMap : IntegerMap V) = false :=
    overLoad_eq_false (by show 4 * 0 ≤ _; omega)
  have hroom : liveCount (NewIntegerMap : IntegerMap V).nodes <
      (NewIntegerMap : IntegerMap V).nodes.length := by
    have h1 := hi.1.2
    have h2 : (NewIntegerMap : IntegerMap V).stats.numElements = 0 := rfl
    have h3 := hs.1
    have h4 := hs.2.1
    omega
  obtain ⟨m1, j, h1, h2, h3, _, h5⟩ := insert_step mix hs hroom k (none : Option V)
  have hnone : ∀ n ∈ m1.nodes, n.value = none := by
    intro n hn
    rw [h2] at hn
    rcases List.mem_or_eq_of_mem_set hn with h | h
    · have := List.eq_of_mem_replicate h
      rw [this]
      rfl
    · rw [h]
  have hlen : m1.nodes.length = (NewIntegerMap : IntegerMap V).nodes.length := by
    rw [h2, List.length_set]
  have hs1 : Shape m1 := by
    unfold Shape
    rw [hlen, h3]
    exact hs
  refine ⟨m1, by rw [Insert_no_resize mix hov, h1], rfl, ?_, hnone, ?_⟩
  · rcases h5 with ⟨hp, _⟩ | ⟨_, he⟩
    · exact absurd ⟨j, hp⟩ (new_not_found mix k)
    · unfold Len
      rw [he]
      rfl
  · intro k1
    have hno : ¬ ∃ v, Holds m1.nodes k1 v := by
      rintro ⟨v, hv⟩
      have := hnone _ hv
      cases this
    obtain ⟨m2, _, hse⟩ := search_miss mix hs1 hno
    exact ⟨m2, hse⟩

/-- C15 (resize trigger of `Insert`): on every table reachable from
`NewIntegerMap()` by `Insert` (any value), `Delete` and `Search` with
`Len() = n` and `Size() = s < 2^31`, `Insert` returns and doubles `Size()` if
and only if `4n > 3s` (the load `n/s` is strictly above 0.75) when it is
called; otherwise it leaves `Size()` unchanged. -/
theorem C15_resize_trigger {V : Type} (mix : Nat → Nat) (m : IntegerMap V) (k : Nat)
    (v : Option V) (hr : ReachableAny mix m) (hsz : Size m < 2 ^ 31) :
    ∃ m1, Insert mix m k v = some (m1, none) ∧
      (Size m1 = 2 * Size m ↔ 3 * Size m < 4 * Len m) ∧
      (¬ 3 * Size m < 4 * Len m → Size m1 = Size m) := by
  have hi := reachableAny_inv hr
  have h16 := (invAny_le hi).2
  obtain ⟨m1, h1, _, h3⟩ := Insert_any_spec mix hi (Or.inl ((size_lt_iff m).1 hsz)) k v
  refine ⟨m1, h1, ?_, ?_⟩
  · unfold Size Len
    rcases h3 with ⟨ho, hsl, _⟩ | ⟨ho, hsl, _⟩
    · have := overLoad_false ho
      rw [hsl]
      omega
    · have := overLoad_true ho
      rw [hsl]
      push_cast
      omega
  · unfold Size Len
    rcases h3 with ⟨ho, hsl, _⟩ | ⟨ho, hsl, _⟩
    · intro _
      rw [hsl]
    · have := overLoad_true ho
      intro hn
      omega

/-- Instance of C15 from the test data: thirteen insertions of distinct keys
into a fresh table leave `Size() == 16`, and the fourteenth makes it 32. -/
theorem C15_resize_trigger_witness :
    ∃ m13 m14 : IntegerMap Nat,
      insertAll Fmix32 NewIntegerMap
        [(0, 0), (1, 1), (2, 2), (3, 3), (4, 4), (5, 5), (6, 6), (7, 7), (8, 8), (9, 9),
          (10, 10), (11, 11), (12, 12)] = some m13 ∧
      Size m13 = 16 ∧ Len m13 = 13 ∧
      Insert Fmix32 m13 13 (some 13) = some (m14, none) ∧ Size m14 = 32 := by
  have h : (insertAll Fmix32 (NewIntegerMap : IntegerMap Nat)
      [(0, 0), (1, 1), (2, 2), (3, 3), (4, 4), (5, 5), (6, 6), (7, 7), (8, 8), (9, 9),
        (10, 10), (11, 11), (12, 12)]).map (fun m => (Len m, Size m)) = some (13, 16) := by
    decide
  cases hrun : insertAll Fmix32 (NewIntegerMap : IntegerMap Nat)
      [(0, 0), (1, 1), (2, 2), (3, 3), (4, 4), (5, 5), (6, 6), (7, 7), (8, 8), (9, 9),
        (10, 10), (11, 11), (12, 12)] with
  | none =>
    rw [hrun] at h
    cases h
  | some m13 =>
    rw [hrun] at h
    simp only [Option.map_some', Option.some.injEq, Prod.mk.injEq] at h
    have hreach := reachable_any (reachable_insertAll Fmix32 _ _ m13 Reachable.new hrun)
    obtain ⟨m14, h1, h2, _⟩ := C15_resize_trigger Fmix32 m13 13 (some 13) hreach
      (by rw [h.2]; decide)
    refine ⟨m13, m14, rfl, h.2, h.1, h1, ?_⟩
    rw [h2.2 (by rw [h.1, h.2]; decide), h.2]
    rfl

/-- C16 (frame of a successful `Delete`): on every table and for every key
`k` for which `find(k)` returns `(i, nil)`, slot `i` exists and is non-empty
with key `k`; `Delete(k)` returns the value stored there with a nil error,
sets the value of slot `i` to nil and keeps its key, leaves every other slot
and the length of the array as they were, decrements `numElements` by one (as
a `uint32`; `Len()` drops by exactly one whenever it was positive), and leaves
`numSlots` and `numResizes` unchanged. -/
theorem C16_delete_frame {V : Type} (mix : Nat → Nat) (m m0 : IntegerMap V) (k : Nat)
    (i : Int) (h : find mix m k = some (m0, i, none)) :
    ∃ (j : Nat) (n : intnode V) (m1 : IntegerMap V),
      i = (j : Int) ∧ m.nodes[j]? = some n ∧ n.key = k ∧ n.value ≠ none ∧
      Delete mix m k = some (m1, n.value, none) ∧
      m1.nodes[j]? = some { key := n.key, value := none } ∧
      (∀ p : Nat, p ≠ j → m1.nodes[p]? = m.nodes[p]?) ∧
      m1.nodes.length = m.nodes.length ∧
      m1.stats.numElements = sub32 m.stats.numElements 1 ∧
      (0 < Len m → Len m1 = Len m - 1) ∧
      m1.stats.numSlots = m.stats.numSlots ∧
      m1.stats.numResizes = m.stats.numResizes := by
  obtain ⟨j, n, hi, hn, hl, hk, _⟩ := find_hit mix h
  subst hi
  obtain ⟨m1, d1, d2, d3, d4, d5⟩ := delete_of_find_hit mix h hn
  have hj := (List.getElem?_eq_some_iff.1 hn).1
  refine ⟨j, n, m1, rfl, hn, hk, ?_, d1, ?_, ?_, ?_, d3, ?_, d4, d5⟩
  · intro hv
    rw [hv] at hl
    cases hl
  · rw [d2, List.getElem?_set_self hj]
  · intro p hp
    rw [d2, List.getElem?_set_ne (Ne.symm hp)]
  · rw [d2, List.length_set]
  · intro hpos
    unfold Len at hpos ⊢
    rw [d3]
    unfold sub32
    rw [if_pos (by omega)]
    omega

/-- Instance of C16: on the table holding keys 1 and 3, `find(1)` hits slot 7
and `Delete(1)` empties that slot only. -/
theorem C16_delete_frame_witness :
    find Fmix32 twoKeyTable 1 =
        some ({ twoKeyTable with stats :=
                  { twoKeyTable.stats with numFinds := 3, numSteps := 4 } }, 7, none) ∧
      ∃ (j : Nat) (n : intnode Nat) (m1 : IntegerMap Nat),
        (7 : Int) = (j : Int) ∧ twoKeyTable.nodes[j]? = some n ∧ n.key = 1 ∧ n.value ≠ none ∧
        Delete Fmix32 twoKeyTable 1 = some (m1, n.value, none) ∧
        m1.nodes[j]? = some { key := n.key, value := none } ∧
        (∀ p : Nat, p ≠ j → m1.nodes[p]? = twoKeyTable.nodes[p]?) ∧
        m1.nodes.length = twoKeyTable.nodes.length ∧
        m1.stats.numElements = sub32 twoKeyTable.stats.numElements 1 ∧
        (0 < Len twoKeyTable → Len m1 = Len twoKeyTable - 1) ∧
        m1.stats.numSlots = twoKeyTable.stats.numSlots ∧
        m1.stats.numResizes = twoKeyTable.stats.numResizes :=
  ⟨by decide,
    C16_delete_frame Fmix32 twoKeyTable
      { twoKeyTable with stats := { twoKeyTable.stats with numFinds := 3, numSteps := 4 } }
      1 7 (by decide)⟩

/-- C17 (`Delete` does not disturb other keys), the code at a failing input:
with the mixing function `Fmix32`, `Insert(1, 100); Insert(3, 300)` on a fresh
table gives the reachable table `twoKeyTable`, on which `Search(3)` returns
`(300, nil)`; `Delete(1)` returns `(100, nil)` and gives `brokenTable`, on which
`Search(3)` returns `(nil, ErrNotFound)`: the probe for key 3 now stops at the
emptied slot 7, in front of slot 8 that still holds key 3. -/
theorem C17_delete_disturbs_other_key :
    runOps Fmix32 NewIntegerMap [Op.insert 1 100, Op.insert 3 300] = some twoKeyTable ∧
      Reachable Fmix32 twoKeyTable ∧
      (Search Fmix32 twoKeyTable 3).map Prod.snd = some (some 300, none) ∧
      Delete Fmix32 twoKeyTable 1 = some (brokenTable, some 100, none) ∧
      (Search Fmix32 brokenTable 3).map Prod.snd = some (none, some error.ErrNotFound) ∧
      brokenTable.nodes[8]? = some { key := 3, value := some 300 } := by
  have hrun : runOps Fmix32 NewIntegerMap [Op.insert 1 100, Op.insert 3 300] =
      some twoKeyTable := by decide
  exact ⟨hrun, reachable_runOps Fmix32 _ _ _ Reachable.new hrun, by decide, by decide,
    by decide, by decide⟩

/-- C14 as stated fails at `brokenTable`, the reachable table left by
`Insert(1, 100); Insert(3, 300); Delete(1)` with the mixing function `Fmix32`:
it has 16 slots, `numSlots = 16`, `numElements = 1` non-empty slot and no
repeated key, yet `Search(3)` returns `(nil, ErrNotFound)` before `resize()`
and `(300, nil)` after it. -/
theorem C14_resize_changes_search :
    brokenTable.nodes.length = brokenTable.stats.numSlots ∧
      brokenTable.stats.numSlots = 2 ^ 4 ∧
      brokenTable.stats.numElements =
        brokenTable.nodes.countP (fun n => n.value.isSome) ∧
      (keysOf brokenTable.nodes).Nodup ∧
      Reachable Fmix32 brokenTable ∧
      (Search Fmix32 brokenTable 3).map Prod.snd = some (none, some error.ErrNotFound) ∧
      ((resize Fmix32 brokenTable).bind (fun m1 => Search Fmix32 m1 3)).map Prod.snd =
        some (some 300, none) := by
  have hrun : runOps Fmix32 NewIntegerMap
      [Op.insert 1 100, Op.insert 3 300, Op.delete 1] = some brokenTable := by decide
  exact ⟨by decide, by decide, by decide, by decide,
    reachable_runOps Fmix32 _ _ _ Reachable.new hrun, by decide, by decide⟩

/-- C14 amended (`resize` is content-preserving): on every table whose array
has `numSlots` slots, `numSlots` a power of two below `2^31`, whose
`numElements` is the number of non-empty slots and whose non-empty slots hold
distinct keys, `resize()` returns; the new `numSlots` is twice the old, the
array has the new length, `numElements` is unchanged, `numResizes` is one more
(as a `uint32`), and afterwards `Search(k)` returns `(v, nil)` for every pair
`(k, v)` a non-empty slot of the old table held and `(nil, ErrNotFound)` for
every key no non-empty slot held; for every key that `Search` found before the
resize whenever a non-empty slot held it, `Search(k)` returns the same
`(value, error)` before and after. -/
theorem C14_resize_preserves_content {V : Type} (mix : Nat → Nat) (m : IntegerMap V)
    (hlen : m.nodes.length = m.stats.numSlots) (hpow : ∃ e, m.stats.numSlots = 2 ^ e)
    (hsz : m.stats.numSlots < 2 ^ 31)
    (hcnt : m.stats.numElements = m.nodes.countP (fun n => n.value.isSome))
    (hnd : (keysOf m.nodes).Nodup) :
    ∃ m1, resize mix m = some m1 ∧
      m1.stats.numSlots = 2 * m.stats.numSlots ∧
      m1.nodes.length = m1.stats.numSlots ∧
      m1.stats.numElements = m.stats.numElements ∧
      m1.stats.numResizes = (m.stats.numResizes + 1) % u32 ∧
      (∀ k v, ({ key := k, value := some v } : intnode V) ∈ m.nodes →
        ∃ m2, Search mix m1 k = some (m2, some v, none)) ∧
      (∀ k, (∀ v, ({ key := k, value := some v } : intnode V) ∉ m.nodes) →
        ∃ m2, Search mix m1 k = some (m2, none, some error.ErrNotFound)) ∧
      (∀ k, (∀ v, ({ key := k, value := some v } : intnode V) ∈ m.nodes →
          ∃ m2, Search mix m k = some (m2, some v, none)) →
        ∃ ma mb r, Search mix m k = some (ma, r) ∧ Search mix m1 k = some (mb, r)) := by
  obtain ⟨e, he⟩ := hpow
  have hpos : 0 < m.stats.numSlots := by
    rw [he]
    exact Nat.pos_pow_of_pos e (by norm_num)
  have hlt : m.stats.numSlots < 2147483648 := by
    norm_num at hsz
    exact hsz
  have hu : u32 = 4294967296 := rfl
  have hs : Shape m := ⟨hlen, hpos, by omega⟩
  obtain ⟨m1, r1, r2, r3, r4, r5, r6, r7⟩ := resize_content mix hs (by omega) hnd
  have hit : ∀ k v, ({ key := k, value := some v } : intnode V) ∈ m.nodes →
      ∃ m2, Search mix m1 k = some (m2, some v, none) := by
    intro k v h
    obtain ⟨m2, _, hse⟩ := search_good_hit r2.1 r3 ((r6 k v).2 h)
    exact ⟨m2, hse⟩
  have miss : ∀ k, (∀ v, ({ key := k, value := some v } : intnode V) ∉ m.nodes) →
      ∃ m2, Search mix m1 k = some (m2, none, some error.ErrNotFound) := by
    intro k h
    have hno : ¬ ∃ v, Holds m1.nodes k v := by
      rintro ⟨v, hv⟩
      exact h v ((r6 k v).1 hv)
    obtain ⟨m2, _, hse⟩ := search_miss mix r2.1 hno
    exact ⟨m2, hse⟩
  refine ⟨m1, r1, by rw [r4]; omega, r2.1.1, ?_, r5, hit, miss, ?_⟩
  · rw [r2.2, r7, hcnt]
    rfl
  · intro k hk
    by_cases hex : ∃ v, Holds m.nodes k v
    · obtain ⟨v, hv⟩ := hex
      obtain ⟨ma, ha⟩ := hk v hv
      obtain ⟨mb, hb⟩ := hit k v hv
      exact ⟨ma, mb, _, ha, hb⟩
    · obtain ⟨ma, _, ha⟩ := search_miss mix hs hex
      obtain ⟨mb, hb⟩ := miss k (fun v hv => hex ⟨v, hv⟩)
      exact ⟨ma, mb, _, ha, hb⟩

/-- Instance of the amended C14 at the table that refutes the original claim:
after `resize()` of `brokenTable` the stored key 3 is found. -/
theorem C14_resize_preserves_content_witness :
    brokenTable.nodes.length = brokenTable.stats.numSlots ∧
      (∃ e, brokenTable.stats.numSlots = 2 ^ e) ∧
      brokenTable.stats.numSlots < 2 ^ 31 ∧
      brokenTable.stats.numElements =
        brokenTable.nodes.countP (fun n => n.value.isSome) ∧
      (keysOf brokenTable.nodes).Nodup ∧
      ∃ m1, resize Fmix32 brokenTable = some m1 ∧
        m1.stats.numSlots = 32 ∧ m1.stats.numElements = 1 ∧
        ∃ m2, Search Fmix32 m1 3 = some (m2, some 300, none) := by
  have h1 : brokenTable.nodes.length = brokenTable.stats.numSlots := by decide
  have h2 : ∃ e, brokenTable.stats.numSlots = 2 ^ e := ⟨4, by decide⟩
  have h3 : brokenTable.stats.numSlots < 2 ^ 31 := by decide
  have h4 : brokenTable.stats.numElements =
      brokenTable.nodes.countP (fun n => n.value.isSome) := by decide
  have h5 : (keysOf brokenTable.nodes).Nodup := by decide
  obtain ⟨m1, r1, r2, _, r4, _, r6, _, _⟩ :=
    C14_resize_preserves_content Fmix32 brokenTable h1 h2 h3 h4 h5
  exact ⟨h1, h2, h3, h4, h5, m1, r1, r2, r4, r6 3 300 (by decide)⟩

/-- C13 (`find` equals the linear-probing reference): on every table whose
array has `numSlots` slots, `numSlots` a power of two (and a `uint32`), for
every mixing function and key `k`, `find(k)` returns the result of the
reference `findRef`: with the probe order `index(k), ..., numSlots-1, 0, ...,
index(k)-1`, the first slot `j` that is empty or holds `k` gives `(j, nil)`
when it is non-empty and `(j, ErrNotFound)` when it is empty, and the result is
`(-1, ErrNotFound)` exactly when every slot is non-empty and none holds `k`.
`find` changes the statistics only; the probe order lists every slot once, and
`numSteps` grows by the number of slots visited, at most `numSlots`. -/
theorem C13_find_refines_reference {V : Type} (mix : Nat → Nat) (m : IntegerMap V)
    (k : Nat) (hlen : m.nodes.length = m.stats.numSlots)
    (hpow : ∃ e, m.stats.numSlots = 2 ^ e) (hlt : m.stats.numSlots < 2 ^ 32) :
    ∃ m1, find mix m k = some (m1, findRef mix m k) ∧
      m1.nodes = m.nodes ∧ m1.stats.numElements = m.stats.numElements ∧
      m1.stats.numSlots = m.stats.numSlots ∧
      (findRef mix m k = ((-1 : Int), some error.ErrNotFound) ↔
        ∀ n ∈ m.nodes, n.value ≠ none ∧ n.key ≠ k) ∧
      (probeOrder (index mix m k) m.stats.numSlots).Nodup ∧
      (∀ p, p ∈ probeOrder (index mix m k) m.stats.numSlots ↔ p < m.stats.numSlots) ∧
      ∃ c, c ≤ m.stats.numSlots ∧
        m1.stats.numSteps % u32 = (m.stats.numSteps + c) % u32 := by
  obtain ⟨e, he⟩ := hpow
  have hpos : 0 < m.stats.numSlots := by
    rw [he]
    exact Nat.pos_pow_of_pos e (by norm_num)
  have hs : Shape m := by
    refine ⟨hlen, hpos, ?_⟩
    unfold u32
    norm_num at hlt
    exact hlt
  have hidx : index mix m k < m.stats.numSlots := index_lt mix m k hpos
  have hord : probeOrder (index mix m k) m.stats.numSlots = probeSeq (index mix m k)
      m.stats.numSlots := probeOrder_eq hidx
  obtain ⟨c1, c2, c3⟩ := findRef_cases mix hs k
  have hfull := probeFull_iff mix hs k
  have hfind : ∃ m1, SameTable m m1 ∧ find mix m k = some (m1, findRef mix m k) ∧
      (findRef mix m k = ((-1 : Int), some error.ErrNotFound) ↔
        ProbeFull m.nodes (probeOf mix m k) k) := by
    rcases probe_cases mix hs k with hf | ⟨j, hp⟩ | ⟨j, hp⟩
    · obtain ⟨m1, hst, hfd⟩ := find_of_full hs hf
      exact ⟨m1, hst, by rw [c1 hf]; exact hfd, fun _ => hf, fun _ => c1 hf⟩
    · obtain ⟨m1, hst, hfd⟩ := find_of_found hs hp
      refine ⟨m1, hst, by rw [c2 j hp]; exact hfd, ?_, fun hf => (probeFull_not_found hf hp).elim⟩
      intro h
      rw [c2 j hp] at h
      simp only [Prod.mk.injEq] at h
      omega
    · obtain ⟨m1, hst, hfd⟩ := find_of_vacant hs hp
      refine ⟨m1, hst, by rw [c3 j hp]; exact hfd, ?_, fun hf => (probeFull_not_vacant hf hp).elim⟩
      intro h
      rw [c3 j hp] at h
      simp only [Prod.mk.injEq] at h
      omega
  obtain ⟨m1, hst, hfd, hiff⟩ := hfind
  obtain ⟨c, hc, hsteps⟩ := find_steps mix hfd
  refine ⟨m1, hfd, hst.1, hst.2.1, hst.2.2.1, hiff.trans hfull, ?_, ?_, c, by omega, hsteps⟩
  · rw [hord]
    exact nodup_probeSeq _ _
  · intro p
    rw [hord]
    exact mem_probeSeq (by omega) p

/-- Instance of C13 on the table holding keys 1 and 3: the probe for key 3
starts at slot 7, steps over key 1 and returns `(8, nil)`. -/
theorem C13_find_refines_reference_witness :
    twoKeyTable.nodes.length = twoKeyTable.stats.numSlots ∧
      (∃ e, twoKeyTable.stats.numSlots = 2 ^ e) ∧
      twoKeyTable.stats.numSlots < 2 ^ 32 ∧
      findRef Fmix32 twoKeyTable 3 = (8, none) ∧
      ∃ m1, find Fmix32 twoKeyTable 3 = some (m1, (8, none)) ∧ m1.nodes = twoKeyTable.nodes := by
  have h1 : twoKeyTable.nodes.length = twoKeyTable.stats.numSlots := by decide
  have h2 : ∃ e, twoKeyTable.stats.numSlots = 2 ^ e := ⟨4, by decide⟩
  have h3 : twoKeyTable.stats.numSlots < 2 ^ 32 := by decide
  have h4 : findRef Fmix32 twoKeyTable 3 = (8, none) := by decide
  obtain ⟨m1, r1, r2, _⟩ := C13_find_refines_reference Fmix32 twoKeyTable 3 h1 h2 h3
  rw [h4] at r1
  exact ⟨h1, h2, h3, h4, m1, r1, r2⟩

end IntMap
